import Mathlib

/-!
# pqProxyGroupMenuManager: a verification development

Shallow embedding of `Qt/ApplicationComponents/pqProxyGroupMenuManager.cxx`
(ParaView).  Qt values are modelled by plain data:

* a `QString` is a list of characters;
* a `QVariant` is a small sum type with Qt's conversion rules;
* the settings store `pqSettings` is a map from keys to variants;
* `QAction` objects live in a heap (a list indexed by the allocation number of
  the action, a deleted action leaving an empty slot);
* menus are lists of menu items.

Definitions come first, theorems after them.
-/

namespace PGMM

/-! ## Qt strings -/

/-- A `QString`, as its sequence of characters. -/
abbrev QString := List Char

/-- The C string seen by a `const char*` consumer of `s.toUtf8().data()`: the
characters before the first NUL. -/
def toUtf8Data (s : QString) : QString :=
  s.takeWhile (fun c => c != Char.ofNat 0)

/-- Pieces of `s` between occurrences of the one-character separator `sep`
(`QString::split` with `Qt::KeepEmptyParts`). -/
def split (sep : Char) : QString → List QString
  | [] => [[]]
  | c :: cs =>
    if c = sep then [] :: split sep cs
    else
      match split sep cs with
      | [] => [[c]]
      | p :: ps => (c :: p) :: ps

/-- The call `s.split(sep, PV_QT_SKIP_EMPTY_PARTS)`: the non-empty pieces. -/
def splitSkipEmptyParts (sep : Char) (s : QString) : List QString :=
  (split sep s).filter (fun p => !p.isEmpty)

/-- The call `l.join(sep)` of `QStringList`. -/
def join (sep : Char) : List QString → QString
  | [] => []
  | [p] => p
  | p :: q :: ps => p ++ sep :: join sep (q :: ps)

/-- Value of `QChar::digitValue` on the ASCII digits; `none` stands for -1. -/
def digitValue (c : Char) : Option Nat :=
  if c.isDigit then some (c.toNat - 48) else none

/-- What follows a percent sign, as scanned by Qt's `findArgEscapes`: an
optional `L`, one digit, and one more digit when there is one.  Returns the
number of the place marker and how many characters after the percent sign
belong to it; `none` when the percent sign does not open a place marker. -/
def parseEscape (cs : List Char) : Option (Nat × Nat) :=
  let loc : Nat := match cs with
    | 'L' :: _ => 1
    | _ => 0
  match cs.drop loc with
  | [] => none
  | d1 :: rest =>
    match digitValue d1 with
    | none => none
    | some v1 =>
      match rest with
      | [] => some (v1, loc + 1)
      | d2 :: _ =>
        match digitValue d2 with
        | some v2 => some (10 * v1 + v2, loc + 2)
        | none => some (v1, loc + 1)

/-- A scanned piece of an `arg` template: a plain character, or a place marker
with its number and its source text. -/
inductive ArgToken where
  | lit (c : Char)
  | escape (n : Nat) (raw : List Char)
  deriving DecidableEq, Repr

/-- Left-to-right scan of a template into plain characters and place markers;
`skip` characters that belong to the marker just read are passed over. -/
def findArgEscapes : Nat → List Char → List ArgToken
  | _, [] => []
  | k + 1, _ :: cs => findArgEscapes k cs
  | 0, c :: cs =>
    if c = '%' then
      match parseEscape cs with
      | some (n, len) => ArgToken.escape n (c :: cs.take len) :: findArgEscapes len cs
      | none => ArgToken.lit c :: findArgEscapes 0 cs
    else ArgToken.lit c :: findArgEscapes 0 cs

/-- The lowest place-marker number of a scanned template (`min_escape`). -/
def minEscape : List ArgToken → Option Nat
  | [] => none
  | ArgToken.lit _ :: ts => minEscape ts
  | ArgToken.escape n _ :: ts =>
    match minEscape ts with
    | none => some n
    | some m => some (min n m)

/-- Rebuild the string, every marker numbered `m` replaced by `a`. -/
def replaceArgEscapes (m : Nat) (a : QString) : List ArgToken → QString
  | [] => []
  | ArgToken.lit c :: ts => c :: replaceArgEscapes m a ts
  | ArgToken.escape n raw :: ts =>
    (if n = m then a else raw) ++ replaceArgEscapes m a ts

/-- The call `s.arg(a)` of `QString`: every occurrence of the lowest-numbered
place marker of `s` is replaced by `a`; a string without a marker is returned
as it is. -/
def arg (s a : QString) : QString :=
  match minEscape (findArgEscapes 0 s) with
  | none => s
  | some m => replaceArgEscapes m a (findArgEscapes 0 s)

/-- UTF-16 code units of a character, the units `QString` compares. -/
def utf16Units (c : Char) : List Nat :=
  if c.toNat < 65536 then [c.toNat]
  else [55296 + (c.toNat - 65536) / 1024, 56320 + (c.toNat - 65536) % 1024]

/-- Lexicographic comparison of code-unit sequences. -/
def unitsLt : List Nat → List Nat → Bool
  | _, [] => false
  | [], _ :: _ => true
  | a :: as, b :: bs => a < b || (a == b && unitsLt as bs)

/-- The comparison `a < b` of two `QString`s. -/
def qstringLt (a b : QString) : Bool :=
  unitsLt (a.flatMap utf16Units) (b.flatMap utf16Units)

/-! ## Variants and the settings store -/

/-- A key sequence, kept as the value it was decoded from. -/
inductive QKeySequence where
  | empty
  | fromString (s : QString)
  | fromInt (i : Int)
  deriving DecidableEq, Repr

/-- The `QVariant` values that occur in this file. -/
inductive QVariant where
  | invalid
  | string (s : QString)
  | stringList (l : List QString)
  | bool (b : Bool)
  | int (i : Int)
  | keySequence (k : QKeySequence)
  deriving DecidableEq, Repr

/-- Conversion `toString()` for the variants that hold text. -/
def QVariant.toQString : QVariant → QString
  | QVariant.string s => s
  | QVariant.stringList [s] => s
  | QVariant.bool true => "true".toList
  | QVariant.bool false => "false".toList
  | QVariant.int i => (toString i).toList
  | _ => []

/-- Conversion `toStringList()`. -/
def QVariant.toStringList : QVariant → List QString
  | QVariant.stringList l => l
  | QVariant.string s => [s]
  | _ => []

/-- The test `canConvert<QKeySequence>()`. -/
def QVariant.canConvertKeySequence : QVariant → Bool
  | QVariant.string _ => true
  | QVariant.int _ => true
  | QVariant.keySequence _ => true
  | _ => false

/-- The conversion `value<QKeySequence>()`. -/
def QVariant.toKeySequence : QVariant → QKeySequence
  | QVariant.string s => QKeySequence.fromString s
  | QVariant.int i => QKeySequence.fromInt i
  | QVariant.keySequence k => k
  | _ => QKeySequence.empty

/-- The settings store: the value held under each key, if any. -/
abbrev pqSettings := QString → Option QVariant

/-- The call `settings->contains(key)`. -/
def pqSettings.contains (s : pqSettings) (key : QString) : Bool :=
  (s key).isSome

/-- The call `settings->value(key, dflt)`. -/
def pqSettings.value (s : pqSettings) (key : QString) (dflt : QVariant) : QVariant :=
  (s key).getD dflt

/-- The call `settings->setValue(key, v)`. -/
def pqSettings.setValue (s : pqSettings) (key : QString) (v : QVariant) : pqSettings :=
  fun k => if k = key then some v else s k

/-- The two-argument call `s.arg(a1, a2)`: one pass over `s`, the lowest-numbered
place marker replaced by `a1` and the next one by `a2`; the inserted texts are
not scanned again. -/
def arg2 (s a1 a2 : QString) : QString :=
  let toks := findArgEscapes 0 s
  match minEscape toks with
  | none => s
  | some m1 =>
    let rest := toks.filter (fun t =>
      match t with
      | ArgToken.escape n _ => decide (n ≠ m1)
      | ArgToken.lit _ => true)
    let m2 := minEscape rest
    (toks.map (fun t =>
      match t with
      | ArgToken.lit c => [c]
      | ArgToken.escape n raw =>
        if n = m1 then a1 else if some n = m2 then a2 else raw)).flatten

/-! ## Machine integers -/

/-- The conversion `static_cast<int>(u)` of an `unsigned int`: two's complement
on 32 bits. -/
def staticCastInt (u : Nat) : Int :=
  if u % 2 ^ 32 < 2 ^ 31 then ((u % 2 ^ 32 : Nat) : Int)
  else ((u % 2 ^ 32 : Nat) : Int) - 2 ^ 32

/-! ## Proxies, categories, XML and the registry -/

/-- Modelled from the spec: the descriptor `pqProxyInfo` of one menu-eligible
proxy (its class is declared outside the sources at hand; the fields are those
read by the menu manager). -/
structure pqProxyInfo where
  name : QString := []
  group : QString := []
  label : QString := []
  icon : QString := []
  omitFromToolbar : List QString := []
  hideFromMenu : Bool := false
  deriving DecidableEq, Repr

/-- Modelled from the spec: a node `pqProxyCategory` of a category tree, with
its direct proxies in authoring order and its sub-categories (the class is
declared outside the sources at hand). -/
structure pqProxyCategory where
  name : QString
  label : QString
  showInToolbar : Bool
  preserveOrder : Bool
  proxies : List pqProxyInfo
  subCategories : List pqProxyCategory

/-- The category built by the default constructor of `pqProxyCategory`. -/
def pqProxyCategory.empty : pqProxyCategory :=
  ⟨[], [], false, false, [], []⟩

/-- Modelled from the spec: `pqProxyCategory::isEmpty`, a node without direct
proxies and without sub-categories. -/
def pqProxyCategory.isEmpty (c : pqProxyCategory) : Bool :=
  c.proxies.isEmpty && c.subCategories.isEmpty

mutual
/-- Modelled from the spec: `pqProxyCategory::getProxiesRecursive`, the direct
proxies of the node followed by those of its sub-categories, recursively. -/
def pqProxyCategory.getProxiesRecursive : pqProxyCategory → List pqProxyInfo
  | ⟨_, _, _, _, ps, subs⟩ => ps ++ pqProxyCategory.getProxiesRecursiveList subs
/-- Proxies of a list of sibling categories, recursively. -/
def pqProxyCategory.getProxiesRecursiveList : List pqProxyCategory → List pqProxyInfo
  | [] => []
  | c :: cs => c.getProxiesRecursive ++ pqProxyCategory.getProxiesRecursiveList cs
end

/-- An XML element `vtkPVXMLElement`: its name (absent when `GetName()` is
null), its attributes and its nested elements. -/
structure vtkPVXMLElement where
  name : Option QString
  attributes : List (QString × QString)
  nested : List vtkPVXMLElement

/-- First nested element with the given name, as `FindNestedElementByName`
searches the direct children. -/
def findByName (name : QString) : List vtkPVXMLElement → Option vtkPVXMLElement
  | [] => none
  | e :: es => if e.name = some name then some e else findByName name es

/-- The call `e->FindNestedElementByName(name)`. -/
def vtkPVXMLElement.FindNestedElementByName (e : vtkPVXMLElement) (name : QString) :
    Option vtkPVXMLElement :=
  findByName name e.nested

/-- A prototype proxy, with the answer of `IsA("vtkSMCompoundSourceProxy")`. -/
structure vtkSMProxy where
  isCompoundSource : Bool := false
  deriving DecidableEq, Repr

/-- One item of a definition traversal: group, name and hints of a proxy
definition. -/
structure ProxyDefinition where
  group : QString := []
  name : QString := []
  hints : Option vtkPVXMLElement := none

/-- The registry of the active session (`vtkSMSessionProxyManager` with its
definition manager): prototype lookup by C strings, and the items visited by a
definition iterator restricted to the given traversal groups. -/
structure vtkSMSessionProxyManager where
  GetPrototypeProxy : QString → QString → Option vtkSMProxy
  traversal : List QString → List ProxyDefinition

/-- The operations of `pqProxyCategory` that parse and persist a tree.  Their
code is outside the sources at hand, so the manager is embedded over any
choice of them.  `modifiedOnWrite` tells whether the settings store delivers
its change notification while `writeSettings` runs. -/
structure pqProxyCategoryOps where
  convertLegacyXML : vtkPVXMLElement → vtkPVXMLElement
  parseXML : pqProxyCategory → vtkPVXMLElement → pqProxyCategory × Bool
  parseXMLHintsTag : pqProxyCategory → QString → QString → vtkPVXMLElement →
    pqProxyCategory × Bool
  writeSettings : pqProxyCategory → QString → pqSettings → pqSettings
  loadSettings : pqProxyCategory → QString → pqSettings → pqProxyCategory
  modifiedOnWrite : Bool

/-! ## Actions and menus -/

/-- The attributes of a `QAction` that the manager reads or writes.
`OmitFromToolbar` is the dynamic property of that name, `none` when the
property is not set; `bold` is the weight of the font. -/
structure QAction where
  objectName : QString := []
  text : QString := []
  data : QVariant := QVariant.invalid
  icon : Option QString := none
  shortcut : QKeySequence := QKeySequence.empty
  OmitFromToolbar : Option (List QString) := none
  bold : Bool := false
  triggeredConnected : Bool := false
  deriving DecidableEq, Repr

/-- An entry of a menu: a proxy action (by allocation number), a separator, the
"Manage Favorites" entry, an "Add current filter" entry with the path and the
filters it was built for, or a sub-menu with its object name. -/
inductive MenuItem where
  | action (id : Nat)
  | separator
  | manageFavorites
  | addToCategory (path : QString) (filters : List QString)
  | menu (objectName : QString) (items : List MenuItem)

/-- A menu, as the list of its entries. -/
abbrev QMenu := List MenuItem

/-- Whether a menu entry is the action `a`. -/
def MenuItem.isAction (a : Nat) : MenuItem → Bool
  | MenuItem.action b => a == b
  | _ => false

/-- The call `menu->addAction(a)` for an existing action: the action goes to
the end of the list, leaving its former place if it was already there. -/
def QMenu.addAction (m : QMenu) (a : Nat) : QMenu :=
  m.filter (fun i => !(i.isAction a)) ++ [MenuItem.action a]

/-- The action numbers that are direct entries of a menu, in menu order. -/
def QMenu.actions : QMenu → List Nat
  | [] => []
  | MenuItem.action a :: is => a :: QMenu.actions is
  | _ :: is => QMenu.actions is

mutual
/-- A menu entry after the deletion of the actions `dead`: sub-menus lose
them too. -/
def MenuItem.purge (dead : List Nat) : MenuItem → MenuItem
  | MenuItem.menu n sub => MenuItem.menu n (MenuItem.purgeList dead sub)
  | i => i
/-- Entries of a menu after the deletion of the actions `dead`: a deleted
action leaves every widget that shows it. -/
def MenuItem.purgeList (dead : List Nat) : List MenuItem → List MenuItem
  | [] => []
  | i :: is =>
    if dead.any (fun a => i.isAction a) then MenuItem.purgeList dead is
    else MenuItem.purge dead i :: MenuItem.purgeList dead is
end

/-- The call `widget.addAction(a)` on the list of actions of a widget. -/
def widgetAddAction (l : List Nat) (a : Nat) : List Nat :=
  l.filter (fun b => decide (b ≠ a)) ++ [a]

/-- The live action stored at a heap slot. -/
def heapGet (h : List (Option QAction)) (id : Nat) : Option QAction :=
  match h.get? id with
  | some (some a) => some a
  | _ => none

/-- Update in place of the action at a heap slot. -/
def heapModify (f : QAction → QAction) : Nat → List (Option QAction) → List (Option QAction)
  | _, [] => []
  | 0, x :: xs => x.map f :: xs
  | n + 1, x :: xs => x :: heapModify f n xs

/-- Deletion of the action at a heap slot. -/
def heapDelete : Nat → List (Option QAction) → List (Option QAction)
  | _, [] => []
  | 0, _ :: xs => none :: xs
  | n + 1, x :: xs => x :: heapDelete n xs

/-! ## The manager -/

/-- Signals emitted and calls made, recorded in the order they happen. -/
inductive Event where
  | triggered (group name : QString)
  | menuPopulated
  | categoriesUpdated
  | writeCategoryToSettings
  | applicationParseXML (root : vtkPVXMLElement)
  | settingsParseXML (root : vtkPVXMLElement)
  | applicationParseXMLHintsTag (group name : QString) (hints : vtkPVXMLElement)
  | settingsParseXMLHintsTag (group name : QString) (hints : vtkPVXMLElement)

/-- The state of a `pqProxyGroupMenuManager`; the members of its `pqInternal`
are inlined.  `CachedActions` maps a proxy name to the allocation number of
the cached action, `Widget` is the action list of the hidden search-pool
widget, a menu pointer is `none` when null.  `heap` holds the `QAction`
objects created by the manager and `log` records signals and calls. -/
structure pqProxyGroupMenuManager where
  ResourceTagName : QString := []
  RecentlyUsedMenuSize : Nat := 0
  EnableFavorites : Bool := true
  SupportsQuickLaunch : Bool := true
  RecentlyUsed : List (QString × QString) := []
  Favorites : List (QString × QString) := []
  ProxyDefinitionGroupToListen : List QString := []
  Widget : List Nat := []
  SearchAction : Bool := false
  LocalActiveSession : Option Nat := none
  RecentMenu : Option QMenu := none
  FavoritesMenu : Option QMenu := none
  AlphabeticalMenu : Option QMenu := none
  MiscMenu : Option QMenu := none
  CategoriesMenus : List (Option QMenu) := []
  ApplicationCategory : pqProxyCategory := pqProxyCategory.empty
  SettingsCategory : pqProxyCategory := pqProxyCategory.empty
  CachedActions : QString → Option Nat := fun _ => none
  ClientEnvironmentDone : Bool := false
  IsWritingSettings : Bool := false
  heap : List (Option QAction) := []
  log : List Event := []

/-- What a call reads from its surroundings: the proxy manager of the active
session, which `getPrototype` dereferences unchecked, and the
default-constructed `pqSettings` object from which shortcuts are read. -/
structure Env where
  pxm : vtkSMSessionProxyManager
  shortcuts : pqSettings

/-! ## Category selection -/

/-- The method `pqInternal::menuCategory`: the tree that drives the menu. -/
def menuCategory (m : pqProxyGroupMenuManager) : pqProxyCategory :=
  if m.SettingsCategory.isEmpty then m.ApplicationCategory
  else m.SettingsCategory

/-- The method `pqProxyGroupMenuManager::getMenuCategory`. -/
def getMenuCategory (m : pqProxyGroupMenuManager) : pqProxyCategory :=
  menuCategory m

/-- The method `pqProxyGroupMenuManager::getApplicationCategory`. -/
def getApplicationCategory (m : pqProxyGroupMenuManager) : pqProxyCategory :=
  m.ApplicationCategory

/-- The method `pqInternal::allowSettingsUpdate`. -/
def allowSettingsUpdate (m : pqProxyGroupMenuManager) : Bool :=
  m.ClientEnvironmentDone && !m.SettingsCategory.isEmpty

/-! ## Action materialization -/

/-- The method `pqInternal::getPrototype`, for an action pointer that may be
null. -/
def getPrototype (pxm : vtkSMSessionProxyManager) (action : Option QAction) :
    Option vtkSMProxy :=
  match action with
  | none => none
  | some a =>
    match a.data.toStringList with
    | [g, n] => pxm.GetPrototypeProxy (toUtf8Data g) (toUtf8Data n)
    | _ => none

/-- The method `pqInternal::updateActionShortcut`. -/
def updateActionShortcut (shortcuts : pqSettings) (action : QAction) (proxyInfo : pqProxyInfo) :
    QAction :=
  let group := proxyInfo.group
  if group = "filters".toList ∨ group = "sources".toList then
    let menuName := if group = "filters".toList then "Filters".toList else "Sources".toList
    let variant := shortcuts.value
      (arg2 "pqCustomShortcuts/%1/Alphabetical/%2".toList menuName proxyInfo.label)
      QVariant.invalid
    if variant.canConvertKeySequence then { action with shortcut := variant.toKeySequence }
    else action
  else action

/-- The method `pqInternal::updateActionIcon`. -/
def updateActionIcon (pxm : vtkSMSessionProxyManager) (action : QAction)
    (proxyInfo : pqProxyInfo) : QAction :=
  let icon0 := proxyInfo.icon
  let icon :=
    if icon0.isEmpty then
      match getPrototype pxm (some action) with
      | some prototype =>
        if prototype.isCompoundSource then ":/pqWidgets/Icons/pqBundle32.png".toList else icon0
      | none => icon0
    else icon0
  if !icon.isEmpty then { action with icon := some icon } else action

/-- The method `pqInternal::updateActionOmitFromToolbar`. -/
def updateActionOmitFromToolbar (action : QAction) (proxy : pqProxyInfo) : QAction :=
  let omittedToolbars0 := proxy.omitFromToolbar
  let omittedToolbars :=
    match action.OmitFromToolbar with
    | some l => if !l.isEmpty then omittedToolbars0 ++ l else omittedToolbars0
    | none => omittedToolbars0
  if !omittedToolbars.isEmpty then { action with OmitFromToolbar := some omittedToolbars }
  else action

/-- The method `pqInternal::updateAction`. -/
def updateAction (env : Env) (action : QAction) (proxyInfo : pqProxyInfo) : QAction :=
  updateActionOmitFromToolbar
    (updateActionIcon env.pxm (updateActionShortcut env.shortcuts action proxyInfo) proxyInfo)
    proxyInfo

/-- The method `pqProxyGroupMenuManager::createAction`.  The new action takes
the next heap slot; when it has no prototype it is scheduled for deletion and
the slot is left empty. -/
def createAction (env : Env) (m : pqProxyGroupMenuManager) (proxyInfo : pqProxyInfo) :
    pqProxyGroupMenuManager × Option Nat :=
  let group := proxyInfo.group
  let name := proxyInfo.name
  let id := m.heap.length
  let action : QAction :=
    { objectName := name, data := QVariant.stringList [group, name], text := proxyInfo.label }
  if (getPrototype env.pxm (some action)).isNone then
    ({ m with heap := m.heap ++ [none] }, none)
  else
    ({ m with
        Widget := widgetAddAction m.Widget id
        CachedActions := fun k => if k = name then some id else m.CachedActions k
        heap := m.heap ++ [some { updateAction env action proxyInfo with triggeredConnected := true }] },
      some id)

/-- The method `pqProxyGroupMenuManager::getAction(pqProxyInfo*)`. -/
def getActionInfo (env : Env) (m : pqProxyGroupMenuManager) (proxyInfo : pqProxyInfo) :
    pqProxyGroupMenuManager × Option Nat :=
  match m.CachedActions proxyInfo.name with
  | some action =>
    ({ m with heap := heapModify (fun a => updateAction env a proxyInfo) action m.heap },
      some action)
  | none => createAction env m proxyInfo

/-- First proxy of the list with the given name and group, the one the
search loop of `getAction` stops at. -/
def findProxyInfo (pgroup pname : QString) : List pqProxyInfo → Option pqProxyInfo
  | [] => none
  | proxy :: rest =>
    if proxy.name = pname ∧ proxy.group = pgroup then some proxy
    else findProxyInfo pgroup pname rest

/-- The method `pqProxyGroupMenuManager::getAction(const QString&, const QString&)`. -/
def getAction (env : Env) (m : pqProxyGroupMenuManager) (pgroup pname : QString) :
    pqProxyGroupMenuManager × Option Nat :=
  if pname.isEmpty || pgroup.isEmpty then (m, none)
  else
    match m.CachedActions pname with
    | some action => (m, some action)
    | none =>
      match findProxyInfo pgroup pname m.ApplicationCategory.getProxiesRecursive with
      | some proxy => createAction env m proxy
      | none => (m, none)

/-- The method `pqProxyGroupMenuManager::actions`: the search-pool contents. -/
def actions (m : pqProxyGroupMenuManager) : List Nat :=
  m.Widget

/-! ## Recent list -/

/-- The settings key `recent.<tag>/` of the Recent list. -/
def recentKey (m : pqProxyGroupMenuManager) : QString :=
  arg "recent.%1/".toList m.ResourceTagName

/-- The pairs read from a stored Recent string: one for each part between
pipes that has exactly two non-empty pieces between semicolons. -/
def parseRecentlyUsed (list : QString) : List (QString × QString) :=
  (splitSkipEmptyParts '|' list).filterMap (fun part =>
    match splitSkipEmptyParts ';' part with
    | [p0, p1] => some (p0, p1)
    | _ => none)

/-- The method `pqProxyGroupMenuManager::loadRecentlyUsedItems`. -/
def loadRecentlyUsedItems (m : pqProxyGroupMenuManager) (settings : pqSettings) :
    pqProxyGroupMenuManager :=
  let key := recentKey m
  if settings.contains key then
    { m with RecentlyUsed := parseRecentlyUsed (settings.value key QVariant.invalid).toQString }
  else { m with RecentlyUsed := [] }

/-- The string built by the loop of `saveRecentlyUsedItems`. -/
def recentValue (l : List (QString × QString)) : QString :=
  l.foldl (fun value e => value ++ arg (arg "%1;%2|".toList e.1) e.2) []

/-- The method `pqProxyGroupMenuManager::saveRecentlyUsedItems`. -/
def saveRecentlyUsedItems (m : pqProxyGroupMenuManager) (settings : pqSettings) : pqSettings :=
  settings.setValue (recentKey m) (QVariant.string (recentValue m.RecentlyUsed))

/-- One turn of the loop of `populateRecentlyUsedMenu`. -/
def populateRecentlyUsedStep (env : Env) (m : pqProxyGroupMenuManager)
    (key : QString × QString) : pqProxyGroupMenuManager :=
  match getAction env m key.1 key.2 with
  | (m1, some action) => { m1 with RecentMenu := m1.RecentMenu.map (fun r => QMenu.addAction r action) }
  | (m1, none) => m1

/-- The method `pqProxyGroupMenuManager::populateRecentlyUsedMenu`. -/
def populateRecentlyUsedMenu (env : Env) (m : pqProxyGroupMenuManager) (settings : pqSettings) :
    pqProxyGroupMenuManager :=
  let m1 := loadRecentlyUsedItems m settings
  match m1.RecentMenu with
  | none => m1
  | some _ =>
    m1.RecentlyUsed.foldl (populateRecentlyUsedStep env) { m1 with RecentMenu := some [] }

/-- The loop `while (list.size() > bound) list.pop_back()`; `none` when
`pop_back` is reached on an empty list, which Qt leaves undefined. -/
def popBackLoop {α : Type} (bound : Int) (l : List α) : Option (List α) :=
  if (l.length : Int) > bound then
    if l.isEmpty then none else popBackLoop bound l.dropLast
  else some l
termination_by l.length
decreasing_by
  cases l with
  | nil => simp at *
  | cons a t => simp

/-- The slot `pqProxyGroupMenuManager::triggered()`, run for the sender of the
signal (`none` when the sender is not a `QAction`).  The result is `none` when
the run reaches undefined behaviour. -/
def triggered (env : Env) (m : pqProxyGroupMenuManager) (settings : pqSettings)
    (sender : Option QAction) : Option (pqProxyGroupMenuManager × pqSettings) :=
  match sender with
  | none => some (m, settings)
  | some action =>
    match action.data.toStringList with
    | [d0, d1] =>
      let key : QString × QString := (d0, d1)
      let m1 := { m with log := m.log ++ [Event.triggered key.1 key.2] }
      if m1.RecentlyUsedMenuSize % 2 ^ 32 > 0 then
        let removed := m1.RecentlyUsed.filter (fun e => decide (e ≠ key))
        match popBackLoop (staticCastInt m1.RecentlyUsedMenuSize) (key :: removed) with
        | none => none
        | some l =>
          let m2 := { m1 with RecentlyUsed := l }
          let settings1 := saveRecentlyUsedItems m2 settings
          some (populateRecentlyUsedMenu env m2 settings1, settings1)
      else some (m1, settings)
    | _ => some (m, settings)

/-! ## Menu building -/

/-- The method `pqProxyGroupMenuManager::clearMenu`: the sub-menus of the main
menu are deleted, so every menu pointer of the manager becomes null; cached
actions are kept. -/
def clearMenu (m : pqProxyGroupMenuManager) : pqProxyGroupMenuManager :=
  { m with
    SearchAction := false
    RecentMenu := none
    FavoritesMenu := none
    AlphabeticalMenu := none
    MiscMenu := none
    CategoriesMenus := m.CategoriesMenus.map (fun _ => none) }

/-- The text of an action, read through its pointer. -/
def actionText (m : pqProxyGroupMenuManager) (a : Nat) : QString :=
  match heapGet m.heap a with
  | some act => act.text
  | none => []

/-- The comparison `actionTextSort`. -/
def actionTextSort (m : pqProxyGroupMenuManager) (a b : Nat) : Bool :=
  qstringLt (actionText m a) (actionText m b)

/-- The call `std::sort(begin, end, actionTextSort)`.  The standard leaves the
order of actions with equal texts open; the embedding takes the one of an
insertion sort. -/
def sortActions (m : pqProxyGroupMenuManager) (l : List Nat) : List Nat :=
  List.insertionSort (fun a b => actionTextSort m b a = false) l

/-- One turn of the first loop of `populateAlphabeticalMenu`. -/
def populateAlphabeticalStep (env : Env) (acc : pqProxyGroupMenuManager × List Nat)
    (proxy : pqProxyInfo) : pqProxyGroupMenuManager × List Nat :=
  match getActionInfo env acc.1 proxy with
  | (m1, some action) =>
    if action ∈ acc.2 then (m1, acc.2) else (m1, acc.2 ++ [action])
  | (m1, none) => (m1, acc.2)

/-- The method `pqProxyGroupMenuManager::populateAlphabeticalMenu`. -/
def populateAlphabeticalMenu (env : Env) (m : pqProxyGroupMenuManager) :
    pqProxyGroupMenuManager :=
  match m.AlphabeticalMenu with
  | none => m
  | some _ =>
    let m0 := { m with AlphabeticalMenu := some [] }
    let applicationProxies := m0.ApplicationCategory.getProxiesRecursive
    let r := applicationProxies.foldl (populateAlphabeticalStep env) (m0, [])
    let sorted := sortActions r.1 r.2
    { r.1 with AlphabeticalMenu := r.1.AlphabeticalMenu.map (fun menu => sorted.foldl QMenu.addAction menu) }

/-- The method `pqProxyGroupMenuManager::populateMenu`. -/
def populateMenu (env : Env) (m : pqProxyGroupMenuManager) : pqProxyGroupMenuManager :=
  let m1 := clearMenu m
  let m2 := if m1.SupportsQuickLaunch then { m1 with SearchAction := true } else m1
  let m3 := if m2.RecentlyUsedMenuSize % 2 ^ 32 > 0 then { m2 with RecentMenu := some [] } else m2
  let m4 := if m3.EnableFavorites then { m3 with FavoritesMenu := some [] } else m3
  let m5 := populateAlphabeticalMenu env { m4 with AlphabeticalMenu := some [] }
  let m6 := { m5 with MiscMenu := some [] }
  { m6 with log := m6.log ++ [Event.menuPopulated] }

/-! ## Settings tree -/

/-- The method `pqProxyGroupMenuManager::loadCategorySettings`. -/
def loadCategorySettings (lib : pqProxyCategoryOps) (m : pqProxyGroupMenuManager)
    (settings : pqSettings) : pqProxyGroupMenuManager :=
  if m.IsWritingSettings then m
  else
    { m with
      SettingsCategory := lib.loadSettings m.SettingsCategory m.ResourceTagName settings
      log := m.log ++ [Event.categoriesUpdated] }

/-- The method `pqProxyGroupMenuManager::writeCategoryToSettings`.  When the
store notifies its observers during the write, the connected
`loadCategorySettings` runs before the flag is restored. -/
def writeCategoryToSettings (lib : pqProxyCategoryOps) (m : pqProxyGroupMenuManager)
    (settings : pqSettings) : pqProxyGroupMenuManager × pqSettings :=
  let prev := m.IsWritingSettings
  let m1 := { m with IsWritingSettings := true, log := m.log ++ [Event.writeCategoryToSettings] }
  let settings1 := lib.writeSettings m1.SettingsCategory m1.ResourceTagName settings
  let m2 := if lib.modifiedOnWrite then loadCategorySettings lib m1 settings1 else m1
  ({ m2 with IsWritingSettings := prev }, settings1)

/-! ## Definition sweeps, session switch, configuration -/

/-- Whether the sweep of `lookForNewDefinitions` passes over a definition: no
hints, or hints with a `ReaderFactory` child. -/
def skipsDefinition (d : ProxyDefinition) : Bool :=
  match d.hints with
  | none => true
  | some hints => (hints.FindNestedElementByName "ReaderFactory".toList).isSome

/-- One turn of the loop of `lookForNewDefinitions`. -/
def lookForNewDefinitionsStep (lib : pqProxyCategoryOps)
    (acc : pqProxyGroupMenuManager × pqSettings) (d : ProxyDefinition) :
    pqProxyGroupMenuManager × pqSettings :=
  match d.hints with
  | none => acc
  | some hints =>
    if (hints.FindNestedElementByName "ReaderFactory".toList).isSome then acc
    else
      let m := acc.1
      let r := lib.parseXMLHintsTag m.ApplicationCategory d.group d.name hints
      let m1 := { m with
        ApplicationCategory := r.1
        log := m.log ++ [Event.applicationParseXMLHintsTag d.group d.name hints] }
      if r.2 && allowSettingsUpdate m1 then
        let r2 := lib.parseXMLHintsTag m1.SettingsCategory d.group d.name hints
        let m2 := { m1 with
          SettingsCategory := r2.1
          log := m1.log ++ [Event.settingsParseXMLHintsTag d.group d.name hints] }
        if r2.2 then writeCategoryToSettings lib m2 acc.2 else (m2, acc.2)
      else (m1, acc.2)

/-- The method `pqProxyGroupMenuManager::lookForNewDefinitions`; `pxm` is the
proxy manager of the active session, `none` when there is no such session. -/
def lookForNewDefinitions (lib : pqProxyCategoryOps) (pxm : Option vtkSMSessionProxyManager)
    (shortcuts : pqSettings) (m : pqProxyGroupMenuManager) (settings : pqSettings) :
    pqProxyGroupMenuManager × pqSettings :=
  match pxm with
  | none => (m, settings)
  | some reg =>
    if m.ProxyDefinitionGroupToListen.isEmpty then (m, settings)
    else
      let items := reg.traversal (m.ProxyDefinitionGroupToListen.map toUtf8Data)
      let r := items.foldl (lookForNewDefinitionsStep lib) (m, settings)
      (populateMenu ⟨reg, shortcuts⟩ r.1, r.2)

/-- Whether `switchActiveServer` clears the action pool: the new session is
non-null and differs from the recorded one. -/
def switchClears (m : pqProxyGroupMenuManager) (newActiveSession : Option Nat) : Bool :=
  match newActiveSession with
  | none => false
  | some sess => decide (some sess ≠ m.LocalActiveSession)

/-- The method `pqProxyGroupMenuManager::switchActiveServer`, for the session
reported by the proxy manager (`none` when null).  The deleted actions leave
the menus that show them. -/
def switchActiveServer (lib : pqProxyCategoryOps) (newActiveSession : Option Nat)
    (pxm : Option vtkSMSessionProxyManager) (shortcuts : pqSettings)
    (m : pqProxyGroupMenuManager) (settings : pqSettings) :
    pqProxyGroupMenuManager × pqSettings :=
  if switchClears m newActiveSession then
    let action_list := m.Widget
    let m1 := { m with
      LocalActiveSession := newActiveSession
      Widget := []
      heap := action_list.foldl (fun h a => heapDelete a h) m.heap
      RecentMenu := m.RecentMenu.map (MenuItem.purgeList action_list)
      FavoritesMenu := m.FavoritesMenu.map (MenuItem.purgeList action_list)
      AlphabeticalMenu := m.AlphabeticalMenu.map (MenuItem.purgeList action_list)
      MiscMenu := m.MiscMenu.map (MenuItem.purgeList action_list)
      CategoriesMenus := m.CategoriesMenus.map (fun c => c.map (MenuItem.purgeList action_list))
      CachedActions := fun _ => none }
    lookForNewDefinitions lib pxm shortcuts m1 settings
  else (m, settings)

/-- The body of `loadConfiguration` once `root` carries the resource tag. -/
def loadConfigurationRoot (lib : pqProxyCategoryOps) (env : Env) (m : pqProxyGroupMenuManager)
    (settings : pqSettings) (root : vtkPVXMLElement) : pqProxyGroupMenuManager × pqSettings :=
  let root1 := lib.convertLegacyXML root
  let r := lib.parseXML m.ApplicationCategory root1
  let m1 := { m with
    ApplicationCategory := r.1
    log := m.log ++ [Event.applicationParseXML root1] }
  let w : pqProxyGroupMenuManager × pqSettings :=
    if r.2 && allowSettingsUpdate m1 then
      let r2 := lib.parseXML m1.SettingsCategory root1
      let m2 := { m1 with
        SettingsCategory := r2.1
        log := m1.log ++ [Event.settingsParseXML root1] }
      if r2.2 then writeCategoryToSettings lib m2 settings else (m2, settings)
    else (m1, settings)
  (populateMenu env w.1, w.2)

mutual
/-- The method `pqProxyGroupMenuManager::loadConfiguration` on a non-null
element: an element of another name hands over to its first child that carries
the resource tag. -/
def loadConfigurationElement (lib : pqProxyCategoryOps) (env : Env)
    (m : pqProxyGroupMenuManager) (settings : pqSettings) :
    vtkPVXMLElement → pqProxyGroupMenuManager × pqSettings
  | ⟨name, attributes, nested⟩ =>
    match name with
    | none => (m, settings)
    | some nm =>
      if m.ResourceTagName ≠ nm then loadConfigurationNested lib env m settings nested
      else loadConfigurationRoot lib env m settings ⟨name, attributes, nested⟩
/-- The recursive call `loadConfiguration(root->FindNestedElementByName(tag))`,
on the nested elements of `root`; no match is the call on a null pointer. -/
def loadConfigurationNested (lib : pqProxyCategoryOps) (env : Env)
    (m : pqProxyGroupMenuManager) (settings : pqSettings) :
    List vtkPVXMLElement → pqProxyGroupMenuManager × pqSettings
  | [] => (m, settings)
  | e :: es =>
    if e.name = some (toUtf8Data m.ResourceTagName) then
      loadConfigurationElement lib env m settings e
    else loadConfigurationNested lib env m settings es
end

/-- The method `pqProxyGroupMenuManager::loadConfiguration`, for a root pointer
that may be null. -/
def loadConfiguration (lib : pqProxyCategoryOps) (env : Env) (m : pqProxyGroupMenuManager)
    (settings : pqSettings) (root : Option vtkPVXMLElement) :
    pqProxyGroupMenuManager × pqSettings :=
  match root with
  | none => (m, settings)
  | some r => loadConfigurationElement lib env m settings r

/-! ## Well-formed Recent entries -/

/-- A Recent entry that the persistence format can carry: group and name are
non-empty and free of the separators `;` and `|`, and the group holds no
percent sign (which could open a place marker of `QString::arg`). -/
def RecentEntryOk (e : QString × QString) : Prop :=
  e.1 ≠ [] ∧ e.2 ≠ [] ∧ ';' ∉ e.1 ∧ '|' ∉ e.1 ∧ '%' ∉ e.1 ∧ ';' ∉ e.2 ∧ '|' ∉ e.2

instance (e : QString × QString) : Decidable (RecentEntryOk e) := by
  unfold RecentEntryOk
  infer_instance

/-- The text `group;name|` that a well-formed entry contributes to the stored
string. -/
def entryText (e : QString × QString) : QString :=
  e.1 ++ ';' :: (e.2 ++ ['|'])

/-! ## Prototypes, runs of operations, frames -/

/-- Whether the registry holds a prototype for the pair (group, name), looked
up as `getPrototype` does. -/
def hasPrototype (pxm : vtkSMSessionProxyManager) (group name : QString) : Bool :=
  (pxm.GetPrototypeProxy (toUtf8Data group) (toUtf8Data name)).isSome

/-- An operation on the manager, with what it reads from its surroundings.
`settingsChanged` is a write to the shared settings store by another
component; `clientEnvironmentDone` is the slot connected to that signal. -/
inductive Op where
  | getAction (env : Env) (pgroup pname : QString)
  | getActionInfo (env : Env) (proxyInfo : pqProxyInfo)
  | populateMenu (env : Env)
  | populateRecentlyUsedMenu (env : Env)
  | triggered (env : Env) (sender : Option QAction)
  | loadConfiguration (env : Env) (root : Option vtkPVXMLElement)
  | lookForNewDefinitions (pxm : Option vtkSMSessionProxyManager) (shortcuts : pqSettings)
  | switchActiveServer (newActiveSession : Option Nat)
      (pxm : Option vtkSMSessionProxyManager) (shortcuts : pqSettings)
  | loadCategorySettings
  | clientEnvironmentDone
  | settingsChanged (store : pqSettings)

/-- The registries an operation runs against. -/
def Op.registries : Op → List vtkSMSessionProxyManager
  | Op.getAction env _ _ => [env.pxm]
  | Op.getActionInfo env _ => [env.pxm]
  | Op.populateMenu env => [env.pxm]
  | Op.populateRecentlyUsedMenu env => [env.pxm]
  | Op.triggered env _ => [env.pxm]
  | Op.loadConfiguration env _ => [env.pxm]
  | Op.lookForNewDefinitions pxm _ => pxm.toList
  | Op.switchActiveServer _ pxm _ => pxm.toList
  | Op.loadCategorySettings => []
  | Op.clientEnvironmentDone => []
  | Op.settingsChanged _ => []

/-- Whether the operation is a session switch that clears the action pool in
the state `m`. -/
def Op.clears (m : pqProxyGroupMenuManager) : Op → Bool
  | Op.switchActiveServer newActiveSession _ _ => switchClears m newActiveSession
  | _ => false

/-- One operation on a manager and the settings store it shares; `none` when
the operation reaches undefined behaviour. -/
def step (lib : pqProxyCategoryOps) (st : pqProxyGroupMenuManager × pqSettings) :
    Op → Option (pqProxyGroupMenuManager × pqSettings)
  | Op.getAction env pgroup pname => some ((getAction env st.1 pgroup pname).1, st.2)
  | Op.getActionInfo env proxyInfo => some ((getActionInfo env st.1 proxyInfo).1, st.2)
  | Op.populateMenu env => some (populateMenu env st.1, st.2)
  | Op.populateRecentlyUsedMenu env => some (populateRecentlyUsedMenu env st.1 st.2, st.2)
  | Op.triggered env sender => triggered env st.1 st.2 sender
  | Op.loadConfiguration env root => some (loadConfiguration lib env st.1 st.2 root)
  | Op.lookForNewDefinitions pxm shortcuts =>
    some (lookForNewDefinitions lib pxm shortcuts st.1 st.2)
  | Op.switchActiveServer newActiveSession pxm shortcuts =>
    some (switchActiveServer lib newActiveSession pxm shortcuts st.1 st.2)
  | Op.loadCategorySettings => some (loadCategorySettings lib st.1 st.2, st.2)
  | Op.clientEnvironmentDone => some ({ st.1 with ClientEnvironmentDone := true }, st.2)
  | Op.settingsChanged store => some (st.1, store)

/-- A sequence of operations, one after the other. -/
def run (lib : pqProxyCategoryOps) :
    pqProxyGroupMenuManager × pqSettings → List Op →
      Option (pqProxyGroupMenuManager × pqSettings)
  | st, [] => some st
  | st, op :: ops =>
    match step lib st op with
    | none => none
    | some st1 => run lib st1 ops

/-- No operation of the sequence, run from `st`, is a session switch that
clears the action pool. -/
def noEffectiveSwitch (lib : pqProxyCategoryOps) :
    pqProxyGroupMenuManager × pqSettings → List Op → Bool
  | _, [] => true
  | st, op :: ops =>
    !(op.clears st.1) &&
      match step lib st op with
      | none => true
      | some st1 => noEffectiveSwitch lib st1 ops

/-- The state with the action pool blanked out: what is left is everything
that materializing actions does not touch. -/
def eraseActions (m : pqProxyGroupMenuManager) : pqProxyGroupMenuManager :=
  { m with Widget := [], CachedActions := fun _ => none, heap := [] }

/-- The state with the action pool and the menus blanked out. -/
def eraseMenus (m : pqProxyGroupMenuManager) : pqProxyGroupMenuManager :=
  { eraseActions m with
    SearchAction := false
    RecentMenu := none
    FavoritesMenu := none
    AlphabeticalMenu := none
    MiscMenu := none
    CategoriesMenus := [] }

/-! ## What a sweep or a configuration load feeds to the Application tree -/

/-- Whether an event is a call of `writeCategoryToSettings`. -/
def Event.isWrite : Event → Bool
  | Event.writeCategoryToSettings => true
  | _ => false

/-- Number of calls of `writeCategoryToSettings` recorded in a log. -/
def countWrites (log : List Event) : Nat :=
  (log.filter Event.isWrite).length

/-- Whether an event is a call of `parseXMLHintsTag` on the Application tree. -/
def Event.isApplicationFeed : Event → Bool
  | Event.applicationParseXMLHintsTag _ _ _ => true
  | _ => false

/-- Number of definitions fed to the Application tree recorded in a log. -/
def countApplicationFeeds (log : List Event) : Nat :=
  (log.filter Event.isApplicationFeed).length

/-- The Application tree after it has been fed, in order, the definitions of
the list that the sweep does not pass over. -/
def feedApplication (lib : pqProxyCategoryOps) :
    pqProxyCategory → List ProxyDefinition → pqProxyCategory
  | app, [] => app
  | app, d :: ds =>
    match d.hints with
    | none => feedApplication lib app ds
    | some hints =>
      if skipsDefinition d then feedApplication lib app ds
      else feedApplication lib (lib.parseXMLHintsTag app d.group d.name hints).1 ds

/-- The calls on the Application tree made for the definitions of the list
that the sweep does not pass over. -/
def feedEvents : List ProxyDefinition → List Event
  | [] => []
  | d :: ds =>
    match d.hints with
    | none => feedEvents ds
    | some hints =>
      if skipsDefinition d then feedEvents ds
      else Event.applicationParseXMLHintsTag d.group d.name hints :: feedEvents ds

mutual
/-- The element that `loadConfiguration` parses when called on a non-null
element: the element itself when it carries the resource tag, else what the
first child named after the tag resolves to. -/
def resolveElement (tag : QString) : vtkPVXMLElement → Option vtkPVXMLElement
  | ⟨name, attributes, nested⟩ =>
    match name with
    | none => none
    | some nm =>
      if tag ≠ nm then resolveNested tag nested
      else some ⟨name, attributes, nested⟩
/-- The element parsed for the first of the elements that is named after the
tag. -/
def resolveNested (tag : QString) : List vtkPVXMLElement → Option vtkPVXMLElement
  | [] => none
  | e :: es =>
    if e.name = some (toUtf8Data tag) then resolveElement tag e
    else resolveNested tag es
end

/-- The element that `loadConfiguration(root)` parses, if any. -/
def resolveRoot (tag : QString) (root : Option vtkPVXMLElement) : Option vtkPVXMLElement :=
  match root with
  | none => none
  | some r => resolveElement tag r

/-! ## Growth of the action pool -/

/-- The action pool of a manager: cache, heap and search-pool widget. -/
def poolOf (m : pqProxyGroupMenuManager) :
    (QString → Option Nat) × List (Option QAction) × List Nat :=
  (m.CachedActions, m.heap, m.Widget)

/-- The pool of `m1` extends the pool of `m`: live actions stay live and keep
their payload, cached entries are kept, and an entry that is new was allocated
after `m` for a payload `[g, n]` with `P g n`. -/
structure Grows (P : QString → QString → Prop) (m m1 : pqProxyGroupMenuManager) : Prop where
  len : m.heap.length ≤ m1.heap.length
  live : ∀ a act, heapGet m.heap a = some act →
    ∃ act1, heapGet m1.heap a = some act1 ∧ act1.data = act.data
  kept : ∀ k a, m.CachedActions k = some a → m1.CachedActions k = some a
  fresh : ∀ k a, m1.CachedActions k = some a →
    m.CachedActions k = some a ∨
      (m.heap.length ≤ a ∧ ∃ act g n, heapGet m1.heap a = some act ∧
        act.data = QVariant.stringList [g, n] ∧ P g n)

/-- Every cached action was allocated at or after `base` and carries a
payload `[g, n]` with `P g n`. -/
def CacheFresh (base : Nat) (P : QString → QString → Prop)
    (m : pqProxyGroupMenuManager) : Prop :=
  base ≤ m.heap.length ∧
  ∀ k a, m.CachedActions k = some a →
    base ≤ a ∧ ∃ act g n, heapGet m.heap a = some act ∧
      act.data = QVariant.stringList [g, n] ∧ P g n

/-- The pair (g, n) has a prototype in one of the registries. -/
def hasPrototypeIn (regs : List vtkSMSessionProxyManager) (g n : QString) : Prop :=
  ∃ r ∈ regs, hasPrototype r g n = true

/-! ## Sample inputs -/

/-- A registry in which every pair has a plain prototype and no definition is
listed. -/
def fullRegistry : vtkSMSessionProxyManager :=
  { GetPrototypeProxy := fun _ _ => some { isCompoundSource := false }
    traversal := fun _ => [] }

/-- A registry without any prototype or definition. -/
def emptyRegistry : vtkSMSessionProxyManager :=
  { GetPrototypeProxy := fun _ _ => none
    traversal := fun _ => [] }

/-- Surroundings with the full registry and no stored shortcut. -/
def fullEnv : Env :=
  { pxm := fullRegistry, shortcuts := fun _ => none }

/-- An empty settings store. -/
def emptySettings : pqSettings :=
  fun _ => none

/-- An action that carries the payload `[group, name]`. -/
def payloadAction (group name : String) : QAction :=
  { data := QVariant.stringList [group.toList, name.toList] }

/-- A pair of strings as a Recent entry. -/
def entry (group name : String) : QString × QString :=
  (group.toList, name.toList)

/-- A manager with bound 3 whose Recent list holds one entry. -/
def sampleManager : pqProxyGroupMenuManager :=
  { RecentlyUsedMenuSize := 3, RecentlyUsed := [entry "filters" "Stat1"] }

/-- Category operations that change nothing and report no change. -/
def trivialOps : pqProxyCategoryOps :=
  { convertLegacyXML := id
    parseXML := fun c _ => (c, false)
    parseXMLHintsTag := fun c _ _ _ => (c, false)
    writeSettings := fun _ _ store => store
    loadSettings := fun c _ _ => c
    modifiedOnWrite := false }

/-- Category operations whose hint parser adds the proxy to the root of the
tree and reports a change. -/
def appendOps : pqProxyCategoryOps :=
  { trivialOps with
    parseXMLHintsTag := fun c group name _ =>
      ({ c with proxies := c.proxies ++ [{ name := name, group := group, label := name }] },
        true) }

/-- Hints that mark a reader: a `ReaderFactory` child. -/
def readerHints : vtkPVXMLElement :=
  ⟨some "Hints".toList, [], [⟨some "ReaderFactory".toList, [], []⟩]⟩

/-- The definition of a reader in group "sources". -/
def readerDefinition : ProxyDefinition :=
  { group := "sources".toList, name := "R".toList, hints := some readerHints }

/-- A registry whose traversal visits the reader definition. -/
def readerRegistry : vtkSMSessionProxyManager :=
  { GetPrototypeProxy := fun _ _ => some { isCompoundSource := false }
    traversal := fun _ => [readerDefinition] }

/-- A manager that listens to group "sources", before the client environment
is done. -/
def listeningManager : pqProxyGroupMenuManager :=
  { ProxyDefinitionGroupToListen := ["sources".toList] }

/-- The ProxyInfo of the filter "Stat1". -/
def statProxy : pqProxyInfo :=
  { name := "Stat1".toList, group := "filters".toList, label := "Stat1".toList }

/-- A manager whose Application tree holds the filter "Stat1" at its root. -/
def treeManager : pqProxyGroupMenuManager :=
  { ApplicationCategory := ⟨[], [], false, false, [statProxy], []⟩ }

/-- A manager whose Application tree is empty and whose Settings tree holds the
filter "Stat1" at its root. -/
def settingsTreeManager : pqProxyGroupMenuManager :=
  { SettingsCategory := ⟨[], [], false, false, [statProxy], []⟩ }

/-! ## Category queries -/

/-- Modelled from the spec: `pqProxyCategory::getSubCategories`, the direct
sub-categories of the node. -/
def pqProxyCategory.getSubCategories (c : pqProxyCategory) : List pqProxyCategory :=
  c.subCategories

mutual
/-- Modelled from the spec: `pqProxyCategory::getSubCategoriesRecursive`, the
flattened tree below the node: every descendant category, a category before
its own descendants. -/
def pqProxyCategory.getSubCategoriesRecursive : pqProxyCategory → List pqProxyCategory
  | ⟨_, _, _, _, _, subs⟩ => pqProxyCategory.flattenList subs
/-- The flattened trees of a list of sibling categories. -/
def pqProxyCategory.flattenList : List pqProxyCategory → List pqProxyCategory
  | [] => []
  | c :: cs => c :: (c.getSubCategoriesRecursive ++ pqProxyCategory.flattenList cs)
end

/-- Lookup by name in a flattened tree (`categories[name]` after
`categories.contains(name)`): the first category of that name. -/
def findCategory (name : QString) : List pqProxyCategory → Option pqProxyCategory
  | [] => none
  | c :: cs => if c.name = name then some c else findCategory name cs

/-- Modelled from the spec: `pqProxyCategory::getRootProxies`, the direct
proxies of the node. -/
def pqProxyCategory.getRootProxies (c : pqProxyCategory) : List pqProxyInfo :=
  c.proxies

/-- Modelled from the spec: `pqProxyCategory::getOrderedRootProxiesNames`, the
names of the direct proxies in authoring order. -/
def pqProxyCategory.getOrderedRootProxiesNames (c : pqProxyCategory) : List QString :=
  c.proxies.map (fun p => p.name)

/-- First proxy of a list with the given name. -/
def findProxyByName (name : QString) : List pqProxyInfo → Option pqProxyInfo
  | [] => none
  | p :: ps => if p.name = name then some p else findProxyByName name ps

/-- Modelled from the spec: `pqProxyCategory::findProxy`, the direct proxy of
the node with the given name. -/
def pqProxyCategory.findProxy (c : pqProxyCategory) (name : QString) : Option pqProxyInfo :=
  findProxyByName name c.proxies

/-- Modelled from the spec: `pqProxyCategory::addProxy`, the proxy joins the
direct proxies of the node. -/
def pqProxyCategory.addProxy (c : pqProxyCategory) (p : pqProxyInfo) : pqProxyCategory :=
  { c with proxies := c.proxies ++ [p] }

/-- The call `std::sort(names.begin(), names.end())` on a `QStringList`. -/
def sortNames (names : List QString) : List QString :=
  List.insertionSort (fun a b => qstringLt b a = false) names

/-! ## Proxies added by hand -/

/-- The method `pqProxyGroupMenuManager::addProxy`; the new `pqProxyInfo` is
built from (name, group, label) with the other attributes at their defaults. -/
def addProxy (m : pqProxyGroupMenuManager) (xmlgroup xmlname : QString) :
    pqProxyGroupMenuManager :=
  if !xmlname.isEmpty && !xmlgroup.isEmpty then
    { m with ApplicationCategory :=
        m.ApplicationCategory.addProxy { name := xmlname, group := xmlgroup, label := xmlname } }
  else m

/-! ## Category actions and toolbars -/

/-- One turn of the loop of `categoryActions(pqProxyCategory*)`.  The names
are those of the direct proxies of the category, so `findProxy` finds one. -/
def categoryActionsStep (env : Env) (category : pqProxyCategory)
    (acc : pqProxyGroupMenuManager × List Nat) (proxyName : QString) :
    pqProxyGroupMenuManager × List Nat :=
  match category.findProxy proxyName with
  | none => acc
  | some proxy =>
    match getActionInfo env acc.1 proxy with
    | (m1, some action) =>
      if !proxy.hideFromMenu then (m1, acc.2 ++ [action]) else (m1, acc.2)
    | (m1, none) => (m1, acc.2)

/-- The method `pqProxyGroupMenuManager::categoryActions(pqProxyCategory*)`. -/
def categoryActions (env : Env) (m : pqProxyGroupMenuManager) (category : pqProxyCategory) :
    pqProxyGroupMenuManager × List Nat :=
  if category.isEmpty then (m, [])
  else
    let orderedProxies0 := category.getOrderedRootProxiesNames
    let orderedProxies :=
      if !category.preserveOrder then sortNames orderedProxies0 else orderedProxies0
    orderedProxies.foldl (categoryActionsStep env category) (m, [])

/-- The method `pqProxyGroupMenuManager::categoryActions(const QString&)`. -/
def categoryActionsByName (env : Env) (m : pqProxyGroupMenuManager) (categoryName : QString) :
    pqProxyGroupMenuManager × List Nat :=
  match findCategory categoryName (menuCategory m).getSubCategoriesRecursive with
  | none => (m, [])
  | some category => categoryActions env m category

/-- The method `pqProxyGroupMenuManager::getToolbarCategories`. -/
def getToolbarCategories (m : pqProxyGroupMenuManager) : List QString :=
  ((menuCategory m).getSubCategoriesRecursive.filter (fun c => c.showInToolbar)).map
    (fun c => c.name)

/-- Whether the `OmitFromToolbar` property of the action is set and contains
the category name. -/
def omitsToolbar (m : pqProxyGroupMenuManager) (categoryName : QString) (a : Nat) : Bool :=
  match heapGet m.heap a with
  | some act =>
    match act.OmitFromToolbar with
    | some l => decide (categoryName ∈ l)
    | none => false
  | none => false

/-- One turn of the outer loop of `actionsInToolbars`. -/
def actionsInToolbarsStep (env : Env) (acc : pqProxyGroupMenuManager × List Nat)
    (categoryName : QString) : pqProxyGroupMenuManager × List Nat :=
  let r := categoryActionsByName env acc.1 categoryName
  (r.1, r.2.foldl (fun out action =>
    if !(omitsToolbar r.1 categoryName action) then out ++ [action] else out) acc.2)

/-- The method `pqProxyGroupMenuManager::actionsInToolbars`. -/
def actionsInToolbars (env : Env) (m : pqProxyGroupMenuManager) :
    pqProxyGroupMenuManager × List Nat :=
  (getToolbarCategories m).foldl (actionsInToolbarsStep env) (m, [])

/-- The list `actionsInToolbars()` is to return, category by category: for
each toolbar category in turn, the actions of `categoryActions` of that
category whose `OmitFromToolbar` property does not contain it. -/
def toolbarActionsOf (env : Env) :
    pqProxyGroupMenuManager → List QString → List Nat
  | _, [] => []
  | m, categoryName :: rest =>
    (categoryActionsByName env m categoryName).2.filter
        (fun a => !(omitsToolbar (categoryActionsByName env m categoryName).1 categoryName a))
      ++ toolbarActionsOf env (categoryActionsByName env m categoryName).1 rest

/-- The direct proxies of a category in the order `categoryActions` visits
them: authoring order, or ascending name without `preserveOrder`. -/
def orderedRootProxies (category : pqProxyCategory) : List pqProxyInfo :=
  if category.preserveOrder then category.proxies
  else List.insertionSort (fun p q => qstringLt q.name p.name = false) category.proxies

/-! ## The Miscellaneous menu -/

/-- The pairs read from a stored Favorites string by the loop of
`loadFavoritesItems`: for each part between pipes with at least two non-empty
pieces, the first piece and the others joined by semicolons. -/
def parseFavorites (list : QString) : List (QString × QString) :=
  (splitSkipEmptyParts '|' list).foldl (fun favorites part =>
    let pieces := splitSkipEmptyParts ';' part
    if pieces.length ≥ 2 then
      match pieces with
      | group :: rest => favorites ++ [(group, join ';' rest)]
      | [] => favorites
    else favorites) []

/-- The settings key `favorites.<tag>/` of the Favorites list. -/
def favoritesKey (m : pqProxyGroupMenuManager) : QString :=
  arg "favorites.%1/".toList m.ResourceTagName

/-- The action pointed to, with its font set to bold or not. -/
def setBold (b : Bool) (a : Nat) (h : List (Option QAction)) : List (Option QAction) :=
  heapModify (fun act => { act with bold := b }) a h

/-- One turn of the second loop of `updateMenuStyle`, once `takeLast` has
given the filter name. -/
def updateMenuStyleStep (env : Env) (m : pqProxyGroupMenuManager) (group filter : QString) :
    pqProxyGroupMenuManager :=
  match getAction env m group filter with
  | (m1, some action) => { m1 with heap := setBold true action m1.heap }
  | (m1, none) => m1

/-- The second loop of `updateMenuStyle`, over the favorites; `none` when
`takeLast` is reached on an empty list. -/
def updateMenuStyleLoop (env : Env) :
    pqProxyGroupMenuManager → List (QString × QString) → Option pqProxyGroupMenuManager
  | m, [] => some m
  | m, bm :: rest =>
    match (splitSkipEmptyParts ';' bm.2).getLast? with
    | none => none
    | some filter => updateMenuStyleLoop env (updateMenuStyleStep env m bm.1 filter) rest

/-- The method `pqProxyGroupMenuManager::updateMenuStyle` (the style sheet of
the main menu is not part of the state). -/
def updateMenuStyle (env : Env) (m : pqProxyGroupMenuManager) :
    Option pqProxyGroupMenuManager :=
  let m1 := { m with heap := (actions m).foldl (fun h a => setBold false a h) m.heap }
  updateMenuStyleLoop env m1 m1.Favorites

/-- The method `pqProxyGroupMenuManager::loadFavoritesItems`. -/
def loadFavoritesItems (env : Env) (m : pqProxyGroupMenuManager) (settings : pqSettings) :
    Option pqProxyGroupMenuManager :=
  let key := favoritesKey m
  let m1 :=
    if settings.contains key then
      { m with Favorites := parseFavorites (settings.value key QVariant.invalid).toQString }
    else { m with Favorites := [] }
  updateMenuStyle env m1

/-- The filters collected by the loop of `getAddToCategoryAction`; `none` when
`takeLast` or `removeLast` is reached on an empty list. -/
def addToCategoryFilters (path : QString) :
    List (QString × QString) → Option (List QString)
  | [] => some []
  | key :: rest =>
    if key.1 = "filters".toList then
      match (splitSkipEmptyParts ';' key.2).getLast? with
      | none => none
      | some filter =>
        let categories := (splitSkipEmptyParts ';' key.2).dropLast
        if categories.isEmpty then none
        else
          match addToCategoryFilters path rest with
          | none => none
          | some filters =>
            if path = join ';' categories.dropLast then some (filter :: filters)
            else some filters
    else addToCategoryFilters path rest

/-- The method `pqProxyGroupMenuManager::getAddToCategoryAction`: the "Add
current filter" entry for a path. -/
def getAddToCategoryAction (m : pqProxyGroupMenuManager) (path : QString) : Option MenuItem :=
  (addToCategoryFilters path m.Favorites).map (fun filters => MenuItem.addToCategory path filters)

/-- Split of a menu at its first sub-menu with the given object name: the
entries before it, its entries, the entries after it. -/
def findSubmenu (name : QString) : List MenuItem → Option (List MenuItem × List MenuItem × List MenuItem)
  | [] => none
  | MenuItem.menu n items :: rest =>
    if n = name then some ([], items, rest)
    else
      match findSubmenu name rest with
      | some (pre, found, post) => some (MenuItem.menu n items :: pre, found, post)
      | none => none
  | i :: rest =>
    match findSubmenu name rest with
    | some (pre, found, post) => some (i :: pre, found, post)
    | none => none

/-- The walk of `populateFavoritesMenu` through the category segments: an
existing sub-menu is entered, a missing one is created at the end of the
current menu with the "Add current filter" entry `addItem` and a separator.
`none` when a sub-menu has to be created and the entry could not be built. -/
def walkCategories (addItem : Option MenuItem) : List QString → QMenu → Option QMenu
  | [], menu => some menu
  | category :: rest, menu =>
    match findSubmenu category menu with
    | some (pre, items, post) =>
      (walkCategories addItem rest items).map
        (fun items1 => pre ++ MenuItem.menu category items1 :: post)
    | none =>
      match addItem with
      | none => none
      | some entry =>
        (walkCategories addItem rest [entry, MenuItem.separator]).map
          (fun items1 => menu ++ [MenuItem.menu category items1])

/-- The call `submenu->addAction(action)` on the sub-menu reached through the
category segments. -/
def addActionAt (a : Nat) : List QString → QMenu → QMenu
  | [], menu => QMenu.addAction menu a
  | category :: rest, menu =>
    match findSubmenu category menu with
    | some (pre, items, post) => pre ++ MenuItem.menu category (addActionAt a rest items) :: post
    | none => menu

/-- The call `action->setObjectName(name)` on the action pointed to. -/
def setObjectName (name : QString) (a : Nat) (h : List (Option QAction)) :
    List (Option QAction) :=
  heapModify (fun act => { act with objectName := name }) a h

/-- One turn of the loop of `populateFavoritesMenu`, for one favorite; `none`
when `takeLast` or `removeLast` is reached on an empty list. -/
def populateFavoritesStep (env : Env) (m : pqProxyGroupMenuManager) (menu : QMenu)
    (key : QString × QString) : Option (pqProxyGroupMenuManager × QMenu) :=
  let categories0 := splitSkipEmptyParts ';' key.2
  let isCategory := decide (key.1 = "categories".toList)
  if isCategory then
    match walkCategories (getAddToCategoryAction m (join ';' categories0)) categories0 menu with
    | none => none
    | some menu1 => some (m, menu1)
  else
    match categories0.getLast? with
    | none => none
    | some filter =>
      if categories0.dropLast.isEmpty then none
      else
        let categories := categories0.dropLast.dropLast
        match walkCategories (getAddToCategoryAction m (join ';' categories)) categories
            menu with
        | none => none
        | some menu1 =>
          match getAction env m key.1 filter with
          | (m1, some action) =>
            some ({ m1 with heap := setObjectName filter action m1.heap },
              addActionAt action categories menu1)
          | (m1, none) => some (m1, menu1)

/-- The loop of `populateFavoritesMenu` over the favorites. -/
def populateFavoritesLoop (env : Env) :
    pqProxyGroupMenuManager → QMenu → List (QString × QString) →
      Option (pqProxyGroupMenuManager × QMenu)
  | m, menu, [] => some (m, menu)
  | m, menu, key :: rest =>
    match populateFavoritesStep env m menu key with
    | none => none
    | some (m1, menu1) => populateFavoritesLoop env m1 menu1 rest

/-- The method `pqProxyGroupMenuManager::populateFavoritesMenu`. -/
def populateFavoritesMenu (env : Env) (m : pqProxyGroupMenuManager) (settings : pqSettings) :
    Option pqProxyGroupMenuManager :=
  match loadFavoritesItems env m settings with
  | none => none
  | some m1 =>
    match m1.FavoritesMenu with
    | none => some m1
    | some _ =>
      match getAddToCategoryAction m1 [] with
      | none => none
      | some rootEntry =>
        match populateFavoritesLoop env m1
            [MenuItem.manageFavorites, rootEntry, MenuItem.separator] m1.Favorites with
        | none => none
        | some (m2, menu) => some { m2 with FavoritesMenu := some menu }

/-! ## The stored lists, part by part -/

/-- The string held under a settings key, empty when the key is absent. -/
def storedString (settings : pqSettings) (key : QString) : QString :=
  match settings key with
  | some v => v.toQString
  | none => []

/-- The parts of a stored string between pipes, each as its non-empty pieces
between semicolons. -/
def storedParts (list : QString) : List (List QString) :=
  (splitSkipEmptyParts '|' list).map (splitSkipEmptyParts ';')

/-- The Recent entry of a part: its two pieces when it has exactly two. -/
def recentOfPieces (pieces : List QString) : Option (QString × QString) :=
  if pieces.length = 2 then some (pieces.headD [], pieces.tail.headD []) else none

/-- The Favorites entry of a part: its first piece and the other pieces joined
by semicolons when it has at least two. -/
def favoriteOfPieces (pieces : List QString) : Option (QString × QString) :=
  if 2 ≤ pieces.length then some (pieces.headD [], join ';' pieces.tail) else none

/-- The text of a Favorites list in the stored format: one `group;path` entry
per favorite, the entries separated by pipes. -/
def favoritesText (l : List (QString × QString)) : QString :=
  join '|' (l.map (fun e => e.1 ++ ';' :: e.2))

/-- A favorite that the stored format can carry: the group is non-empty and
free of the separators, and the path is free of pipes and made of non-empty
segments, at least one, joined by semicolons. -/
def FavoriteEntryOk (e : QString × QString) : Prop :=
  e.1 ≠ [] ∧ ';' ∉ e.1 ∧ '|' ∉ e.1 ∧ '|' ∉ e.2 ∧ [] ∉ split ';' e.2

instance (e : QString × QString) : Decidable (FavoriteEntryOk e) := by
  unfold FavoriteEntryOk
  infer_instance

/-- Whether the heap holds a live action at the slot, with a bold font. -/
def heapBold (h : List (Option QAction)) (a : Nat) : Bool :=
  match heapGet h a with
  | some act => act.bold
  | none => false

/-- Whether an action is shown bold. -/
def isBold (m : pqProxyGroupMenuManager) (a : Nat) : Bool :=
  heapBold m.heap a

/-- The actions that `getAction` returns for the entries of a Recent list, in
the order of the list, while the Recent menu is built. -/
def recentActions (env : Env) :
    pqProxyGroupMenuManager → List (QString × QString) → List Nat
  | _, [] => []
  | m, key :: rest =>
    (match (getAction env m key.1 key.2).2 with
      | some action => [action]
      | none => [])
      ++ recentActions env (populateRecentlyUsedStep env m key) rest

/-- One turn of the loop of `categoryActions(pqProxyCategory*)`, for the proxy
that `findProxy` returns. -/
def categoryActionsProxyStep (env : Env) (acc : pqProxyGroupMenuManager × List Nat)
    (proxy : pqProxyInfo) : pqProxyGroupMenuManager × List Nat :=
  match getActionInfo env acc.1 proxy with
  | (m1, some action) =>
    if !proxy.hideFromMenu then (m1, acc.2 ++ [action]) else (m1, acc.2)
  | (m1, none) => (m1, acc.2)

/-- The entries of a menu entry when it is a sub-menu with the given object
name. -/
def MenuItem.submenuNamed (name : QString) : MenuItem → Option (List MenuItem)
  | MenuItem.menu n items => if n = name then some items else none
  | _ => none

/-- The entries of the first sub-menu of a menu with the given object name. -/
def submenuItems (name : QString) (menu : QMenu) : Option (List MenuItem) :=
  (findSubmenu name menu).map (fun t => t.2.1)

/-- The actions that are direct entries of the sub-menu reached from a menu by
descending through the sub-menus of the given object names, each time the
first one of that name; empty when the path does not exist. -/
def menuActionsAt : List QString → QMenu → List Nat
  | [], menu => QMenu.actions menu
  | category :: rest, menu =>
    match submenuItems category menu with
    | some items => menuActionsAt rest items
    | none => []

/-- Whether `getAction(group, name)` resolves an action in the given state and
registry: group and name are non-empty, and an action is cached under the name
or the Application tree holds a proxy of that name and group with a registered
prototype. -/
def resolves (env : Env) (m : pqProxyGroupMenuManager) (group name : QString) : Prop :=
  group ≠ [] ∧ name ≠ [] ∧
    ((m.CachedActions name).isSome = true ∨
      ∃ p, findProxyInfo group name m.ApplicationCategory.getProxiesRecursive = some p ∧
        hasPrototype env.pxm p.group p.name = true)

/-! ## More sample inputs -/

/-- The tree manager with its four sub-menus in place and empty. -/
def menuManager : pqProxyGroupMenuManager :=
  { treeManager with
    RecentMenu := some [], FavoritesMenu := some [], AlphabeticalMenu := some [],
    MiscMenu := some [] }

/-- A registry in which exactly the pairs of group "filters" have a prototype. -/
def filtersRegistry : vtkSMSessionProxyManager :=
  { GetPrototypeProxy := fun g _ =>
      if g = "filters".toList then some { isCompoundSource := false } else none
    traversal := fun _ => [] }

/-- Surroundings with the registry of filters and no stored shortcut. -/
def filtersEnv : Env :=
  { pxm := filtersRegistry, shortcuts := fun _ => none }

/-- A ProxyInfo named "Stat1" in group "sources", for which the registry of
filters has no prototype. -/
def sourceStatProxy : pqProxyInfo :=
  { name := "Stat1".toList, group := "sources".toList, label := "Stat1 source".toList }

/-- A category "Cat" whose only direct proxy is the "Stat1" of group "sources". -/
def sourceCategory : pqProxyCategory :=
  ⟨"Cat".toList, "Cat".toList, true, false, [sourceStatProxy], []⟩

/-- A manager whose Application tree holds the filter "Stat1" at its root and
the category "Cat" below it. -/
def twoGroupsManager : pqProxyGroupMenuManager :=
  { ApplicationCategory := ⟨[], [], false, false, [statProxy], [sourceCategory]⟩ }

/-- The ProxyInfo of the source "Sphere". -/
def sphereProxy : pqProxyInfo :=
  { name := "Sphere".toList, group := "sources".toList, label := "Sphere".toList }

/-- A manager with an empty Recent menu whose Application tree holds the filter
"Stat1" and the source "Sphere" at its root. -/
def recentMenuManager : pqProxyGroupMenuManager :=
  { ApplicationCategory := ⟨[], [], false, false, [statProxy, sphereProxy], []⟩
    RecentMenu := some [] }

/-- A settings store whose Recent string names "Stat1", "Sphere" and "Stat1"
again. -/
def repeatedRecentSettings : pqSettings :=
  emptySettings.setValue (recentKey recentMenuManager)
    (QVariant.string "filters;Stat1|sources;Sphere|filters;Stat1|".toList)

/-- A settings store that holds the given text under the favorites key of the
menu manager. -/
def favoritesSettings (text : String) : pqSettings :=
  emptySettings.setValue (favoritesKey menuManager) (QVariant.string text.toList)

/-- The tree manager with the proxy favorite ("filters", "Cat1;Stat1"). -/
def favoriteManager : pqProxyGroupMenuManager :=
  { treeManager with Favorites := [entry "filters" "Cat1;Stat1"] }

/-- The tree manager once the action of the filter "Stat1" is cached, with the
given Favorites list. -/
def cachedStatManager (favorites : List (QString × QString)) : pqProxyGroupMenuManager :=
  { (getActionInfo fullEnv treeManager statProxy).1 with Favorites := favorites }

/-! ## Derived attributes of an action -/

/-- The settings key of the custom shortcut of a proxy shown in the given
top menu ("Filters" or "Sources"): the fixed prefix followed by the label. -/
def shortcutKey (menuName label : QString) : QString :=
  "pqCustomShortcuts/".toList ++ menuName ++ "/Alphabetical/".toList ++ label

/-- The action as `createAction` sets it up before it asks for the prototype:
object name, payload and text. -/
def freshAction (proxyInfo : pqProxyInfo) : QAction :=
  { objectName := proxyInfo.name
    data := QVariant.stringList [proxyInfo.group, proxyInfo.name]
    text := proxyInfo.label }

/-- The three attributes that `updateAction` derives: shortcut, icon and the
`OmitFromToolbar` property. -/
def derivedAttributes (action : QAction) :
    QKeySequence × Option QString × Option (List QString) :=
  (action.shortcut, action.icon, action.OmitFromToolbar)

/-- Successive calls of `getAction(pqProxyInfo*)` for the same ProxyInfo, one
for each of the given surroundings. -/
def getActionInfoRepeat (proxyInfo : pqProxyInfo) :
    pqProxyGroupMenuManager → List Env → pqProxyGroupMenuManager
  | m, [] => m
  | m, env :: rest => getActionInfoRepeat proxyInfo (getActionInfo env m proxyInfo).1 rest

/-! ## More sample inputs for the derived attributes -/

/-- An action that already carries the shortcut "Ctrl+X". -/
def shortcutAction : QAction :=
  { shortcut := QKeySequence.fromString "Ctrl+X".toList }

/-- A shortcut store that holds "Ctrl+1" for the filter labelled "Stat1". -/
def statShortcuts : pqSettings :=
  emptySettings.setValue "pqCustomShortcuts/Filters/Alphabetical/Stat1".toList
    (QVariant.string "Ctrl+1".toList)

/-- Surroundings with the full registry and the shortcut store for "Stat1". -/
def shortcutEnv : Env :=
  { pxm := fullRegistry, shortcuts := statShortcuts }

/-- The filter "Stat1" with the toolbars "A" and "B" to be left out of. -/
def omittedStatProxy : pqProxyInfo :=
  { statProxy with omitFromToolbar := ["A".toList, "B".toList] }

/-- A manager with bound 3, an empty Recent list and no menu. -/
def boundThreeManager : pqProxyGroupMenuManager :=
  { RecentlyUsedMenuSize := 3 }

/-- The paths of the "Add current filter" entries that are direct entries of
a menu, in menu order. -/
def addToCategoryPaths : QMenu → List QString
  | [] => []
  | MenuItem.addToCategory path _ :: is => path :: addToCategoryPaths is
  | _ :: is => addToCategoryPaths is

/-- The paths of the "Add current filter" entries of the sub-menu reached from
a menu by descending through the sub-menus of the given object names. -/
def menuAddPathsAt : List QString → QMenu → List QString
  | [], menu => addToCategoryPaths menu
  | category :: rest, menu =>
    match submenuItems category menu with
    | some items => menuAddPathsAt rest items
    | none => []


/-! ## Consistency of the search pool and the cache -/

/-- The constructor `pqProxyGroupMenuManager::pqProxyGroupMenuManager`: the
members take their initial values, the pool widget and the cache start empty,
the Settings tree is loaded from the store, and the body ends with
`populateMenu()`.  `RecentlyUsedMenuSize` and `EnableFavorites` are initialized
in the class declaration, outside the sources at hand, so their initial values
are arguments. -/
def constructManager (lib : pqProxyCategoryOps) (env : Env) (resourceTagName : QString)
    (quickLaunchable : Bool) (recentlyUsedMenuSize : Nat) (enableFavorites : Bool)
    (settings : pqSettings) : pqProxyGroupMenuManager :=
  populateMenu env
    (loadCategorySettings lib
      { ResourceTagName := resourceTagName
        SupportsQuickLaunch := quickLaunchable
        RecentlyUsedMenuSize := recentlyUsedMenuSize
        EnableFavorites := enableFavorites } settings)

/-- The search pool and the cache agree: the actions of the pool widget are the
values of the cache, no action is cached under two names, and an action cached
under a name is live and carries a payload `[g, name]`. -/
def PoolConsistent (m : pqProxyGroupMenuManager) : Prop :=
  (∀ a, a ∈ actions m ↔ ∃ k, m.CachedActions k = some a) ∧
  (∀ k1 k2 a, m.CachedActions k1 = some a → m.CachedActions k2 = some a → k1 = k2) ∧
  (∀ k a, m.CachedActions k = some a →
    ∃ act g, heapGet m.heap a = some act ∧ act.data = QVariant.stringList [g, k])

/-- A call that can add to or clear the action pool, with what it reads from
its surroundings. -/
inductive PoolOp where
  | getAction (env : Env) (pgroup pname : QString)
  | getActionInfo (env : Env) (proxyInfo : pqProxyInfo)
  | createAction (env : Env) (proxyInfo : pqProxyInfo)
  | populateMenu (env : Env)
  | switchActiveServer (newActiveSession : Option Nat)
      (pxm : Option vtkSMSessionProxyManager) (shortcuts : pqSettings)

/-- One pool call on a manager and the settings store it shares. -/
def poolStep (lib : pqProxyCategoryOps) (st : pqProxyGroupMenuManager × pqSettings) :
    PoolOp → pqProxyGroupMenuManager × pqSettings
  | PoolOp.getAction env pgroup pname => ((getAction env st.1 pgroup pname).1, st.2)
  | PoolOp.getActionInfo env proxyInfo => ((getActionInfo env st.1 proxyInfo).1, st.2)
  | PoolOp.createAction env proxyInfo => ((createAction env st.1 proxyInfo).1, st.2)
  | PoolOp.populateMenu env => (populateMenu env st.1, st.2)
  | PoolOp.switchActiveServer newActiveSession pxm shortcuts =>
    switchActiveServer lib newActiveSession pxm shortcuts st.1 st.2

/-- A sequence of pool calls, one after the other. -/
def poolRun (lib : pqProxyCategoryOps) :
    pqProxyGroupMenuManager × pqSettings → List PoolOp → pqProxyGroupMenuManager × pqSettings
  | st, [] => st
  | st, op :: ops => poolRun lib (poolStep lib st op) ops

/-- Whether the call, made in the state `m`, is a direct `createAction` for a
name that the cache already holds. -/
def PoolOp.recreates (m : pqProxyGroupMenuManager) : PoolOp → Bool
  | PoolOp.createAction _ proxyInfo => (m.CachedActions proxyInfo.name).isSome
  | _ => false

/-- No call of the sequence, run from `st`, is a direct `createAction` for a
name that is cached at the time of the call. -/
def createsOnMissOnly (lib : pqProxyCategoryOps) :
    pqProxyGroupMenuManager × pqSettings → List PoolOp → Bool
  | _, [] => true
  | st, op :: ops => !(op.recreates st.1) && createsOnMissOnly lib (poolStep lib st op) ops

/-- Calls that fill the pool, switch the session, create an action again and
build the menu. -/
def poolCalls : List PoolOp :=
  [PoolOp.getActionInfo fullEnv statProxy, PoolOp.createAction fullEnv sphereProxy,
    PoolOp.getAction fullEnv "filters".toList "Stat1".toList,
    PoolOp.switchActiveServer (some 1) (some fullRegistry) emptySettings,
    PoolOp.createAction fullEnv statProxy, PoolOp.populateMenu fullEnv]

/-- Two direct calls of `createAction` for the filter "Stat1". -/
def createTwice : List PoolOp :=
  [PoolOp.createAction fullEnv statProxy, PoolOp.createAction fullEnv statProxy]

/-! ## The toolbar list in the words of the specification -/

/-- The actions that one toolbar category is to contribute, in the words of
the specification: the actions of `categoryActions` of the category, without
those whose `OmitFromToolbar` property, read once `categoryActions` has
returned, is set and contains the name of the category. -/
def toolbarContribution (env : Env) (m : pqProxyGroupMenuManager) (categoryName : QString) :
    List Nat :=
  (categoryActionsByName env m categoryName).2.filter (fun a =>
    decide (categoryName ∉
      ((heapGet (categoryActionsByName env m categoryName).1.heap a).bind
        (fun act => act.OmitFromToolbar)).getD []))

/-- The concatenation of the contributions of the given categories, each
computed in the state that the calls for the categories before it have left. -/
def toolbarConcatenation (env : Env) :
    pqProxyGroupMenuManager → List QString → List Nat
  | _, [] => []
  | m, categoryName :: rest =>
    toolbarContribution env m categoryName
      ++ toolbarConcatenation env (categoryActionsByName env m categoryName).1 rest

/-- The filter "Stat1" with the toolbar category "Tool" in its
`omitFromToolbar` list. -/
def toolOmittedStatProxy : pqProxyInfo :=
  { statProxy with omitFromToolbar := ["Tool".toList] }

/-- A manager whose effective tree has the toolbar category "Tool", holding
"Stat1" (omitted from "Tool") and "Sphere" in authoring order, and the category
"Plain" without `showInToolbar`, holding "Sphere". -/
def toolbarManager : pqProxyGroupMenuManager :=
  { ApplicationCategory := ⟨[], [], false, false, [],
      [⟨"Tool".toList, "Tool".toList, true, true, [toolOmittedStatProxy, sphereProxy], []⟩,
        ⟨"Plain".toList, "Plain".toList, false, true, [sphereProxy], []⟩]⟩ }

/-- The tree manager with the proxy favorite ("filters", "Cat1;Stat1") and the
category favorite ("categories", "Cat1"). -/
def mixedFavoriteManager : pqProxyGroupMenuManager :=
  { treeManager with Favorites := [entry "categories" "Cat1", entry "filters" "Cat1;Stat1"] }

/-! # Theorems -/

/-! ## Strings -/

theorem split_ne_nil (sep : Char) (s : QString) : split sep s ≠ [] := by
  induction s with
  | nil => simp [split]
  | cons c cs ih =>
    unfold split
    split
    · simp
    · split
      · simp
      · simp

theorem split_of_not_mem (sep : Char) (p : QString) (h : sep ∉ p) : split sep p = [p] := by
  induction p with
  | nil => rfl
  | cons c cs ih =>
    have hc : c ≠ sep := fun e => h (by simp [e])
    have hcs : sep ∉ cs := fun e => h (by simp [e])
    simp [split, hc, ih hcs]

theorem split_append_sep (sep : Char) (p rest : QString) (h : sep ∉ p) :
    split sep (p ++ sep :: rest) = p :: split sep rest := by
  induction p with
  | nil => simp [split]
  | cons c cs ih =>
    have hc : c ≠ sep := fun e => h (by simp [e])
    have hcs : sep ∉ cs := fun e => h (by simp [e])
    simp [split, hc, ih hcs]

theorem findArgEscapes_append_lit (g rest : List Char) (h : '%' ∉ g) :
    findArgEscapes 0 (g ++ rest) = g.map ArgToken.lit ++ findArgEscapes 0 rest := by
  induction g with
  | nil => rfl
  | cons c cs ih =>
    have hc : c ≠ '%' := fun e => h (by simp [e])
    have hcs : '%' ∉ cs := fun e => h (by simp [e])
    simp [findArgEscapes, hc, ih hcs]

theorem minEscape_lit_append (g : List Char) (ts : List ArgToken) :
    minEscape (g.map ArgToken.lit ++ ts) = minEscape ts := by
  induction g with
  | nil => rfl
  | cons c cs ih => simpa [minEscape] using ih

theorem replaceArgEscapes_lit_append (m : Nat) (a : QString) (g : List Char)
    (ts : List ArgToken) :
    replaceArgEscapes m a (g.map ArgToken.lit ++ ts) = g ++ replaceArgEscapes m a ts := by
  induction g with
  | nil => rfl
  | cons c cs ih => simpa [replaceArgEscapes] using ih

theorem arg_template_first (g : QString) :
    arg "%1;%2|".toList g = g ++ ";%2|".toList := by
  rfl

theorem arg_template_second (g n : QString) (h : '%' ∉ g) :
    arg (g ++ ";%2|".toList) n = entryText (g, n) := by
  have hmin : minEscape (findArgEscapes 0 ";%2|".toList) = some 2 := by decide
  unfold arg
  rw [findArgEscapes_append_lit g _ h, minEscape_lit_append, hmin]
  simp only []
  rw [replaceArgEscapes_lit_append]
  rfl

theorem arg_entry (e : QString × QString) (h : '%' ∉ e.1) :
    arg (arg "%1;%2|".toList e.1) e.2 = entryText e := by
  rw [arg_template_first, arg_template_second _ _ h]

/-! ## The stored Recent string -/

theorem recentValue_foldl (l : List (QString × QString)) (acc : QString) :
    l.foldl (fun value e => value ++ arg (arg "%1;%2|".toList e.1) e.2) acc
      = acc ++ (l.map (fun e => arg (arg "%1;%2|".toList e.1) e.2)).flatten := by
  induction l generalizing acc with
  | nil => simp
  | cons e es ih =>
    rw [List.foldl_cons, ih, List.map_cons, List.flatten_cons, List.append_assoc]

theorem recentValue_ok (l : List (QString × QString)) (h : ∀ e ∈ l, RecentEntryOk e) :
    recentValue l = (l.map entryText).flatten := by
  unfold recentValue
  rw [recentValue_foldl]
  simp only [List.nil_append]
  congr 1
  apply List.map_congr_left
  intro e he
  exact arg_entry e (h e he).2.2.2.2.1

theorem parse_entryText_cons (e : QString × QString) (he : RecentEntryOk e) (rest : QString) :
    parseRecentlyUsed (entryText e ++ rest) = e :: parseRecentlyUsed rest := by
  obtain ⟨h1, h2, h3, h4, _, h6, h7⟩ := he
  have hpipe : '|' ∉ e.1 ++ ';' :: e.2 := by
    simp only [List.mem_append, List.mem_cons, not_or]
    exact ⟨h4, by decide, h7⟩
  have hsplit : split '|' (entryText e ++ rest) = (e.1 ++ ';' :: e.2) :: split '|' rest := by
    have : entryText e ++ rest = (e.1 ++ ';' :: e.2) ++ '|' :: rest := by
      simp [entryText]
    rw [this, split_append_sep _ _ _ hpipe]
  have hpieces : splitSkipEmptyParts ';' (e.1 ++ ';' :: e.2) = [e.1, e.2] := by
    unfold splitSkipEmptyParts
    rw [split_append_sep _ _ _ h3, split_of_not_mem _ _ h6]
    simp [h1, h2]
  have hne : (e.1 ++ ';' :: e.2) ≠ [] := by simp
  unfold parseRecentlyUsed
  unfold splitSkipEmptyParts at *
  rw [hsplit]
  simp [hne, hpieces]

theorem parse_flatten_entryText (l : List (QString × QString))
    (h : ∀ e ∈ l, RecentEntryOk e) :
    parseRecentlyUsed (l.map entryText).flatten = l := by
  induction l with
  | nil => decide
  | cons e es ih =>
    simp only [List.map_cons, List.flatten_cons]
    rw [parse_entryText_cons e (h e (by simp)), ih (fun x hx => h x (by simp [hx]))]

theorem parse_recentValue (l : List (QString × QString)) (h : ∀ e ∈ l, RecentEntryOk e) :
    parseRecentlyUsed (recentValue l) = l := by
  rw [recentValue_ok l h, parse_flatten_entryText l h]

theorem load_save (m m1 : pqProxyGroupMenuManager) (settings : pqSettings)
    (htag : m1.ResourceTagName = m.ResourceTagName) :
    (loadRecentlyUsedItems m1 (saveRecentlyUsedItems m settings)).RecentlyUsed
      = parseRecentlyUsed (recentValue m.RecentlyUsed) := by
  simp [loadRecentlyUsedItems, saveRecentlyUsedItems, pqSettings.contains, pqSettings.value,
    pqSettings.setValue, recentKey, QVariant.toQString, htag]

/-! ## The truncation loop -/

theorem popBackLoop_neg {α : Type} (bound : Int) (hb : bound < 0) (l : List α) :
    popBackLoop bound l = none := by
  generalize hn : l.length = n
  induction n using Nat.strong_induction_on generalizing l with
  | _ n ih =>
    rw [popBackLoop]
    have h1 : (l.length : Int) > bound := by omega
    simp only [h1, if_true]
    cases l with
    | nil => simp
    | cons a t =>
      simp only [List.isEmpty_cons, Bool.false_eq_true, if_false]
      exact ih (a :: t).dropLast.length (by simp [← hn]) _ rfl

theorem popBackLoop_nonneg {α : Type} (bound : Nat) (l : List α) :
    popBackLoop (bound : Int) l = some (l.take bound) := by
  generalize hn : l.length = n
  induction n using Nat.strong_induction_on generalizing l with
  | _ n ih =>
    rw [popBackLoop]
    by_cases h1 : (l.length : Int) > (bound : Int)
    · simp only [h1, if_true]
      cases l with
      | nil =>
        simp only [List.length_nil] at h1
        omega
      | cons a t =>
        simp only [List.isEmpty_cons, Bool.false_eq_true, if_false]
        rw [ih (a :: t).dropLast.length (by simp [← hn]) _ rfl]
        have hlt : bound ≤ (a :: t).length - 1 := by
          simp only [List.length_cons] at h1 ⊢
          omega
        rw [List.dropLast_eq_take, List.take_take, Nat.min_eq_left hlt]
    · simp only [h1, if_false]
      have : l.length ≤ bound := by omega
      rw [List.take_of_length_le this]

/-! ## Fields kept by a frame -/

theorem eraseActions_ResourceTagName {m m1 : pqProxyGroupMenuManager}
    (h : eraseActions m1 = eraseActions m) : m1.ResourceTagName = m.ResourceTagName := by
  have h1 := congrArg pqProxyGroupMenuManager.ResourceTagName h
  exact h1

theorem eraseActions_RecentlyUsedMenuSize {m m1 : pqProxyGroupMenuManager}
    (h : eraseActions m1 = eraseActions m) : m1.RecentlyUsedMenuSize = m.RecentlyUsedMenuSize := by
  have h1 := congrArg pqProxyGroupMenuManager.RecentlyUsedMenuSize h
  exact h1

theorem eraseActions_EnableFavorites {m m1 : pqProxyGroupMenuManager}
    (h : eraseActions m1 = eraseActions m) : m1.EnableFavorites = m.EnableFavorites := by
  have h1 := congrArg pqProxyGroupMenuManager.EnableFavorites h
  exact h1

theorem eraseActions_SupportsQuickLaunch {m m1 : pqProxyGroupMenuManager}
    (h : eraseActions m1 = eraseActions m) : m1.SupportsQuickLaunch = m.SupportsQuickLaunch := by
  have h1 := congrArg pqProxyGroupMenuManager.SupportsQuickLaunch h
  exact h1

theorem eraseActions_RecentlyUsed {m m1 : pqProxyGroupMenuManager}
    (h : eraseActions m1 = eraseActions m) : m1.RecentlyUsed = m.RecentlyUsed := by
  have h1 := congrArg pqProxyGroupMenuManager.RecentlyUsed h
  exact h1

theorem eraseActions_Favorites {m m1 : pqProxyGroupMenuManager}
    (h : eraseActions m1 = eraseActions m) : m1.Favorites = m.Favorites := by
  have h1 := congrArg pqProxyGroupMenuManager.Favorites h
  exact h1

theorem eraseActions_ProxyDefinitionGroupToListen {m m1 : pqProxyGroupMenuManager}
    (h : eraseActions m1 = eraseActions m) : m1.ProxyDefinitionGroupToListen = m.ProxyDefinitionGroupToListen := by
  have h1 := congrArg pqProxyGroupMenuManager.ProxyDefinitionGroupToListen h
  exact h1

theorem eraseActions_LocalActiveSession {m m1 : pqProxyGroupMenuManager}
    (h : eraseActions m1 = eraseActions m) : m1.LocalActiveSession = m.LocalActiveSession := by
  have h1 := congrArg pqProxyGroupMenuManager.LocalActiveSession h
  exact h1

theorem eraseActions_ApplicationCategory {m m1 : pqProxyGroupMenuManager}
    (h : eraseActions m1 = eraseActions m) : m1.ApplicationCategory = m.ApplicationCategory := by
  have h1 := congrArg pqProxyGroupMenuManager.ApplicationCategory h
  exact h1

theorem eraseActions_SettingsCategory {m m1 : pqProxyGroupMenuManager}
    (h : eraseActions m1 = eraseActions m) : m1.SettingsCategory = m.SettingsCategory := by
  have h1 := congrArg pqProxyGroupMenuManager.SettingsCategory h
  exact h1

theorem eraseActions_ClientEnvironmentDone {m m1 : pqProxyGroupMenuManager}
    (h : eraseActions m1 = eraseActions m) : m1.ClientEnvironmentDone = m.ClientEnvironmentDone := by
  have h1 := congrArg pqProxyGroupMenuManager.ClientEnvironmentDone h
  exact h1

theorem eraseActions_IsWritingSettings {m m1 : pqProxyGroupMenuManager}
    (h : eraseActions m1 = eraseActions m) : m1.IsWritingSettings = m.IsWritingSettings := by
  have h1 := congrArg pqProxyGroupMenuManager.IsWritingSettings h
  exact h1

theorem eraseActions_log {m m1 : pqProxyGroupMenuManager}
    (h : eraseActions m1 = eraseActions m) : m1.log = m.log := by
  have h1 := congrArg pqProxyGroupMenuManager.log h
  exact h1

theorem eraseActions_SearchAction {m m1 : pqProxyGroupMenuManager}
    (h : eraseActions m1 = eraseActions m) : m1.SearchAction = m.SearchAction := by
  have h1 := congrArg pqProxyGroupMenuManager.SearchAction h
  exact h1

theorem eraseActions_RecentMenu {m m1 : pqProxyGroupMenuManager}
    (h : eraseActions m1 = eraseActions m) : m1.RecentMenu = m.RecentMenu := by
  have h1 := congrArg pqProxyGroupMenuManager.RecentMenu h
  exact h1

theorem eraseActions_FavoritesMenu {m m1 : pqProxyGroupMenuManager}
    (h : eraseActions m1 = eraseActions m) : m1.FavoritesMenu = m.FavoritesMenu := by
  have h1 := congrArg pqProxyGroupMenuManager.FavoritesMenu h
  exact h1

theorem eraseActions_AlphabeticalMenu {m m1 : pqProxyGroupMenuManager}
    (h : eraseActions m1 = eraseActions m) : m1.AlphabeticalMenu = m.AlphabeticalMenu := by
  have h1 := congrArg pqProxyGroupMenuManager.AlphabeticalMenu h
  exact h1

theorem eraseActions_CategoriesMenus {m m1 : pqProxyGroupMenuManager}
    (h : eraseActions m1 = eraseActions m) : m1.CategoriesMenus = m.CategoriesMenus := by
  have h1 := congrArg pqProxyGroupMenuManager.CategoriesMenus h
  exact h1

theorem eraseMenus_ResourceTagName {m m1 : pqProxyGroupMenuManager}
    (h : eraseMenus m1 = eraseMenus m) : m1.ResourceTagName = m.ResourceTagName := by
  have h1 := congrArg pqProxyGroupMenuManager.ResourceTagName h
  exact h1

theorem eraseMenus_RecentlyUsedMenuSize {m m1 : pqProxyGroupMenuManager}
    (h : eraseMenus m1 = eraseMenus m) : m1.RecentlyUsedMenuSize = m.RecentlyUsedMenuSize := by
  have h1 := congrArg pqProxyGroupMenuManager.RecentlyUsedMenuSize h
  exact h1

theorem eraseMenus_EnableFavorites {m m1 : pqProxyGroupMenuManager}
    (h : eraseMenus m1 = eraseMenus m) : m1.EnableFavorites = m.EnableFavorites := by
  have h1 := congrArg pqProxyGroupMenuManager.EnableFavorites h
  exact h1

theorem eraseMenus_SupportsQuickLaunch {m m1 : pqProxyGroupMenuManager}
    (h : eraseMenus m1 = eraseMenus m) : m1.SupportsQuickLaunch = m.SupportsQuickLaunch := by
  have h1 := congrArg pqProxyGroupMenuManager.SupportsQuickLaunch h
  exact h1

theorem eraseMenus_RecentlyUsed {m m1 : pqProxyGroupMenuManager}
    (h : eraseMenus m1 = eraseMenus m) : m1.RecentlyUsed = m.RecentlyUsed := by
  have h1 := congrArg pqProxyGroupMenuManager.RecentlyUsed h
  exact h1

theorem eraseMenus_Favorites {m m1 : pqProxyGroupMenuManager}
    (h : eraseMenus m1 = eraseMenus m) : m1.Favorites = m.Favorites := by
  have h1 := congrArg pqProxyGroupMenuManager.Favorites h
  exact h1

theorem eraseMenus_ProxyDefinitionGroupToListen {m m1 : pqProxyGroupMenuManager}
    (h : eraseMenus m1 = eraseMenus m) : m1.ProxyDefinitionGroupToListen = m.ProxyDefinitionGroupToListen := by
  have h1 := congrArg pqProxyGroupMenuManager.ProxyDefinitionGroupToListen h
  exact h1

theorem eraseMenus_LocalActiveSession {m m1 : pqProxyGroupMenuManager}
    (h : eraseMenus m1 = eraseMenus m) : m1.LocalActiveSession = m.LocalActiveSession := by
  have h1 := congrArg pqProxyGroupMenuManager.LocalActiveSession h
  exact h1

theorem eraseMenus_ApplicationCategory {m m1 : pqProxyGroupMenuManager}
    (h : eraseMenus m1 = eraseMenus m) : m1.ApplicationCategory = m.ApplicationCategory := by
  have h1 := congrArg pqProxyGroupMenuManager.ApplicationCategory h
  exact h1

theorem eraseMenus_SettingsCategory {m m1 : pqProxyGroupMenuManager}
    (h : eraseMenus m1 = eraseMenus m) : m1.SettingsCategory = m.SettingsCategory := by
  have h1 := congrArg pqProxyGroupMenuManager.SettingsCategory h
  exact h1

theorem eraseMenus_ClientEnvironmentDone {m m1 : pqProxyGroupMenuManager}
    (h : eraseMenus m1 = eraseMenus m) : m1.ClientEnvironmentDone = m.ClientEnvironmentDone := by
  have h1 := congrArg pqProxyGroupMenuManager.ClientEnvironmentDone h
  exact h1

theorem eraseMenus_IsWritingSettings {m m1 : pqProxyGroupMenuManager}
    (h : eraseMenus m1 = eraseMenus m) : m1.IsWritingSettings = m.IsWritingSettings := by
  have h1 := congrArg pqProxyGroupMenuManager.IsWritingSettings h
  exact h1

theorem eraseMenus_log {m m1 : pqProxyGroupMenuManager}
    (h : eraseMenus m1 = eraseMenus m) : m1.log = m.log := by
  have h1 := congrArg pqProxyGroupMenuManager.log h
  exact h1

/-! ## Frames of action materialization -/

theorem eraseActions_createAction (env : Env) (m : pqProxyGroupMenuManager)
    (p : pqProxyInfo) : eraseActions (createAction env m p).1 = eraseActions m := by
  unfold createAction
  simp only []
  split <;> rfl

theorem eraseActions_getActionInfo (env : Env) (m : pqProxyGroupMenuManager)
    (p : pqProxyInfo) : eraseActions (getActionInfo env m p).1 = eraseActions m := by
  unfold getActionInfo
  split
  · rfl
  · exact eraseActions_createAction env m p

theorem eraseActions_getAction (env : Env) (m : pqProxyGroupMenuManager)
    (g n : QString) : eraseActions (getAction env m g n).1 = eraseActions m := by
  unfold getAction
  split
  · rfl
  · split
    · rfl
    · split
      · exact eraseActions_createAction env m _
      · rfl

theorem eraseMenus_of_eraseActions {m m1 : pqProxyGroupMenuManager}
    (h : eraseActions m1 = eraseActions m) : eraseMenus m1 = eraseMenus m := by
  unfold eraseMenus
  rw [h]

theorem eraseMenus_populateRecentlyUsedStep (env : Env) (m : pqProxyGroupMenuManager)
    (key : QString × QString) :
    eraseMenus (populateRecentlyUsedStep env m key) = eraseMenus m := by
  unfold populateRecentlyUsedStep
  have h := eraseMenus_of_eraseActions (eraseActions_getAction env m key.1 key.2)
  split
  · next m1 a heq =>
    rw [heq] at h
    exact h
  · next m1 heq =>
    rw [heq] at h
    exact h

theorem eraseMenus_foldl_recent (env : Env) (l : List (QString × QString))
    (m : pqProxyGroupMenuManager) :
    eraseMenus (l.foldl (populateRecentlyUsedStep env) m) = eraseMenus m := by
  induction l generalizing m with
  | nil => rfl
  | cons k ks ih => rw [List.foldl_cons, ih, eraseMenus_populateRecentlyUsedStep]

theorem eraseMenus_populateRecentlyUsedMenu (env : Env) (m : pqProxyGroupMenuManager)
    (settings : pqSettings) :
    eraseMenus (populateRecentlyUsedMenu env m settings)
      = eraseMenus (loadRecentlyUsedItems m settings) := by
  unfold populateRecentlyUsedMenu
  simp only []
  split
  · rfl
  · rw [eraseMenus_foldl_recent]
    rfl

/-! ## The trigger handler -/

theorem staticCastInt_small (u : Nat) (h : u < 2 ^ 31) : staticCastInt u = (u : Int) := by
  unfold staticCastInt
  have h1 : u % 2 ^ 32 = u := Nat.mod_eq_of_lt (by omega)
  rw [h1, if_pos h]

theorem staticCastInt_large (u : Nat) (h : 2 ^ 31 ≤ u % 2 ^ 32) : staticCastInt u < 0 := by
  unfold staticCastInt
  have h2 : u % 2 ^ 32 < 2 ^ 32 := Nat.mod_lt _ (by norm_num)
  rw [if_neg (by omega)]
  omega

/-- The trigger handler on a bound below 2^31: the list it hands to
`saveRecentlyUsedItems` is the activated pair, then the other entries in their
order, cut to the bound; it then saves and re-populates the Recent menu. -/
theorem triggered_small (env : Env) (m : pqProxyGroupMenuManager) (settings : pqSettings)
    (act : QAction) (d0 d1 : QString) (hd : act.data.toStringList = [d0, d1])
    (hpos : 0 < m.RecentlyUsedMenuSize) (hlt : m.RecentlyUsedMenuSize < 2 ^ 31) :
    ∃ m2 : pqProxyGroupMenuManager,
      m2 = { m with
        log := m.log ++ [Event.triggered d0 d1]
        RecentlyUsed := ((d0, d1) :: m.RecentlyUsed.filter
          (fun e => decide (e ≠ (d0, d1)))).take m.RecentlyUsedMenuSize } ∧
      triggered env m settings (some act)
        = some (populateRecentlyUsedMenu env m2 (saveRecentlyUsedItems m2 settings),
            saveRecentlyUsedItems m2 settings) := by
  refine ⟨_, rfl, ?_⟩
  have h1 : m.RecentlyUsedMenuSize % 2 ^ 32 = m.RecentlyUsedMenuSize :=
    Nat.mod_eq_of_lt (by omega)
  have h2 : m.RecentlyUsedMenuSize % 2 ^ 32 > 0 := by omega
  unfold triggered
  simp only [hd, h2, if_true, staticCastInt_small _ hlt, popBackLoop_nonneg]

/-- After the trigger handler on a bound below 2^31 the Recent list is the one
parsed back from the string just saved; bound and resource tag are kept. -/
theorem triggered_RecentlyUsed (env : Env) (m : pqProxyGroupMenuManager)
    (settings : pqSettings) (act : QAction) (d0 d1 : QString)
    (hd : act.data.toStringList = [d0, d1])
    (hpos : 0 < m.RecentlyUsedMenuSize) (hlt : m.RecentlyUsedMenuSize < 2 ^ 31) :
    ∃ m1 settings1, triggered env m settings (some act) = some (m1, settings1) ∧
      m1.RecentlyUsed = parseRecentlyUsed (recentValue
        (((d0, d1) :: m.RecentlyUsed.filter
          (fun e => decide (e ≠ (d0, d1)))).take m.RecentlyUsedMenuSize)) ∧
      m1.RecentlyUsedMenuSize = m.RecentlyUsedMenuSize ∧
      m1.ResourceTagName = m.ResourceTagName := by
  obtain ⟨m2, hm2, htr⟩ := triggered_small env m settings act d0 d1 hd hpos hlt
  have hfr := eraseMenus_populateRecentlyUsedMenu env m2 (saveRecentlyUsedItems m2 settings)
  refine ⟨_, _, htr, ?_, ?_, ?_⟩
  · rw [eraseMenus_RecentlyUsed hfr, load_save m2 m2 settings rfl, hm2]
  · rw [eraseMenus_RecentlyUsedMenuSize hfr, hm2]
    unfold loadRecentlyUsedItems
    simp only []
    split <;> rfl
  · rw [eraseMenus_ResourceTagName hfr, hm2]
    unfold loadRecentlyUsedItems
    simp only []
    split <;> rfl

/-- C1: With `RecentlyUsedMenuSize` at or above 2^31 the cast `static_cast<int>`
of the bound is negative, the truncation loop of `triggered()` pops the whole
list and then calls `pop_back` on an empty list: the handler never reaches
`saveRecentlyUsedItems`. -/
theorem triggered_large_bound_undefined (env : Env) (m : pqProxyGroupMenuManager)
    (settings : pqSettings) (act : QAction) (d0 d1 : QString)
    (hd : act.data.toStringList = [d0, d1])
    (hbig : 2 ^ 31 ≤ m.RecentlyUsedMenuSize % 2 ^ 32) :
    triggered env m settings (some act) = none := by
  have h2 : m.RecentlyUsedMenuSize % 2 ^ 32 > 0 := by omega
  unfold triggered
  simp only [hd, h2, if_true, popBackLoop_neg _ (staticCastInt_large _ hbig)]

theorem triggered_large_bound_undefined_witness :
    (payloadAction "filters" "Stat1").data.toStringList = ["filters".toList, "Stat1".toList] ∧
    2 ^ 31 ≤ 2147483648 % 2 ^ 32 ∧
    triggered fullEnv { RecentlyUsedMenuSize := 2147483648 } emptySettings
      (some (payloadAction "filters" "Stat1")) = none :=
  ⟨rfl, by decide,
    triggered_large_bound_undefined fullEnv { RecentlyUsedMenuSize := 2147483648 } emptySettings
      (payloadAction "filters" "Stat1") "filters".toList "Stat1".toList rfl (by decide)⟩

/-! ## The Recent list after an activation -/

theorem recentEntryOk_take_cons (k : QString × QString) (L : List (QString × QString))
    (n : Nat) (hk : RecentEntryOk k) (hL : ∀ e ∈ L, RecentEntryOk e) :
    ∀ e ∈ (k :: L.filter (fun e => decide (e ≠ k))).take n, RecentEntryOk e := by
  intro e he
  have h1 := List.mem_of_mem_take he
  rcases List.mem_cons.1 h1 with h2 | h2
  · rw [h2]
    exact hk
  · exact hL e (List.mem_of_mem_filter h2)

/-- The Recent list after an activation of a well-formed pair on a well-formed
list, for a bound below 2^31. -/
theorem triggered_list (env : Env) (m : pqProxyGroupMenuManager) (settings : pqSettings)
    (act : QAction) (k : QString × QString) (hd : act.data.toStringList = [k.1, k.2])
    (hk : RecentEntryOk k) (hL : ∀ e ∈ m.RecentlyUsed, RecentEntryOk e)
    (hpos : 0 < m.RecentlyUsedMenuSize) (hlt : m.RecentlyUsedMenuSize < 2 ^ 31) :
    ∃ m1 settings1, triggered env m settings (some act) = some (m1, settings1) ∧
      m1.RecentlyUsed = (k :: m.RecentlyUsed.filter
          (fun e => decide (e ≠ k))).take m.RecentlyUsedMenuSize ∧
      m1.RecentlyUsedMenuSize = m.RecentlyUsedMenuSize ∧
      m1.ResourceTagName = m.ResourceTagName := by
  obtain ⟨m1, s1, h1, h2, h3, h4⟩ :=
    triggered_RecentlyUsed env m settings act k.1 k.2 hd hpos hlt
  refine ⟨m1, s1, h1, ?_, h3, h4⟩
  rw [h2]
  exact parse_recentValue _ (recentEntryOk_take_cons k _ _ hk hL)

/-- C2 (amended): For a bound `0 < s < 2^31`, an activated pair and a starting
Recent list whose groups and names are non-empty and free of `;` and `|` and
whose groups hold no `%`, the starting list being free of duplicates:
`triggered()` returns, and then the Recent list has at most `s` entries, holds
no pair twice, starts with the activated pair, and its entries are again of
that form. -/
theorem triggered_recent_invariant (env : Env) (m : pqProxyGroupMenuManager)
    (settings : pqSettings) (act : QAction) (k : QString × QString)
    (hd : act.data.toStringList = [k.1, k.2]) (hk : RecentEntryOk k)
    (hL : ∀ e ∈ m.RecentlyUsed, RecentEntryOk e) (hnd : m.RecentlyUsed.Nodup)
    (hpos : 0 < m.RecentlyUsedMenuSize) (hlt : m.RecentlyUsedMenuSize < 2 ^ 31) :
    ∃ m1 settings1, triggered env m settings (some act) = some (m1, settings1) ∧
      m1.RecentlyUsed.length ≤ m.RecentlyUsedMenuSize ∧
      m1.RecentlyUsed.Nodup ∧
      m1.RecentlyUsed.head? = some k ∧
      (∀ e ∈ m1.RecentlyUsed, RecentEntryOk e) := by
  obtain ⟨m1, s1, h1, h2, _, _⟩ := triggered_list env m settings act k hd hk hL hpos hlt
  refine ⟨m1, s1, h1, ?_, ?_, ?_, ?_⟩
  · rw [h2, List.length_take]
    exact Nat.min_le_left _ _
  · rw [h2]
    apply List.Nodup.sublist (List.take_sublist _ _)
    rw [List.nodup_cons]
    refine ⟨?_, hnd.filter _⟩
    intro hmem
    have := List.of_mem_filter hmem
    simp at this
  · rw [h2]
    obtain ⟨n, hn⟩ : ∃ n, m.RecentlyUsedMenuSize = n + 1 := ⟨m.RecentlyUsedMenuSize - 1, by omega⟩
    rw [hn]
    rfl
  · rw [h2]
    exact recentEntryOk_take_cons k _ _ hk hL

theorem triggered_recent_invariant_witness :
    (payloadAction "sources" "Sphere").data.toStringList
      = [(entry "sources" "Sphere").1, (entry "sources" "Sphere").2] ∧
    RecentEntryOk (entry "sources" "Sphere") ∧
    (∀ e ∈ sampleManager.RecentlyUsed, RecentEntryOk e) ∧
    sampleManager.RecentlyUsed.Nodup ∧
    0 < sampleManager.RecentlyUsedMenuSize ∧
    sampleManager.RecentlyUsedMenuSize < 2 ^ 31 ∧
    ∃ m1 settings1,
      triggered fullEnv sampleManager emptySettings (some (payloadAction "sources" "Sphere"))
        = some (m1, settings1) ∧
      m1.RecentlyUsed.length ≤ sampleManager.RecentlyUsedMenuSize ∧
      m1.RecentlyUsed.Nodup ∧
      m1.RecentlyUsed.head? = some (entry "sources" "Sphere") ∧
      (∀ e ∈ m1.RecentlyUsed, RecentEntryOk e) :=
  ⟨rfl, by decide, by decide, by decide, by decide, by decide,
    triggered_recent_invariant fullEnv sampleManager emptySettings
      (payloadAction "sources" "Sphere") (entry "sources" "Sphere") rfl
      (by decide) (by decide) (by decide) (by decide) (by decide)⟩

/-- C2 (as stated) fails: from a starting list that holds a pair twice the
reloaded list still holds it twice; an activated name with a `;` is dropped by
the reload, so the list does not start with the activated pair; a stored name
with `|` and `;` is read back as two entries, so the list exceeds the bound;
an activated group `%1` is taken for a place marker and comes back changed. -/
theorem triggered_recent_invariant_fails :
    (∃ m1 settings1,
      triggered fullEnv
          { RecentlyUsedMenuSize := 3, RecentlyUsed := [entry "a" "b", entry "a" "b"] }
          emptySettings (some (payloadAction "x" "y")) = some (m1, settings1) ∧
        ¬ m1.RecentlyUsed.Nodup) ∧
    (∃ m1 settings1,
      triggered fullEnv { RecentlyUsedMenuSize := 3 } emptySettings
          (some (payloadAction "x" "y;z")) = some (m1, settings1) ∧
        m1.RecentlyUsed.head? ≠ some (entry "x" "y;z")) ∧
    (∃ m1 settings1,
      triggered fullEnv { RecentlyUsedMenuSize := 2, RecentlyUsed := [entry "a" "b|c;d"] }
          emptySettings (some (payloadAction "x" "y")) = some (m1, settings1) ∧
        ¬ m1.RecentlyUsed.length ≤ 2) ∧
    (∃ m1 settings1,
      triggered fullEnv { RecentlyUsedMenuSize := 1 } emptySettings
          (some (payloadAction "%1" "x")) = some (m1, settings1) ∧
        m1.RecentlyUsed.head? ≠ some (entry "%1" "x")) := by
  refine ⟨?_, ?_, ?_, ?_⟩
  · obtain ⟨m1, s1, h1, h2, _, _⟩ := triggered_RecentlyUsed fullEnv
      { RecentlyUsedMenuSize := 3, RecentlyUsed := [entry "a" "b", entry "a" "b"] }
      emptySettings (payloadAction "x" "y") "x".toList "y".toList rfl (by decide) (by decide)
    refine ⟨m1, s1, h1, ?_⟩
    rw [h2]
    decide
  · obtain ⟨m1, s1, h1, h2, _, _⟩ := triggered_RecentlyUsed fullEnv
      { RecentlyUsedMenuSize := 3 }
      emptySettings (payloadAction "x" "y;z") "x".toList "y;z".toList rfl (by decide) (by decide)
    refine ⟨m1, s1, h1, ?_⟩
    rw [h2]
    decide
  · obtain ⟨m1, s1, h1, h2, _, _⟩ := triggered_RecentlyUsed fullEnv
      { RecentlyUsedMenuSize := 2, RecentlyUsed := [entry "a" "b|c;d"] }
      emptySettings (payloadAction "x" "y") "x".toList "y".toList rfl (by decide) (by decide)
    refine ⟨m1, s1, h1, ?_⟩
    rw [h2]
    decide
  · obtain ⟨m1, s1, h1, h2, _, _⟩ := triggered_RecentlyUsed fullEnv
      { RecentlyUsedMenuSize := 1 }
      emptySettings (payloadAction "%1" "x") "%1".toList "x".toList rfl (by decide) (by decide)
    refine ⟨m1, s1, h1, ?_⟩
    rw [h2]
    decide

/-! ## Save then load -/

/-- C3 (amended): For a Recent list whose groups and names are non-empty and
free of `;` and `|` and whose groups hold no `%`, `saveRecentlyUsedItems`
followed by `loadRecentlyUsedItems` on the same resource tag yields the same
list, entry for entry and in the same order. -/
theorem save_load_roundtrip (m m1 : pqProxyGroupMenuManager) (settings : pqSettings)
    (htag : m1.ResourceTagName = m.ResourceTagName)
    (h : ∀ e ∈ m.RecentlyUsed, RecentEntryOk e) :
    (loadRecentlyUsedItems m1 (saveRecentlyUsedItems m settings)).RecentlyUsed
      = m.RecentlyUsed := by
  rw [load_save m m1 settings htag, parse_recentValue _ h]

theorem save_load_roundtrip_witness :
    ({ RecentlyUsed := [] } : pqProxyGroupMenuManager).ResourceTagName
      = sampleManager.ResourceTagName ∧
    (∀ e ∈ sampleManager.RecentlyUsed, RecentEntryOk e) ∧
    (loadRecentlyUsedItems { RecentlyUsed := [] }
        (saveRecentlyUsedItems sampleManager emptySettings)).RecentlyUsed
      = sampleManager.RecentlyUsed :=
  ⟨rfl, by decide,
    save_load_roundtrip sampleManager { RecentlyUsed := [] } emptySettings rfl (by decide)⟩

/-- C3 (as stated) fails: a name that holds a `;` makes three pieces, so the
entry is dropped by the reload; an entry with an empty group is dropped too;
a name that holds a `|` comes back cut. -/
theorem save_load_roundtrip_fails :
    (loadRecentlyUsedItems { RecentlyUsed := [entry "a" "b;c"] }
        (saveRecentlyUsedItems { RecentlyUsed := [entry "a" "b;c"] } emptySettings)).RecentlyUsed
      ≠ [entry "a" "b;c"] ∧
    (loadRecentlyUsedItems { RecentlyUsed := [entry "" "x"] }
        (saveRecentlyUsedItems { RecentlyUsed := [entry "" "x"] } emptySettings)).RecentlyUsed
      ≠ [entry "" "x"] ∧
    (loadRecentlyUsedItems { RecentlyUsed := [entry "a" "b|c"] }
        (saveRecentlyUsedItems { RecentlyUsed := [entry "a" "b|c"] } emptySettings)).RecentlyUsed
      ≠ [entry "a" "b|c"] ∧
    (loadRecentlyUsedItems { RecentlyUsed := [entry "%1" "x"] }
        (saveRecentlyUsedItems { RecentlyUsed := [entry "%1" "x"] } emptySettings)).RecentlyUsed
      ≠ [entry "%1" "x"] := by
  refine ⟨?_, ?_, ?_, ?_⟩ <;> rw [load_save _ _ _ rfl] <;> decide

/-! ## Activation scenarios -/

theorem run_append (lib : pqProxyCategoryOps) (st : pqProxyGroupMenuManager × pqSettings)
    (xs ys : List Op) :
    run lib st (xs ++ ys) = (run lib st xs).bind (fun st1 => run lib st1 ys) := by
  induction xs generalizing st with
  | nil => rfl
  | cons x xs ih =>
    simp only [List.cons_append, run]
    cases step lib st x with
    | none => rfl
    | some st1 => exact ih st1

theorem run_activations (lib : pqProxyCategoryOps) (a : QString × QString)
    (ha : RecentEntryOk a) (ops : List Op)
    (hops : ∀ op ∈ ops, ∃ env act, op = Op.triggered env (some act) ∧
      act.data.toStringList = [a.1, a.2])
    (m : pqProxyGroupMenuManager) (settings : pqSettings)
    (hstart : m.RecentlyUsed = [] ∨ m.RecentlyUsed = [a])
    (hpos : 0 < m.RecentlyUsedMenuSize) (hlt : m.RecentlyUsedMenuSize < 2 ^ 31) :
    ∃ st, run lib (m, settings) ops = some st ∧
      (ops ≠ [] → st.1.RecentlyUsed = [a]) ∧
      (ops = [] → st.1.RecentlyUsed = m.RecentlyUsed) ∧
      st.1.RecentlyUsedMenuSize = m.RecentlyUsedMenuSize := by
  induction ops generalizing m settings with
  | nil => exact ⟨(m, settings), rfl, fun h => absurd rfl h, fun _ => rfl, rfl⟩
  | cons op ops ih =>
    obtain ⟨env, act, hop, hd⟩ := hops op (by simp)
    have hL : ∀ e ∈ m.RecentlyUsed, RecentEntryOk e := by
      intro e he
      rcases hstart with h | h
      · rw [h] at he
        cases he
      · rw [h] at he
        rw [List.mem_singleton.1 he]
        exact ha
    obtain ⟨m1, s1, h1, h2, h3, _⟩ := triggered_list env m settings act a hd ha hL hpos hlt
    have hm1 : m1.RecentlyUsed = [a] := by
      rw [h2]
      obtain ⟨n, hn⟩ : ∃ n, m.RecentlyUsedMenuSize = n + 1 :=
        ⟨m.RecentlyUsedMenuSize - 1, by omega⟩
      rcases hstart with h | h
      · rw [h, hn]
        simp
      · rw [h, hn]
        simp
    obtain ⟨st, hrun, hne, hnil, hsz⟩ := ih (fun o ho => hops o (by simp [ho])) m1 s1
      (Or.inr hm1) (by omega) (by omega)
    refine ⟨st, ?_, ?_, ?_, ?_⟩
    · simp only [run, hop, step, h1]
      exact hrun
    · intro _
      by_cases hops2 : ops = []
      · rw [hnil hops2, hm1]
      · exact hne hops2
    · intro h
      cases h
    · rw [hsz, h3]

/-- C4 (amended): With a bound `2 ≤ s < 2^31`, starting from an empty Recent
list, activating one or more times a pair `a` and then a different pair `b`,
both with non-empty group and name free of `;` and `|` and with a group free
of `%`, leaves the Recent list equal to `[b, a]`. -/
theorem activate_a_then_b (lib : pqProxyCategoryOps) (a b : QString × QString)
    (ha : RecentEntryOk a) (hb : RecentEntryOk b) (hab : a ≠ b)
    (ops : List Op) (hne : ops ≠ [])
    (hops : ∀ op ∈ ops, ∃ env act, op = Op.triggered env (some act) ∧
      act.data.toStringList = [a.1, a.2])
    (envb : Env) (actb : QAction) (hdb : actb.data.toStringList = [b.1, b.2])
    (m : pqProxyGroupMenuManager) (settings : pqSettings)
    (hstart : m.RecentlyUsed = [])
    (hs2 : 2 ≤ m.RecentlyUsedMenuSize) (hlt : m.RecentlyUsedMenuSize < 2 ^ 31) :
    ∃ st, run lib (m, settings) (ops ++ [Op.triggered envb (some actb)]) = some st ∧
      st.1.RecentlyUsed = [b, a] := by
  obtain ⟨st, hrun, hlist, _, hsz⟩ :=
    run_activations lib a ha ops hops m settings (Or.inl hstart) (by omega) hlt
  have hst : st.1.RecentlyUsed = [a] := hlist hne
  have hL : ∀ e ∈ st.1.RecentlyUsed, RecentEntryOk e := by
    intro e he
    rw [hst] at he
    rw [List.mem_singleton.1 he]
    exact ha
  obtain ⟨m1, s1, h1, h2, _, _⟩ :=
    triggered_list envb st.1 st.2 actb b hdb hb hL (by omega) (by omega)
  refine ⟨(m1, s1), ?_, ?_⟩
  · rw [run_append, hrun]
    simp only [Option.bind, run, step, h1]
  · show m1.RecentlyUsed = [b, a]
    rw [h2, hst, hsz]
    obtain ⟨n, hn⟩ : ∃ n, m.RecentlyUsedMenuSize = n + 2 :=
      ⟨m.RecentlyUsedMenuSize - 2, by omega⟩
    rw [hn]
    simp [hab]

/-- The scenario of the specification: bound 5, three activations of
("filters", "Stat1"), then one of ("sources", "Sphere"). -/
theorem activate_a_then_b_witness :
    RecentEntryOk (entry "filters" "Stat1") ∧
    RecentEntryOk (entry "sources" "Sphere") ∧
    entry "filters" "Stat1" ≠ entry "sources" "Sphere" ∧
    ({ RecentlyUsedMenuSize := 5 } : pqProxyGroupMenuManager).RecentlyUsed = [] ∧
    ∃ st, run
        { convertLegacyXML := id, parseXML := fun c _ => (c, false),
          parseXMLHintsTag := fun c _ _ _ => (c, false), writeSettings := fun _ _ s => s,
          loadSettings := fun c _ _ => c, modifiedOnWrite := false }
        ({ RecentlyUsedMenuSize := 5 }, emptySettings)
        (List.replicate 3 (Op.triggered fullEnv (some (payloadAction "filters" "Stat1")))
          ++ [Op.triggered fullEnv (some (payloadAction "sources" "Sphere"))]) = some st ∧
      st.1.RecentlyUsed = [entry "sources" "Sphere", entry "filters" "Stat1"] :=
  ⟨by decide, by decide, by decide, rfl,
    activate_a_then_b _ (entry "filters" "Stat1") (entry "sources" "Sphere")
      (by decide) (by decide) (by decide)
      (List.replicate 3 (Op.triggered fullEnv (some (payloadAction "filters" "Stat1"))))
      (by simp)
      (fun op hop => ⟨fullEnv, payloadAction "filters" "Stat1",
        List.eq_of_mem_replicate hop, rfl⟩)
      fullEnv (payloadAction "sources" "Sphere") rfl
      { RecentlyUsedMenuSize := 5 } emptySettings rfl (by decide) (by decide)⟩

/-- C4 (as stated) fails: with bound 2, from an empty list and an empty store,
activating ("x", "y;z") and then ("p", "q") leaves the one-entry list
[("p", "q")], the first pair being dropped by the reload. -/
theorem activate_a_then_b_fails :
    entry "x" "y;z" ≠ entry "p" "q" ∧
    ∃ m1 s1 m2 s2,
      triggered fullEnv { RecentlyUsedMenuSize := 2 } emptySettings
        (some (payloadAction "x" "y;z")) = some (m1, s1) ∧
      triggered fullEnv m1 s1 (some (payloadAction "p" "q")) = some (m2, s2) ∧
      m2.RecentlyUsed = [entry "p" "q"] ∧
      m2.RecentlyUsed ≠ [entry "p" "q", entry "x" "y;z"] := by
  refine ⟨by decide, ?_⟩
  obtain ⟨m1, s1, h1, h2, h3, _⟩ := triggered_RecentlyUsed fullEnv
    { RecentlyUsedMenuSize := 2 } emptySettings (payloadAction "x" "y;z")
    "x".toList "y;z".toList rfl (by decide) (by decide)
  have h3a : m1.RecentlyUsedMenuSize = 2 := h3
  have h2a : m1.RecentlyUsed = [] := by
    rw [h2]
    decide
  obtain ⟨m2, s2, h4, h5, _, _⟩ := triggered_RecentlyUsed fullEnv m1 s1
    (payloadAction "p" "q") "p".toList "q".toList rfl (by omega) (by omega)
  have h6 : m2.RecentlyUsed = [entry "p" "q"] := by
    rw [h5, h2a, h3a]
    decide
  refine ⟨m1, s1, m2, s2, h1, h4, h6, ?_⟩
  rw [h6]
  decide

/-! ## Frames of menu building -/

theorem eraseActions_populateAlphabeticalStep (env : Env)
    (acc : pqProxyGroupMenuManager × List Nat) (p : pqProxyInfo) :
    eraseActions (populateAlphabeticalStep env acc p).1 = eraseActions acc.1 := by
  unfold populateAlphabeticalStep
  have h := eraseActions_getActionInfo env acc.1 p
  split
  · next m1 a heq =>
    rw [heq] at h
    split <;> exact h
  · next m1 heq =>
    rw [heq] at h
    exact h

theorem eraseActions_foldl_alphabetical (env : Env) (l : List pqProxyInfo)
    (acc : pqProxyGroupMenuManager × List Nat) :
    eraseActions (l.foldl (populateAlphabeticalStep env) acc).1 = eraseActions acc.1 := by
  induction l generalizing acc with
  | nil => rfl
  | cons p ps ih => rw [List.foldl_cons, ih, eraseActions_populateAlphabeticalStep]

theorem eraseMenus_populateAlphabeticalMenu (env : Env) (m : pqProxyGroupMenuManager) :
    eraseMenus (populateAlphabeticalMenu env m) = eraseMenus m := by
  unfold populateAlphabeticalMenu
  split
  · rfl
  · simp only []
    have h := eraseMenus_of_eraseActions (eraseActions_foldl_alphabetical env
      m.ApplicationCategory.getProxiesRecursive ({ m with AlphabeticalMenu := some [] }, []))
    exact h

theorem eraseMenus_populateMenu (env : Env) (m : pqProxyGroupMenuManager) :
    eraseMenus (populateMenu env m)
      = eraseMenus { m with log := m.log ++ [Event.menuPopulated] } := by
  unfold populateMenu
  simp only []
  have key : ∀ x : pqProxyGroupMenuManager, eraseMenus x = eraseMenus m →
      eraseMenus { (populateAlphabeticalMenu env { x with AlphabeticalMenu := some [] }) with
          MiscMenu := some [],
          log := (populateAlphabeticalMenu env { x with AlphabeticalMenu := some [] }).log
            ++ [Event.menuPopulated] }
        = eraseMenus { m with log := m.log ++ [Event.menuPopulated] } := by
    intro x hx
    have h1 := eraseMenus_populateAlphabeticalMenu env { x with AlphabeticalMenu := some [] }
    have h2 : eraseMenus { x with AlphabeticalMenu := some [] } = eraseMenus m := hx
    rw [h2] at h1
    have hlog := eraseMenus_log h1
    rw [hlog]
    have h3 : eraseMenus { (populateAlphabeticalMenu env { x with AlphabeticalMenu := some [] })
        with MiscMenu := some [], log := m.log ++ [Event.menuPopulated] }
        = { eraseMenus (populateAlphabeticalMenu env { x with AlphabeticalMenu := some [] })
            with log := m.log ++ [Event.menuPopulated] } := rfl
    rw [h3, h1]
    rfl
  apply key
  split <;> split <;> split <;> rfl

/-! ## The Settings tree is left alone while settings updates are not allowed -/

theorem allowSettingsUpdate_false (m : pqProxyGroupMenuManager)
    (h : m.ClientEnvironmentDone = false ∨ m.SettingsCategory.isEmpty = true) :
    allowSettingsUpdate m = false := by
  unfold allowSettingsUpdate
  rcases h with h | h <;> simp [h]

theorem countWrites_append (l1 l2 : List Event) :
    countWrites (l1 ++ l2) = countWrites l1 + countWrites l2 := by
  simp [countWrites]

theorem countWrites_feedEvents (items : List ProxyDefinition) :
    countWrites (feedEvents items) = 0 := by
  induction items with
  | nil => rfl
  | cons d ds ih =>
    unfold feedEvents
    split
    · exact ih
    · split
      · exact ih
      · simpa [countWrites, Event.isWrite] using ih

theorem sweepStep_skip (lib : pqProxyCategoryOps) (d : ProxyDefinition)
    (acc : pqProxyGroupMenuManager × pqSettings) (h : skipsDefinition d = true) :
    lookForNewDefinitionsStep lib acc d = acc := by
  unfold lookForNewDefinitionsStep
  unfold skipsDefinition at h
  cases hh : d.hints with
  | none => rfl
  | some hints =>
    rw [hh] at h
    simp only [] at h
    simp only [h, if_true]

theorem sweepStep_feed (lib : pqProxyCategoryOps) (d : ProxyDefinition)
    (hints : vtkPVXMLElement) (m : pqProxyGroupMenuManager) (settings : pqSettings)
    (hh : d.hints = some hints) (hs : skipsDefinition d = false)
    (h : allowSettingsUpdate m = false) :
    lookForNewDefinitionsStep lib (m, settings) d
      = ({ m with
            ApplicationCategory :=
              (lib.parseXMLHintsTag m.ApplicationCategory d.group d.name hints).1
            log := m.log ++ [Event.applicationParseXMLHintsTag d.group d.name hints] },
          settings) := by
  unfold lookForNewDefinitionsStep
  unfold skipsDefinition at hs
  rw [hh] at hs
  simp only [] at hs
  have h1 : allowSettingsUpdate { m with
      ApplicationCategory := (lib.parseXMLHintsTag m.ApplicationCategory d.group d.name hints).1
      log := m.log ++ [Event.applicationParseXMLHintsTag d.group d.name hints] } = false := h
  simp only [hh, hs, Bool.false_eq_true, if_false, h1, Bool.and_false]

theorem feed_skip (lib : pqProxyCategoryOps) (app : pqProxyCategory) (d : ProxyDefinition)
    (ds : List ProxyDefinition) (hs : skipsDefinition d = true) :
    feedApplication lib app (d :: ds) = feedApplication lib app ds ∧
    feedEvents (d :: ds) = feedEvents ds := by
  rw [feedApplication, feedEvents]
  cases hh : d.hints with
  | none => exact ⟨rfl, rfl⟩
  | some hints =>
    simp only [hs, if_true]
    exact ⟨trivial, trivial⟩

theorem feed_cons (lib : pqProxyCategoryOps) (app : pqProxyCategory) (d : ProxyDefinition)
    (hints : vtkPVXMLElement) (ds : List ProxyDefinition)
    (hh : d.hints = some hints) (hs : skipsDefinition d = false) :
    feedApplication lib app (d :: ds)
      = feedApplication lib (lib.parseXMLHintsTag app d.group d.name hints).1 ds ∧
    feedEvents (d :: ds)
      = Event.applicationParseXMLHintsTag d.group d.name hints :: feedEvents ds := by
  rw [feedApplication, feedEvents]
  simp only [hh, hs, Bool.false_eq_true, if_false]
  exact ⟨trivial, trivial⟩

theorem sweep_without_settings (lib : pqProxyCategoryOps) (items : List ProxyDefinition)
    (m : pqProxyGroupMenuManager) (settings : pqSettings)
    (h : allowSettingsUpdate m = false) :
    items.foldl (lookForNewDefinitionsStep lib) (m, settings)
      = ({ m with
            ApplicationCategory := feedApplication lib m.ApplicationCategory items
            log := m.log ++ feedEvents items }, settings) := by
  induction items generalizing m with
  | nil => simp [feedApplication, feedEvents]
  | cons d ds ih =>
    rw [List.foldl_cons]
    cases hs : skipsDefinition d with
    | true =>
      rw [sweepStep_skip lib d _ hs, ih m h, (feed_skip lib _ d ds hs).1,
        (feed_skip lib m.ApplicationCategory d ds hs).2]
    | false =>
      cases hh : d.hints with
      | none =>
        unfold skipsDefinition at hs
        rw [hh] at hs
        cases hs
      | some hints =>
        have h1 : allowSettingsUpdate { m with
            ApplicationCategory :=
              (lib.parseXMLHintsTag m.ApplicationCategory d.group d.name hints).1
            log := m.log ++ [Event.applicationParseXMLHintsTag d.group d.name hints] }
            = false := h
        rw [sweepStep_feed lib d hints m settings hh hs h, ih _ h1,
          (feed_cons lib _ d hints ds hh hs).1,
          (feed_cons lib m.ApplicationCategory d hints ds hh hs).2]
        simp

theorem lookForNewDefinitions_eq (lib : pqProxyCategoryOps)
    (reg : vtkSMSessionProxyManager) (shortcuts : pqSettings)
    (m : pqProxyGroupMenuManager) (settings : pqSettings)
    (h : allowSettingsUpdate m = false)
    (hg : m.ProxyDefinitionGroupToListen.isEmpty = false) :
    lookForNewDefinitions lib (some reg) shortcuts m settings
      = (populateMenu ⟨reg, shortcuts⟩ { m with
          ApplicationCategory := feedApplication lib m.ApplicationCategory
            (reg.traversal (m.ProxyDefinitionGroupToListen.map toUtf8Data))
          log := m.log ++ feedEvents
            (reg.traversal (m.ProxyDefinitionGroupToListen.map toUtf8Data)) }, settings) := by
  unfold lookForNewDefinitions
  simp only [hg, Bool.false_eq_true, if_false]
  rw [sweep_without_settings lib _ m settings h]

/-- A definition sweep while settings updates are not allowed: the Settings
tree and the store are kept, no `writeCategoryToSettings` is called, and the
Application tree is fed the traversed definitions that are not passed over. -/
theorem lookForNewDefinitions_without_settings (lib : pqProxyCategoryOps)
    (pxm : Option vtkSMSessionProxyManager) (shortcuts : pqSettings)
    (m : pqProxyGroupMenuManager) (settings : pqSettings)
    (h : m.ClientEnvironmentDone = false ∨ m.SettingsCategory.isEmpty = true) :
    (lookForNewDefinitions lib pxm shortcuts m settings).1.SettingsCategory
        = m.SettingsCategory ∧
    (lookForNewDefinitions lib pxm shortcuts m settings).2 = settings ∧
    countWrites (lookForNewDefinitions lib pxm shortcuts m settings).1.log
        = countWrites m.log ∧
    (lookForNewDefinitions lib pxm shortcuts m settings).1.ApplicationCategory
        = (match pxm with
          | none => m.ApplicationCategory
          | some reg =>
            if m.ProxyDefinitionGroupToListen.isEmpty then m.ApplicationCategory
            else feedApplication lib m.ApplicationCategory
              (reg.traversal (m.ProxyDefinitionGroupToListen.map toUtf8Data))) := by
  cases pxm with
  | none => exact ⟨rfl, rfl, rfl, rfl⟩
  | some reg =>
    cases hg : m.ProxyDefinitionGroupToListen.isEmpty with
    | true =>
      have hres : lookForNewDefinitions lib (some reg) shortcuts m settings = (m, settings) := by
        unfold lookForNewDefinitions
        simp only [hg, if_true]
      rw [hres]
      exact ⟨rfl, rfl, rfl, by simp⟩
    | false =>
      rw [lookForNewDefinitions_eq lib reg shortcuts m settings
        (allowSettingsUpdate_false m h) hg]
      have hf := eraseMenus_populateMenu ⟨reg, shortcuts⟩ { m with
        ApplicationCategory := feedApplication lib m.ApplicationCategory
          (reg.traversal (m.ProxyDefinitionGroupToListen.map toUtf8Data))
        log := m.log ++ feedEvents
          (reg.traversal (m.ProxyDefinitionGroupToListen.map toUtf8Data)) }
      refine ⟨?_, rfl, ?_, ?_⟩
      · have h1 := eraseMenus_SettingsCategory hf
        exact h1
      · show countWrites (populateMenu _ _).log = _
        rw [eraseMenus_log hf]
        show countWrites ((m.log ++ feedEvents _) ++ [Event.menuPopulated]) = _
        rw [countWrites_append, countWrites_append, countWrites_feedEvents]
        rfl
      · simp only [Bool.false_eq_true, if_false]
        have h1 := eraseMenus_ApplicationCategory hf
        exact h1

theorem loadConfigurationRoot_eq (lib : pqProxyCategoryOps) (env : Env)
    (m : pqProxyGroupMenuManager) (settings : pqSettings) (root : vtkPVXMLElement)
    (h : allowSettingsUpdate m = false) :
    loadConfigurationRoot lib env m settings root
      = (populateMenu env { m with
          ApplicationCategory :=
            (lib.parseXML m.ApplicationCategory (lib.convertLegacyXML root)).1
          log := m.log ++ [Event.applicationParseXML (lib.convertLegacyXML root)] },
        settings) := by
  unfold loadConfigurationRoot
  have h1 : allowSettingsUpdate { m with
      ApplicationCategory := (lib.parseXML m.ApplicationCategory (lib.convertLegacyXML root)).1
      log := m.log ++ [Event.applicationParseXML (lib.convertLegacyXML root)] } = false := h
  simp only [h1, Bool.and_false, Bool.false_eq_true, if_false]

theorem loadConfigurationRoot_without_settings (lib : pqProxyCategoryOps) (env : Env)
    (m : pqProxyGroupMenuManager) (settings : pqSettings) (root : vtkPVXMLElement)
    (h : m.ClientEnvironmentDone = false ∨ m.SettingsCategory.isEmpty = true) :
    (loadConfigurationRoot lib env m settings root).1.SettingsCategory = m.SettingsCategory ∧
    (loadConfigurationRoot lib env m settings root).2 = settings ∧
    countWrites (loadConfigurationRoot lib env m settings root).1.log = countWrites m.log ∧
    (loadConfigurationRoot lib env m settings root).1.ApplicationCategory
      = (lib.parseXML m.ApplicationCategory (lib.convertLegacyXML root)).1 := by
  rw [loadConfigurationRoot_eq lib env m settings root (allowSettingsUpdate_false m h)]
  have hf := eraseMenus_populateMenu env { m with
      ApplicationCategory := (lib.parseXML m.ApplicationCategory (lib.convertLegacyXML root)).1
      log := m.log ++ [Event.applicationParseXML (lib.convertLegacyXML root)] }
  refine ⟨?_, rfl, ?_, ?_⟩
  · have h1 := eraseMenus_SettingsCategory hf
    exact h1
  · show countWrites (populateMenu _ _).log = _
    rw [eraseMenus_log hf]
    show countWrites ((m.log ++ [Event.applicationParseXML _]) ++ [Event.menuPopulated]) = _
    rw [countWrites_append, countWrites_append]
    rfl
  · have h1 := eraseMenus_ApplicationCategory hf
    exact h1

mutual
theorem loadConfigurationElement_resolve (lib : pqProxyCategoryOps) (env : Env)
    (m : pqProxyGroupMenuManager) (settings : pqSettings) :
    ∀ e : vtkPVXMLElement, loadConfigurationElement lib env m settings e
      = (match resolveElement m.ResourceTagName e with
        | none => (m, settings)
        | some r => loadConfigurationRoot lib env m settings r)
  | ⟨name, attributes, nested⟩ => by
    unfold loadConfigurationElement resolveElement
    cases name with
    | none => rfl
    | some nm =>
      by_cases hn : m.ResourceTagName ≠ nm
      · simp only []
        rw [if_pos hn, if_pos hn]
        exact loadConfigurationNested_resolve lib env m settings nested
      · simp only []
        rw [if_neg hn, if_neg hn]
theorem loadConfigurationNested_resolve (lib : pqProxyCategoryOps) (env : Env)
    (m : pqProxyGroupMenuManager) (settings : pqSettings) :
    ∀ es : List vtkPVXMLElement, loadConfigurationNested lib env m settings es
      = (match resolveNested m.ResourceTagName es with
        | none => (m, settings)
        | some r => loadConfigurationRoot lib env m settings r)
  | [] => by
    unfold loadConfigurationNested resolveNested
    rfl
  | e :: es => by
    unfold loadConfigurationNested resolveNested
    by_cases hn : e.name = some (toUtf8Data m.ResourceTagName)
    · rw [if_pos hn, if_pos hn]
      exact loadConfigurationElement_resolve lib env m settings e
    · rw [if_neg hn, if_neg hn]
      exact loadConfigurationNested_resolve lib env m settings es
end

theorem loadConfiguration_resolve (lib : pqProxyCategoryOps) (env : Env)
    (m : pqProxyGroupMenuManager) (settings : pqSettings) (root : Option vtkPVXMLElement) :
    loadConfiguration lib env m settings root
      = (match resolveRoot m.ResourceTagName root with
        | none => (m, settings)
        | some r => loadConfigurationRoot lib env m settings r) := by
  unfold loadConfiguration resolveRoot
  cases root with
  | none => rfl
  | some r => exact loadConfigurationElement_resolve lib env m settings r

/-- C5 (amended): In a state where the client-environment-done flag is false
or the Settings tree is empty, `loadConfiguration(root)` and
`lookForNewDefinitions()` leave the Settings tree and the settings store
unchanged and never call `writeCategoryToSettings`; the Application tree is
fed the element of `root` that carries the resource tag (if there is one),
respectively every traversed definition that has hints without a
`ReaderFactory` child. -/
theorem settings_kept_when_update_not_allowed (lib : pqProxyCategoryOps)
    (m : pqProxyGroupMenuManager) (settings : pqSettings)
    (h : m.ClientEnvironmentDone = false ∨ m.SettingsCategory.isEmpty = true) :
    (∀ (env : Env) (root : Option vtkPVXMLElement),
      (loadConfiguration lib env m settings root).1.SettingsCategory = m.SettingsCategory ∧
      (loadConfiguration lib env m settings root).2 = settings ∧
      countWrites (loadConfiguration lib env m settings root).1.log = countWrites m.log ∧
      (loadConfiguration lib env m settings root).1.ApplicationCategory
        = (match resolveRoot m.ResourceTagName root with
          | none => m.ApplicationCategory
          | some e => (lib.parseXML m.ApplicationCategory (lib.convertLegacyXML e)).1)) ∧
    (∀ (pxm : Option vtkSMSessionProxyManager) (shortcuts : pqSettings),
      (lookForNewDefinitions lib pxm shortcuts m settings).1.SettingsCategory
        = m.SettingsCategory ∧
      (lookForNewDefinitions lib pxm shortcuts m settings).2 = settings ∧
      countWrites (lookForNewDefinitions lib pxm shortcuts m settings).1.log
        = countWrites m.log ∧
      (lookForNewDefinitions lib pxm shortcuts m settings).1.ApplicationCategory
        = (match pxm with
          | none => m.ApplicationCategory
          | some reg =>
            if m.ProxyDefinitionGroupToListen.isEmpty then m.ApplicationCategory
            else feedApplication lib m.ApplicationCategory
              (reg.traversal (m.ProxyDefinitionGroupToListen.map toUtf8Data)))) := by
  refine ⟨?_, ?_⟩
  · intro env root
    rw [loadConfiguration_resolve]
    cases resolveRoot m.ResourceTagName root with
    | none => exact ⟨rfl, rfl, rfl, rfl⟩
    | some e => exact loadConfigurationRoot_without_settings lib env m settings e h
  · intro pxm shortcuts
    exact lookForNewDefinitions_without_settings lib pxm shortcuts m settings h

theorem settings_kept_when_update_not_allowed_witness :
    (listeningManager.ClientEnvironmentDone = false ∨
      listeningManager.SettingsCategory.isEmpty = true) ∧
    ((∀ (env : Env) (root : Option vtkPVXMLElement),
      (loadConfiguration appendOps env listeningManager emptySettings root).1.SettingsCategory
        = listeningManager.SettingsCategory ∧
      (loadConfiguration appendOps env listeningManager emptySettings root).2 = emptySettings ∧
      countWrites (loadConfiguration appendOps env listeningManager emptySettings root).1.log
        = countWrites listeningManager.log ∧
      (loadConfiguration appendOps env listeningManager emptySettings root).1.ApplicationCategory
        = (match resolveRoot listeningManager.ResourceTagName root with
          | none => listeningManager.ApplicationCategory
          | some e => (appendOps.parseXML listeningManager.ApplicationCategory
              (appendOps.convertLegacyXML e)).1)) ∧
    (∀ (pxm : Option vtkSMSessionProxyManager) (shortcuts : pqSettings),
      (lookForNewDefinitions appendOps pxm shortcuts listeningManager
          emptySettings).1.SettingsCategory = listeningManager.SettingsCategory ∧
      (lookForNewDefinitions appendOps pxm shortcuts listeningManager emptySettings).2
        = emptySettings ∧
      countWrites (lookForNewDefinitions appendOps pxm shortcuts listeningManager
          emptySettings).1.log = countWrites listeningManager.log ∧
      (lookForNewDefinitions appendOps pxm shortcuts listeningManager
          emptySettings).1.ApplicationCategory
        = (match pxm with
          | none => listeningManager.ApplicationCategory
          | some reg =>
            if listeningManager.ProxyDefinitionGroupToListen.isEmpty then
              listeningManager.ApplicationCategory
            else feedApplication appendOps listeningManager.ApplicationCategory
              (reg.traversal
                (listeningManager.ProxyDefinitionGroupToListen.map toUtf8Data))))) :=
  ⟨Or.inl rfl,
    settings_kept_when_update_not_allowed appendOps listeningManager emptySettings (Or.inl rfl)⟩

/-- C5 (as stated) fails in its last part: a sweep whose traversal visits the
definition of a reader (hints with a `ReaderFactory` child) does not feed it to
the Application tree; the tree stays empty although parsing the hints into it
would add the proxy. -/
theorem sweep_passes_over_reader :
    listeningManager.ClientEnvironmentDone = false ∧
    (readerRegistry.traversal
      (listeningManager.ProxyDefinitionGroupToListen.map toUtf8Data)).length = 1 ∧
    countApplicationFeeds (lookForNewDefinitions appendOps (some readerRegistry) emptySettings
      listeningManager emptySettings).1.log = 0 ∧
    (lookForNewDefinitions appendOps (some readerRegistry) emptySettings
      listeningManager emptySettings).1.ApplicationCategory.isEmpty = true ∧
    (appendOps.parseXMLHintsTag listeningManager.ApplicationCategory
      readerDefinition.group readerDefinition.name readerHints).1.isEmpty = false := by
  have hs := lookForNewDefinitions_without_settings appendOps (some readerRegistry)
    emptySettings listeningManager emptySettings (Or.inl rfl)
  have he := lookForNewDefinitions_eq appendOps readerRegistry emptySettings listeningManager
    emptySettings rfl rfl
  have hf := eraseMenus_populateMenu ⟨readerRegistry, emptySettings⟩ { listeningManager with
    ApplicationCategory := feedApplication appendOps listeningManager.ApplicationCategory
      (readerRegistry.traversal (listeningManager.ProxyDefinitionGroupToListen.map toUtf8Data))
    log := listeningManager.log ++ feedEvents
      (readerRegistry.traversal
        (listeningManager.ProxyDefinitionGroupToListen.map toUtf8Data)) }
  refine ⟨rfl, rfl, ?_, ?_, rfl⟩
  · rw [he]
    show countApplicationFeeds (populateMenu _ _).log = 0
    rw [eraseMenus_log hf]
    decide
  · rw [hs.2.2.2]
    decide

/-! ## The effective tree -/

/-- C6: The tree returned by `menuCategory()` and `getMenuCategory()` is the
Settings tree when that tree is not empty and the Application tree when it is;
it is never another tree. -/
theorem menuCategory_effective (m : pqProxyGroupMenuManager) :
    (m.SettingsCategory.isEmpty = false ∧ menuCategory m = m.SettingsCategory ∧
      getMenuCategory m = m.SettingsCategory) ∨
    (m.SettingsCategory.isEmpty = true ∧ menuCategory m = m.ApplicationCategory ∧
      getMenuCategory m = m.ApplicationCategory) := by
  unfold getMenuCategory menuCategory
  cases h : m.SettingsCategory.isEmpty with
  | true => exact Or.inr ⟨rfl, by simp, by simp⟩
  | false => exact Or.inl ⟨rfl, by simp, by simp⟩

/-! ## Missing prototypes -/

theorem findProxyInfo_some (g n : QString) (l : List pqProxyInfo) (q : pqProxyInfo)
    (h : findProxyInfo g n l = some q) : q ∈ l ∧ q.name = n ∧ q.group = g := by
  induction l with
  | nil => cases h
  | cons x xs ih =>
    unfold findProxyInfo at h
    split at h
    · next hx =>
      cases h
      exact ⟨by simp, hx⟩
    · exact ⟨List.mem_cons_of_mem _ (ih h).1, (ih h).2⟩

theorem createAction_none (env : Env) (m : pqProxyGroupMenuManager) (p : pqProxyInfo)
    (hproto : hasPrototype env.pxm p.group p.name = false) :
    createAction env m p = ({ m with heap := m.heap ++ [none] }, none) := by
  unfold hasPrototype at hproto
  unfold createAction getPrototype
  simp only [QVariant.toStringList]
  cases hp : env.pxm.GetPrototypeProxy (toUtf8Data p.group) (toUtf8Data p.name) with
  | none => simp
  | some v =>
    rw [hp] at hproto
    cases hproto

/-- C8: For a ProxyInfo whose (group, name) has no prototype in the registry
and whose name is not cached, `createAction`, `getAction(ProxyInfo)` and
`getAction(group, name)` return nothing and leave the action cache and the
search-pool contents `actions()` as they were. -/
theorem no_prototype_no_action (env : Env) (m : pqProxyGroupMenuManager) (p : pqProxyInfo)
    (hproto : hasPrototype env.pxm p.group p.name = false)
    (hcache : m.CachedActions p.name = none) :
    ((createAction env m p).2 = none ∧
      (createAction env m p).1.CachedActions = m.CachedActions ∧
      actions (createAction env m p).1 = actions m) ∧
    ((getActionInfo env m p).2 = none ∧
      (getActionInfo env m p).1.CachedActions = m.CachedActions ∧
      actions (getActionInfo env m p).1 = actions m) ∧
    ((getAction env m p.group p.name).2 = none ∧
      (getAction env m p.group p.name).1.CachedActions = m.CachedActions ∧
      actions (getAction env m p.group p.name).1 = actions m) := by
  have hc := createAction_none env m p hproto
  refine ⟨?_, ?_, ?_⟩
  · rw [hc]
    exact ⟨rfl, rfl, rfl⟩
  · unfold getActionInfo
    rw [hcache]
    simp only []
    rw [hc]
    exact ⟨rfl, rfl, rfl⟩
  · unfold getAction
    split
    · exact ⟨rfl, rfl, rfl⟩
    · rw [hcache]
      simp only []
      split
      · next q hq =>
        have hq2 : q.name = p.name ∧ q.group = p.group := (findProxyInfo_some _ _ _ _ hq).2
        have hq3 : hasPrototype env.pxm q.group q.name = false := by
          rw [hq2.1, hq2.2]
          exact hproto
        rw [createAction_none env m q hq3]
        exact ⟨rfl, rfl, rfl⟩
      · exact ⟨rfl, rfl, rfl⟩

theorem no_prototype_no_action_witness :
    hasPrototype emptyRegistry ("filters".toList) ("Ghost".toList) = false ∧
    sampleManager.CachedActions "Ghost".toList = none ∧
    (getActionInfo ⟨emptyRegistry, emptySettings⟩ sampleManager
      { name := "Ghost".toList, group := "filters".toList, label := "Ghost".toList }).2 = none :=
  ⟨rfl, rfl,
    (no_prototype_no_action ⟨emptyRegistry, emptySettings⟩ sampleManager
      { name := "Ghost".toList, group := "filters".toList, label := "Ghost".toList }
      rfl rfl).2.1.1⟩

/-! ## The heap -/

theorem heapGet_append_some (h : List (Option QAction)) (x : Option QAction) (a : Nat)
    (act : QAction) (ha : heapGet h a = some act) : heapGet (h ++ [x]) a = some act := by
  unfold heapGet at *
  have hlt : a < h.length := by
    by_contra hge
    rw [List.get?_eq_none.2 (by omega)] at ha
    cases ha
  rw [List.get?_eq_getElem?] at ha ⊢
  rw [List.getElem?_append_left hlt]
  exact ha

theorem heapGet_append_length (h : List (Option QAction)) (act : QAction) :
    heapGet (h ++ [some act]) h.length = some act := by
  unfold heapGet
  simp

theorem length_heapModify (f : QAction → QAction) (a : Nat) (h : List (Option QAction)) :
    (heapModify f a h).length = h.length := by
  induction h generalizing a with
  | nil => cases a <;> rfl
  | cons x xs ih =>
    cases a with
    | zero => rfl
    | succ n => simp [heapModify, ih]

theorem heapGet_heapModify (f : QAction → QAction) (a b : Nat) (h : List (Option QAction)) :
    heapGet (heapModify f a h) b
      = if b = a then (heapGet h b).map f else heapGet h b := by
  induction h generalizing a b with
  | nil => cases a <;> simp [heapModify, heapGet]
  | cons x xs ih =>
    cases a with
    | zero =>
      cases b with
      | zero => cases x <;> simp [heapModify, heapGet]
      | succ n => simp [heapModify, heapGet]
    | succ k =>
      cases b with
      | zero => simp [heapModify, heapGet]
      | succ n =>
        have h1 := ih k n
        unfold heapGet at h1 ⊢
        simpa [heapModify] using h1

theorem length_heapDelete (a : Nat) (h : List (Option QAction)) :
    (heapDelete a h).length = h.length := by
  induction h generalizing a with
  | nil => cases a <;> rfl
  | cons x xs ih =>
    cases a with
    | zero => rfl
    | succ n => simp [heapDelete, ih]

theorem length_foldl_heapDelete (l : List Nat) (h : List (Option QAction)) :
    (l.foldl (fun h a => heapDelete a h) h).length = h.length := by
  induction l generalizing h with
  | nil => rfl
  | cons a t ih => rw [List.foldl_cons, ih, length_heapDelete]

theorem updateAction_data (env : Env) (a : QAction) (p : pqProxyInfo) :
    (updateAction env a p).data = a.data := by
  unfold updateAction updateActionOmitFromToolbar updateActionIcon updateActionShortcut
  simp only []
  repeat' split
  all_goals rfl

/-! ## Growth of the pool under the operations -/

theorem Grows.refl (P : QString → QString → Prop) (m : pqProxyGroupMenuManager) :
    Grows P m m :=
  ⟨Nat.le_refl _, fun _ act h => ⟨act, h, rfl⟩, fun _ _ h => h, fun _ _ h => Or.inl h⟩

theorem Grows.of_pool {P : QString → QString → Prop} {m m1 : pqProxyGroupMenuManager}
    (h : poolOf m1 = poolOf m) : Grows P m m1 := by
  have hc : m1.CachedActions = m.CachedActions := congrArg Prod.fst h
  have hh : m1.heap = m.heap := congrArg (fun x => x.2.1) h
  refine ⟨by rw [hh], ?_, ?_, ?_⟩
  · intro a act ha
    exact ⟨act, by rw [hh]; exact ha, rfl⟩
  · intro k a ha
    rw [hc]
    exact ha
  · intro k a ha
    rw [hc] at ha
    exact Or.inl ha

theorem Grows.trans {P : QString → QString → Prop} {m m1 m2 : pqProxyGroupMenuManager}
    (h1 : Grows P m m1) (h2 : Grows P m1 m2) : Grows P m m2 := by
  refine ⟨Nat.le_trans h1.len h2.len, ?_, ?_, ?_⟩
  · intro a act ha
    obtain ⟨act1, ha1, hd1⟩ := h1.live a act ha
    obtain ⟨act2, ha2, hd2⟩ := h2.live a act1 ha1
    exact ⟨act2, ha2, hd2.trans hd1⟩
  · intro k a ha
    exact h2.kept k a (h1.kept k a ha)
  · intro k a ha
    rcases h2.fresh k a ha with hk | ⟨hle, act, g, n, hg, hd, hp⟩
    · rcases h1.fresh k a hk with hk1 | ⟨hle, act, g, n, hg, hd, hp⟩
      · exact Or.inl hk1
      · obtain ⟨act2, ha2, hd2⟩ := h2.live a act hg
        exact Or.inr ⟨hle, act2, g, n, ha2, hd2.trans hd, hp⟩
    · exact Or.inr ⟨Nat.le_trans h1.len hle, act, g, n, hg, hd, hp⟩

theorem Grows.mono {P Q : QString → QString → Prop} {m m1 : pqProxyGroupMenuManager}
    (hPQ : ∀ g n, P g n → Q g n) (h : Grows P m m1) : Grows Q m m1 := by
  refine ⟨h.len, h.live, h.kept, ?_⟩
  intro k a ha
  rcases h.fresh k a ha with hk | ⟨hle, act, g, n, hg, hd, hp⟩
  · exact Or.inl hk
  · exact Or.inr ⟨hle, act, g, n, hg, hd, hPQ g n hp⟩

theorem CacheFresh.grows {base : Nat} {P : QString → QString → Prop}
    {m m1 : pqProxyGroupMenuManager} (hf : CacheFresh base P m) (hg : Grows P m m1) :
    CacheFresh base P m1 := by
  refine ⟨Nat.le_trans hf.1 hg.len, ?_⟩
  intro k a ha
  rcases hg.fresh k a ha with hk | ⟨hle, act, g, n, hget, hd, hp⟩
  · obtain ⟨hb, act, g, n, hget, hd, hp⟩ := hf.2 k a hk
    obtain ⟨act1, hget1, hd1⟩ := hg.live a act hget
    exact ⟨hb, act1, g, n, hget1, hd1.trans hd, hp⟩
  · exact ⟨Nat.le_trans hf.1 hle, act, g, n, hget, hd, hp⟩

theorem createAction_grows (P : QString → QString → Prop) (env : Env)
    (m : pqProxyGroupMenuManager) (p : pqProxyInfo)
    (hP : ∀ g n, hasPrototype env.pxm g n = true → P g n)
    (hcache : m.CachedActions p.name = none) :
    Grows P m (createAction env m p).1 := by
  cases hproto : hasPrototype env.pxm p.group p.name with
  | false =>
    rw [createAction_none env m p hproto]
    refine ⟨by simp, ?_, fun _ _ h => h, fun _ _ h => Or.inl h⟩
    intro a act ha
    exact ⟨act, heapGet_append_some _ _ _ _ ha, rfl⟩
  | true =>
    have hc : createAction env m p
        = ({ m with
            Widget := widgetAddAction m.Widget m.heap.length
            CachedActions := fun k => if k = p.name then some m.heap.length
              else m.CachedActions k
            heap := m.heap ++ [some { updateAction env
              { objectName := p.name, data := QVariant.stringList [p.group, p.name],
                text := p.label } p with triggeredConnected := true }] },
          some m.heap.length) := by
      unfold hasPrototype at hproto
      unfold createAction getPrototype
      simp only [QVariant.toStringList]
      cases hp : env.pxm.GetPrototypeProxy (toUtf8Data p.group) (toUtf8Data p.name) with
      | none =>
        rw [hp] at hproto
        cases hproto
      | some v => simp
    rw [hc]
    refine ⟨by simp, ?_, ?_, ?_⟩
    · intro a act ha
      exact ⟨act, heapGet_append_some _ _ _ _ ha, rfl⟩
    · intro k a ha
      show (if k = p.name then some m.heap.length else m.CachedActions k) = some a
      by_cases hk : k = p.name
      · rw [hk, hcache] at ha
        cases ha
      · rw [if_neg hk]
        exact ha
    · intro k a ha
      have ha1 : (if k = p.name then some m.heap.length else m.CachedActions k) = some a := ha
      by_cases hk : k = p.name
      · rw [if_pos hk] at ha1
        cases ha1
        refine Or.inr ⟨Nat.le_refl _, _, p.group, p.name, heapGet_append_length _ _, ?_,
          hP _ _ hproto⟩
        exact updateAction_data env _ p
      · rw [if_neg hk] at ha1
        exact Or.inl ha1

theorem getActionInfo_grows (P : QString → QString → Prop) (env : Env)
    (m : pqProxyGroupMenuManager) (p : pqProxyInfo)
    (hP : ∀ g n, hasPrototype env.pxm g n = true → P g n) :
    Grows P m (getActionInfo env m p).1 := by
  unfold getActionInfo
  split
  · next action hc =>
    refine ⟨by simp [length_heapModify], ?_, fun _ _ h => h, fun _ _ h => Or.inl h⟩
    intro a act ha
    show ∃ act1, heapGet (heapModify _ action m.heap) a = some act1 ∧ act1.data = act.data
    rw [heapGet_heapModify, ha]
    by_cases hab : a = action
    · rw [if_pos hab]
      exact ⟨_, rfl, updateAction_data env act p⟩
    · rw [if_neg hab]
      exact ⟨act, rfl, rfl⟩
  · next hc => exact createAction_grows P env m p hP hc

theorem getAction_grows (P : QString → QString → Prop) (env : Env)
    (m : pqProxyGroupMenuManager) (g n : QString)
    (hP : ∀ g n, hasPrototype env.pxm g n = true → P g n) :
    Grows P m (getAction env m g n).1 := by
  unfold getAction
  split
  · exact Grows.refl P m
  · split
    · exact Grows.refl P m
    · next hc =>
      split
      · next q hq =>
        have hqn := (findProxyInfo_some _ _ _ _ hq).2.1
        exact createAction_grows P env m q hP (by rw [hqn]; exact hc)
      · exact Grows.refl P m

theorem populateRecentlyUsedStep_grows (P : QString → QString → Prop) (env : Env)
    (m : pqProxyGroupMenuManager) (key : QString × QString)
    (hP : ∀ g n, hasPrototype env.pxm g n = true → P g n) :
    Grows P m (populateRecentlyUsedStep env m key) := by
  have h := getAction_grows P env m key.1 key.2 hP
  unfold populateRecentlyUsedStep
  split
  · next m1 a heq =>
    rw [heq] at h
    exact Grows.trans h (Grows.of_pool rfl)
  · next m1 heq =>
    rw [heq] at h
    exact h

theorem foldl_recent_grows (P : QString → QString → Prop) (env : Env)
    (l : List (QString × QString)) (m : pqProxyGroupMenuManager)
    (hP : ∀ g n, hasPrototype env.pxm g n = true → P g n) :
    Grows P m (l.foldl (populateRecentlyUsedStep env) m) := by
  induction l generalizing m with
  | nil => exact Grows.refl P m
  | cons k ks ih =>
    rw [List.foldl_cons]
    exact Grows.trans (populateRecentlyUsedStep_grows P env m k hP) (ih _)

theorem pool_loadRecentlyUsedItems (m : pqProxyGroupMenuManager) (settings : pqSettings) :
    poolOf (loadRecentlyUsedItems m settings) = poolOf m := by
  unfold loadRecentlyUsedItems
  simp only []
  split <;> rfl

theorem populateRecentlyUsedMenu_grows (P : QString → QString → Prop) (env : Env)
    (m : pqProxyGroupMenuManager) (settings : pqSettings)
    (hP : ∀ g n, hasPrototype env.pxm g n = true → P g n) :
    Grows P m (populateRecentlyUsedMenu env m settings) := by
  unfold populateRecentlyUsedMenu
  simp only []
  split
  · exact Grows.of_pool (pool_loadRecentlyUsedItems m settings)
  · refine Grows.trans (Grows.of_pool ?_) (foldl_recent_grows P env _ _ hP)
    exact pool_loadRecentlyUsedItems m settings

theorem populateAlphabeticalStep_grows (P : QString → QString → Prop) (env : Env)
    (acc : pqProxyGroupMenuManager × List Nat) (p : pqProxyInfo)
    (hP : ∀ g n, hasPrototype env.pxm g n = true → P g n) :
    Grows P acc.1 (populateAlphabeticalStep env acc p).1 := by
  have h := getActionInfo_grows P env acc.1 p hP
  unfold populateAlphabeticalStep
  split
  · next m1 a heq =>
    rw [heq] at h
    split <;> exact h
  · next m1 heq =>
    rw [heq] at h
    exact h

theorem foldl_alphabetical_grows (P : QString → QString → Prop) (env : Env)
    (l : List pqProxyInfo) (acc : pqProxyGroupMenuManager × List Nat)
    (hP : ∀ g n, hasPrototype env.pxm g n = true → P g n) :
    Grows P acc.1 (l.foldl (populateAlphabeticalStep env) acc).1 := by
  induction l generalizing acc with
  | nil => exact Grows.refl P _
  | cons p ps ih =>
    rw [List.foldl_cons]
    exact Grows.trans (populateAlphabeticalStep_grows P env acc p hP) (ih _)

theorem populateAlphabeticalMenu_grows (P : QString → QString → Prop) (env : Env)
    (m : pqProxyGroupMenuManager)
    (hP : ∀ g n, hasPrototype env.pxm g n = true → P g n) :
    Grows P m (populateAlphabeticalMenu env m) := by
  unfold populateAlphabeticalMenu
  split
  · exact Grows.refl P m
  · simp only []
    have h := foldl_alphabetical_grows P env m.ApplicationCategory.getProxiesRecursive
      ({ m with AlphabeticalMenu := some [] }, []) hP
    have h0 : Grows P m { m with AlphabeticalMenu := some [] } := Grows.of_pool rfl
    have h1 := Grows.trans h0 h
    exact Grows.trans h1 (Grows.of_pool rfl)

theorem populateMenu_grows (P : QString → QString → Prop) (env : Env)
    (m : pqProxyGroupMenuManager)
    (hP : ∀ g n, hasPrototype env.pxm g n = true → P g n) :
    Grows P m (populateMenu env m) := by
  unfold populateMenu
  simp only []
  have key : ∀ x : pqProxyGroupMenuManager, poolOf x = poolOf m →
      Grows P m { (populateAlphabeticalMenu env { x with AlphabeticalMenu := some [] }) with
          MiscMenu := some [],
          log := (populateAlphabeticalMenu env { x with AlphabeticalMenu := some [] }).log
            ++ [Event.menuPopulated] } := by
    intro x hx
    have h1 := populateAlphabeticalMenu_grows P env { x with AlphabeticalMenu := some [] } hP
    have h0 : Grows P m { x with AlphabeticalMenu := some [] } := Grows.of_pool hx
    exact Grows.trans (Grows.trans h0 h1) (Grows.of_pool rfl)
  apply key
  split <;> split <;> split <;> rfl

theorem triggered_grows (P : QString → QString → Prop) (env : Env)
    (m : pqProxyGroupMenuManager) (settings : pqSettings) (sender : Option QAction)
    (m1 : pqProxyGroupMenuManager) (settings1 : pqSettings)
    (hP : ∀ g n, hasPrototype env.pxm g n = true → P g n)
    (h : triggered env m settings sender = some (m1, settings1)) : Grows P m m1 := by
  unfold triggered at h
  split at h
  · cases h
    exact Grows.refl P m
  · split at h
    · simp only [] at h
      split at h
      · split at h
        · cases h
        · next l hl =>
          cases h
          refine Grows.trans ?_ (populateRecentlyUsedMenu_grows P env _ _ hP)
          exact Grows.of_pool rfl
      · cases h
        exact Grows.of_pool rfl
    · cases h
      exact Grows.refl P m

theorem pool_loadCategorySettings (lib : pqProxyCategoryOps) (m : pqProxyGroupMenuManager)
    (settings : pqSettings) : poolOf (loadCategorySettings lib m settings) = poolOf m := by
  unfold loadCategorySettings
  split <;> rfl

theorem pool_writeCategoryToSettings (lib : pqProxyCategoryOps) (m : pqProxyGroupMenuManager)
    (settings : pqSettings) : poolOf (writeCategoryToSettings lib m settings).1 = poolOf m := by
  unfold writeCategoryToSettings
  simp only []
  split
  · exact (pool_loadCategorySettings lib _ _).trans rfl
  · rfl

theorem pool_lookForNewDefinitionsStep (lib : pqProxyCategoryOps)
    (acc : pqProxyGroupMenuManager × pqSettings) (d : ProxyDefinition) :
    poolOf (lookForNewDefinitionsStep lib acc d).1 = poolOf acc.1 := by
  unfold lookForNewDefinitionsStep
  split
  · rfl
  · split
    · rfl
    · simp only []
      split
      · split
        · exact pool_writeCategoryToSettings lib _ _
        · rfl
      · rfl

theorem pool_foldl_sweep (lib : pqProxyCategoryOps) (items : List ProxyDefinition)
    (acc : pqProxyGroupMenuManager × pqSettings) :
    poolOf (items.foldl (lookForNewDefinitionsStep lib) acc).1 = poolOf acc.1 := by
  induction items generalizing acc with
  | nil => rfl
  | cons d ds ih => rw [List.foldl_cons, ih, pool_lookForNewDefinitionsStep]

theorem lookForNewDefinitions_grows (P : QString → QString → Prop)
    (lib : pqProxyCategoryOps) (pxm : Option vtkSMSessionProxyManager)
    (shortcuts : pqSettings) (m : pqProxyGroupMenuManager) (settings : pqSettings)
    (hP : ∀ r ∈ pxm.toList, ∀ g n, hasPrototype r g n = true → P g n) :
    Grows P m (lookForNewDefinitions lib pxm shortcuts m settings).1 := by
  unfold lookForNewDefinitions
  cases pxm with
  | none => exact Grows.refl P m
  | some reg =>
    simp only []
    split
    · exact Grows.refl P m
    · exact Grows.trans (Grows.of_pool (pool_foldl_sweep lib _ (m, settings)))
        (populateMenu_grows P ⟨reg, shortcuts⟩ _ (hP reg (by simp)))

theorem loadConfigurationRoot_grows (P : QString → QString → Prop)
    (lib : pqProxyCategoryOps) (env : Env) (m : pqProxyGroupMenuManager)
    (settings : pqSettings) (root : vtkPVXMLElement)
    (hP : ∀ g n, hasPrototype env.pxm g n = true → P g n) :
    Grows P m (loadConfigurationRoot lib env m settings root).1 := by
  unfold loadConfigurationRoot
  simp only []
  refine Grows.trans (Grows.of_pool ?_) (populateMenu_grows P env _ hP)
  split
  · split
    · exact pool_writeCategoryToSettings lib _ _
    · rfl
  · rfl

theorem loadConfiguration_grows (P : QString → QString → Prop)
    (lib : pqProxyCategoryOps) (env : Env) (m : pqProxyGroupMenuManager)
    (settings : pqSettings) (root : Option vtkPVXMLElement)
    (hP : ∀ g n, hasPrototype env.pxm g n = true → P g n) :
    Grows P m (loadConfiguration lib env m settings root).1 := by
  rw [loadConfiguration_resolve]
  split
  · exact Grows.refl P m
  · exact loadConfigurationRoot_grows P lib env m settings _ hP

theorem step_grows (P : QString → QString → Prop) (lib : pqProxyCategoryOps)
    (st st1 : pqProxyGroupMenuManager × pqSettings) (op : Op)
    (hP : ∀ r ∈ op.registries, ∀ g n, hasPrototype r g n = true → P g n)
    (hquiet : op.clears st.1 = false)
    (h : step lib st op = some st1) : Grows P st.1 st1.1 := by
  cases op with
  | getAction env g n =>
    have h1 : ((getAction env st.1 g n).1, st.2) = st1 := Option.some.inj h
    rw [← h1]
    exact getAction_grows P env st.1 g n (hP env.pxm (by simp [Op.registries]))
  | getActionInfo env p =>
    have h1 : ((getActionInfo env st.1 p).1, st.2) = st1 := Option.some.inj h
    rw [← h1]
    exact getActionInfo_grows P env st.1 p (hP env.pxm (by simp [Op.registries]))
  | populateMenu env =>
    have h1 : (populateMenu env st.1, st.2) = st1 := Option.some.inj h
    rw [← h1]
    exact populateMenu_grows P env st.1 (hP env.pxm (by simp [Op.registries]))
  | populateRecentlyUsedMenu env =>
    have h1 : (populateRecentlyUsedMenu env st.1 st.2, st.2) = st1 := Option.some.inj h
    rw [← h1]
    exact populateRecentlyUsedMenu_grows P env st.1 st.2 (hP env.pxm (by simp [Op.registries]))
  | triggered env sender =>
    have h1 : triggered env st.1 st.2 sender = some (st1.1, st1.2) := h
    exact triggered_grows P env st.1 st.2 sender st1.1 st1.2
      (hP env.pxm (by simp [Op.registries])) h1
  | loadConfiguration env root =>
    have h1 : loadConfiguration lib env st.1 st.2 root = st1 := Option.some.inj h
    rw [← h1]
    exact loadConfiguration_grows P lib env st.1 st.2 root
      (hP env.pxm (by simp [Op.registries]))
  | lookForNewDefinitions pxm shortcuts =>
    have h1 : lookForNewDefinitions lib pxm shortcuts st.1 st.2 = st1 := Option.some.inj h
    rw [← h1]
    exact lookForNewDefinitions_grows P lib pxm shortcuts st.1 st.2 hP
  | switchActiveServer newActiveSession pxm shortcuts =>
    have h1 : switchActiveServer lib newActiveSession pxm shortcuts st.1 st.2 = st1 :=
      Option.some.inj h
    rw [← h1]
    have hq : switchClears st.1 newActiveSession = false := hquiet
    unfold switchActiveServer
    rw [hq]
    exact Grows.refl P st.1
  | loadCategorySettings =>
    have h1 : (loadCategorySettings lib st.1 st.2, st.2) = st1 := Option.some.inj h
    rw [← h1]
    exact Grows.of_pool (pool_loadCategorySettings lib st.1 st.2)
  | clientEnvironmentDone =>
    have h1 : (({ st.1 with ClientEnvironmentDone := true } : pqProxyGroupMenuManager), st.2)
        = st1 := Option.some.inj h
    rw [← h1]
    exact Grows.of_pool rfl
  | settingsChanged store =>
    have h1 : (st.1, store) = st1 := Option.some.inj h
    rw [← h1]
    exact Grows.refl P st.1

theorem run_grows (P : QString → QString → Prop) (lib : pqProxyCategoryOps)
    (ops : List Op) (st st1 : pqProxyGroupMenuManager × pqSettings)
    (hP : ∀ op ∈ ops, ∀ r ∈ op.registries, ∀ g n, hasPrototype r g n = true → P g n)
    (hquiet : noEffectiveSwitch lib st ops = true)
    (h : run lib st ops = some st1) : Grows P st.1 st1.1 := by
  induction ops generalizing st with
  | nil =>
    have h1 : st = st1 := Option.some.inj h
    rw [← h1]
    exact Grows.refl P st.1
  | cons op ops ih =>
    unfold run at h
    unfold noEffectiveSwitch at hquiet
    cases hs : step lib st op with
    | none =>
      rw [hs] at h
      cases h
    | some st2 =>
      rw [hs] at h hquiet
      simp only [Bool.and_eq_true, Bool.not_eq_true'] at hquiet
      exact Grows.trans
        (step_grows P lib st st2 op (hP op (by simp)) hquiet.1 hs)
        (ih st2 (fun o ho => hP o (by simp [ho])) hquiet.2 h)

theorem createAction_some (env : Env) (m m1 : pqProxyGroupMenuManager) (p : pqProxyInfo)
    (a : Nat) (h : createAction env m p = (m1, some a)) : m1.CachedActions p.name = some a := by
  unfold createAction at h
  simp only [] at h
  split at h
  · cases h
  · cases h
    simp

theorem getAction_some (env : Env) (m m1 : pqProxyGroupMenuManager) (g n : QString) (a : Nat)
    (h : getAction env m g n = (m1, some a)) :
    m1.CachedActions n = some a ∧ (n.isEmpty || g.isEmpty) = false := by
  unfold getAction at h
  split at h
  · cases h
  · next hne =>
    refine ⟨?_, by simpa using hne⟩
    split at h
    · next action hc =>
      cases h
      exact hc
    · split at h
      · next q hq =>
        have hqn := (findProxyInfo_some _ _ _ _ hq).2.1
        rw [← hqn]
        exact createAction_some env m m1 q a h
      · cases h

theorem getAction_cached (env : Env) (m : pqProxyGroupMenuManager) (g n : QString) (a : Nat)
    (hne : (n.isEmpty || g.isEmpty) = false) (hc : m.CachedActions n = some a) :
    getAction env m g n = (m, some a) := by
  unfold getAction
  rw [hne, hc]
  simp

/-! ## Action identity within a session -/

/-- C7: If a call `getAction(g, n)` returns an action, every later
`getAction(g, n)` returns that same action, whatever operations (menu rebuilds,
configuration loads, definition sweeps, other retrievals, activations, session
notifications that do not clear the pool) run in between, as long as none of
them is a session switch that clears the cache. -/
theorem getAction_stable (lib : pqProxyCategoryOps) (env : Env)
    (m m1 : pqProxyGroupMenuManager) (settings : pqSettings) (g n : QString) (a : Nat)
    (h : getAction env m g n = (m1, some a))
    (ops : List Op) (st2 : pqProxyGroupMenuManager × pqSettings)
    (hquiet : noEffectiveSwitch lib (m1, settings) ops = true)
    (hrun : run lib (m1, settings) ops = some st2) (env2 : Env) :
    getAction env2 st2.1 g n = (st2.1, some a) := by
  obtain ⟨hc, hne⟩ := getAction_some env m m1 g n a h
  have hg := run_grows (fun _ _ => True) lib ops (m1, settings) st2
    (fun _ _ _ _ _ _ _ => trivial) hquiet hrun
  exact getAction_cached env2 st2.1 g n a hne (hg.kept n a hc)

theorem getAction_stable_witness :
    getAction fullEnv treeManager "filters".toList "Stat1".toList
      = ((getAction fullEnv treeManager "filters".toList "Stat1".toList).1, some 0) ∧
    noEffectiveSwitch trivialOps
      ((getAction fullEnv treeManager "filters".toList "Stat1".toList).1, emptySettings)
      [Op.populateMenu fullEnv] = true ∧
    run trivialOps
      ((getAction fullEnv treeManager "filters".toList "Stat1".toList).1, emptySettings)
      [Op.populateMenu fullEnv]
      = some (populateMenu fullEnv
          (getAction fullEnv treeManager "filters".toList "Stat1".toList).1, emptySettings) ∧
    getAction fullEnv
        (populateMenu fullEnv (getAction fullEnv treeManager "filters".toList "Stat1".toList).1)
        "filters".toList "Stat1".toList
      = (populateMenu fullEnv (getAction fullEnv treeManager "filters".toList "Stat1".toList).1,
          some 0) :=
  ⟨rfl, rfl, rfl,
    getAction_stable trivialOps fullEnv treeManager _ emptySettings
      "filters".toList "Stat1".toList 0 rfl [Op.populateMenu fullEnv]
      (populateMenu fullEnv (getAction fullEnv treeManager "filters".toList "Stat1".toList).1,
        emptySettings) rfl rfl fullEnv⟩

/-! ## Actions after a session switch -/

theorem switchActiveServer_fresh (P : QString → QString → Prop) (lib : pqProxyCategoryOps)
    (m : pqProxyGroupMenuManager) (settings : pqSettings) (newActiveSession : Option Nat)
    (pxm : Option vtkSMSessionProxyManager) (shortcuts : pqSettings)
    (hsw : switchClears m newActiveSession = true)
    (hP : ∀ r ∈ pxm.toList, ∀ g n, hasPrototype r g n = true → P g n) :
    CacheFresh m.heap.length P
      (switchActiveServer lib newActiveSession pxm shortcuts m settings).1 := by
  unfold switchActiveServer
  rw [hsw]
  simp only [if_true]
  refine CacheFresh.grows ?_ (lookForNewDefinitions_grows P lib pxm shortcuts _ settings hP)
  refine ⟨?_, ?_⟩
  · show m.heap.length ≤ (m.Widget.foldl (fun h a => heapDelete a h) m.heap).length
    rw [length_foldl_heapDelete]
  · intro k a ha
    cases ha

/-- C9: After `switchActiveServer` has seen a session that is non-null and
differs from the recorded one, every later `getAction(g, n)`, whatever
operations ran in between short of another clearing switch, returns nothing or
an action that was allocated after the switch (so none created under the
previous session) and whose payload `[group, name]` has a prototype in a
registry of the new session (the one of the switch, of a later operation, or of
the call). -/
theorem getAction_after_switch (lib : pqProxyCategoryOps) (m : pqProxyGroupMenuManager)
    (settings : pqSettings) (sess : Nat) (pxm : Option vtkSMSessionProxyManager)
    (shortcuts : pqSettings) (hsw : switchClears m (some sess) = true)
    (ops : List Op) (st2 : pqProxyGroupMenuManager × pqSettings)
    (hquiet : noEffectiveSwitch lib
      (switchActiveServer lib (some sess) pxm shortcuts m settings) ops = true)
    (hrun : run lib (switchActiveServer lib (some sess) pxm shortcuts m settings) ops
      = some st2)
    (env : Env) (g n : QString) :
    (getAction env st2.1 g n).2 = none ∨
    ∃ a act g1 n1, (getAction env st2.1 g n).2 = some a ∧
      m.heap.length ≤ a ∧
      heapGet (getAction env st2.1 g n).1.heap a = some act ∧
      act.data = QVariant.stringList [g1, n1] ∧
      hasPrototypeIn (pxm.toList ++ ops.flatMap Op.registries ++ [env.pxm]) g1 n1 := by
  have hf1 := switchActiveServer_fresh
    (hasPrototypeIn (pxm.toList ++ ops.flatMap Op.registries ++ [env.pxm]))
    lib m settings (some sess) pxm shortcuts hsw
    (fun r hr g n hp => ⟨r, by simp [hr], hp⟩)
  have hg := run_grows (hasPrototypeIn (pxm.toList ++ ops.flatMap Op.registries ++ [env.pxm]))
    lib ops _ st2
    (fun op hop r hr g n hp => ⟨r, by
      simp only [List.mem_append, List.mem_flatMap, List.mem_singleton]
      exact Or.inl (Or.inr ⟨op, hop, hr⟩), hp⟩) hquiet hrun
  have hf2 := CacheFresh.grows hf1 hg
  have hf3 := CacheFresh.grows hf2
    (getAction_grows (hasPrototypeIn (pxm.toList ++ ops.flatMap Op.registries ++ [env.pxm]))
      env st2.1 g n (fun g n hp => ⟨env.pxm, by simp, hp⟩))
  cases hres : (getAction env st2.1 g n).2 with
  | none => exact Or.inl rfl
  | some a =>
    have hpair : getAction env st2.1 g n = ((getAction env st2.1 g n).1, some a) := by
      rw [← hres]
    obtain ⟨hc, _⟩ := getAction_some env st2.1 _ g n a hpair
    obtain ⟨hb, act, g1, n1, hget, hd, hp⟩ := hf3.2 n a hc
    exact Or.inr ⟨a, act, g1, n1, rfl, hb, hget, hd, hp⟩

theorem getAction_after_switch_witness :
    switchClears treeManager (some 1) = true ∧
    noEffectiveSwitch trivialOps
      (switchActiveServer trivialOps (some 1) (some fullRegistry) emptySettings treeManager
        emptySettings) [] = true ∧
    run trivialOps
      (switchActiveServer trivialOps (some 1) (some fullRegistry) emptySettings treeManager
        emptySettings) []
      = some (switchActiveServer trivialOps (some 1) (some fullRegistry) emptySettings
          treeManager emptySettings) ∧
    ((getAction fullEnv
          (switchActiveServer trivialOps (some 1) (some fullRegistry) emptySettings treeManager
            emptySettings).1 "filters".toList "Stat1".toList).2 = none ∨
    ∃ a act g1 n1,
      (getAction fullEnv
          (switchActiveServer trivialOps (some 1) (some fullRegistry) emptySettings treeManager
            emptySettings).1 "filters".toList "Stat1".toList).2 = some a ∧
      treeManager.heap.length ≤ a ∧
      heapGet (getAction fullEnv
          (switchActiveServer trivialOps (some 1) (some fullRegistry) emptySettings treeManager
            emptySettings).1 "filters".toList "Stat1".toList).1.heap a = some act ∧
      act.data = QVariant.stringList [g1, n1] ∧
      hasPrototypeIn ((some fullRegistry).toList
        ++ ([] : List Op).flatMap Op.registries ++ [fullEnv.pxm]) g1 n1) :=
  ⟨rfl, rfl, rfl,
    getAction_after_switch trivialOps treeManager emptySettings 1 (some fullRegistry)
      emptySettings rfl []
      (switchActiveServer trivialOps (some 1) (some fullRegistry) emptySettings treeManager
        emptySettings)
      rfl rfl fullEnv "filters".toList "Stat1".toList⟩

/-! ## The Alphabetical menu -/

theorem actions_append (x y : QMenu) :
    QMenu.actions (x ++ y) = QMenu.actions x ++ QMenu.actions y := by
  induction x with
  | nil => rfl
  | cons i is ih =>
    cases i <;> simp [QMenu.actions, ih]

theorem actions_filter (m : QMenu) (a : Nat) :
    QMenu.actions (m.filter (fun i => !(i.isAction a)))
      = (QMenu.actions m).filter (fun b => decide (b ≠ a)) := by
  induction m with
  | nil => rfl
  | cons i is ih =>
    rw [List.filter_cons]
    cases i with
    | action b =>
      by_cases hab : a = b
      · have h1 : (!(MenuItem.action b).isAction a) = false := by
          simp [MenuItem.isAction, hab]
        rw [h1]
        simp only [Bool.false_eq_true, if_false]
        rw [ih]
        simp [QMenu.actions, hab]
      · have hba : b ≠ a := fun e => hab e.symm
        have h1 : (!(MenuItem.action b).isAction a) = true := by
          simp [MenuItem.isAction, hab]
        rw [if_pos h1]
        simp only [QMenu.actions]
        rw [ih, List.filter_cons]
        simp [hba]
    | separator =>
      have h1 : (!(MenuItem.separator).isAction a) = true := rfl
      rw [if_pos h1]
      exact ih
    | manageFavorites =>
      have h1 : (!(MenuItem.manageFavorites).isAction a) = true := rfl
      rw [if_pos h1]
      exact ih
    | addToCategory path filters =>
      have h1 : (!(MenuItem.addToCategory path filters).isAction a) = true := rfl
      rw [if_pos h1]
      exact ih
    | menu name items =>
      have h1 : (!(MenuItem.menu name items).isAction a) = true := rfl
      rw [if_pos h1]
      exact ih

theorem actions_addAction (m : QMenu) (a : Nat) :
    QMenu.actions (QMenu.addAction m a)
      = (QMenu.actions m).filter (fun b => decide (b ≠ a)) ++ [a] := by
  unfold QMenu.addAction
  rw [actions_append, actions_filter]
  rfl

theorem count_addAction_self (m : QMenu) (a : Nat) :
    (QMenu.actions (QMenu.addAction m a)).count a = 1 := by
  rw [actions_addAction, List.count_append]
  have h : ((QMenu.actions m).filter (fun b => decide (b ≠ a))).count a = 0 := by
    apply List.count_eq_zero_of_not_mem
    intro hmem
    have := List.of_mem_filter hmem
    simp at this
  rw [h]
  simp

theorem count_addAction_ne (m : QMenu) (a b : Nat) (hab : b ≠ a) :
    (QMenu.actions (QMenu.addAction m b)).count a = (QMenu.actions m).count a := by
  rw [actions_addAction, List.count_append]
  have h1 : [b].count a = 0 := by
    apply List.count_eq_zero_of_not_mem
    simp
    exact fun e => hab e.symm
  have h2 : ((QMenu.actions m).filter (fun c => decide (c ≠ b))).count a
      = (QMenu.actions m).count a := by
    apply List.count_filter
    simp
    exact fun e => hab e.symm
  rw [h1, h2]
  rfl

theorem count_foldl_addAction_not_mem (l : List Nat) (m : QMenu) (a : Nat) (ha : a ∉ l) :
    (QMenu.actions (l.foldl QMenu.addAction m)).count a = (QMenu.actions m).count a := by
  induction l generalizing m with
  | nil => rfl
  | cons b t ih =>
    rw [List.foldl_cons, ih _ (fun h => ha (List.mem_cons_of_mem _ h)),
      count_addAction_ne m a b (fun e => ha (by simp [e]))]

theorem count_foldl_addAction_mem (l : List Nat) (m : QMenu) (a : Nat) (ha : a ∈ l) :
    (QMenu.actions (l.foldl QMenu.addAction m)).count a = 1 := by
  induction l generalizing m with
  | nil => cases ha
  | cons b t ih =>
    rw [List.foldl_cons]
    by_cases hat : a ∈ t
    · exact ih _ hat
    · have hab : a = b := by
        rcases List.mem_cons.1 ha with h | h
        · exact h
        · exact absurd h hat
      rw [count_foldl_addAction_not_mem t _ a hat, hab]
      exact count_addAction_self m b

theorem mem_sortActions (m : pqProxyGroupMenuManager) (l : List Nat) (a : Nat) :
    a ∈ sortActions m l ↔ a ∈ l := by
  unfold sortActions
  exact (List.perm_insertionSort _ l).mem_iff

theorem getActionInfo_some (env : Env) (m : pqProxyGroupMenuManager) (p : pqProxyInfo)
    (hproto : hasPrototype env.pxm p.group p.name = true) :
    ∃ a, (getActionInfo env m p).2 = some a ∧
      (getActionInfo env m p).1.CachedActions p.name = some a := by
  unfold getActionInfo
  split
  · next action hc => exact ⟨action, rfl, hc⟩
  · next hc =>
    cases hres : (createAction env m p).2 with
    | none =>
      exfalso
      unfold hasPrototype at hproto
      unfold createAction getPrototype at hres
      simp only [QVariant.toStringList] at hres
      cases hp : env.pxm.GetPrototypeProxy (toUtf8Data p.group) (toUtf8Data p.name) with
      | none =>
        rw [hp] at hproto
        cases hproto
      | some v =>
        rw [hp] at hres
        simp at hres
    | some a =>
      refine ⟨a, rfl, ?_⟩
      apply createAction_some env m _ p a
      rw [← hres]

theorem populateAlphabeticalStep_spec (env : Env)
    (acc : pqProxyGroupMenuManager × List Nat) (p : pqProxyInfo) :
    (populateAlphabeticalStep env acc p).1 = (getActionInfo env acc.1 p).1 ∧
    (∀ x ∈ acc.2, x ∈ (populateAlphabeticalStep env acc p).2) ∧
    (∀ a, (getActionInfo env acc.1 p).2 = some a →
      a ∈ (populateAlphabeticalStep env acc p).2) := by
  unfold populateAlphabeticalStep
  split
  · next m1 a heq =>
    rw [heq]
    by_cases hmem : a ∈ acc.2
    · rw [if_pos hmem]
      refine ⟨rfl, fun x hx => hx, ?_⟩
      intro b hb
      cases hb
      exact hmem
    · rw [if_neg hmem]
      refine ⟨rfl, fun x hx => List.mem_append_left _ hx, ?_⟩
      intro b hb
      cases hb
      simp
  · next m1 heq =>
    rw [heq]
    refine ⟨rfl, fun x hx => hx, ?_⟩
    intro b hb
    cases hb

theorem foldl_alphabetical_complete (env : Env) (ps : List pqProxyInfo)
    (acc : pqProxyGroupMenuManager × List Nat) :
    (∀ x ∈ acc.2, x ∈ (ps.foldl (populateAlphabeticalStep env) acc).2) ∧
    (∀ p ∈ ps, hasPrototype env.pxm p.group p.name = true →
      ∃ a, (ps.foldl (populateAlphabeticalStep env) acc).1.CachedActions p.name = some a ∧
        a ∈ (ps.foldl (populateAlphabeticalStep env) acc).2) := by
  induction ps generalizing acc with
  | nil => exact ⟨fun x hx => hx, fun p hp => absurd hp (List.not_mem_nil p)⟩
  | cons q qs ih =>
    rw [List.foldl_cons]
    obtain ⟨hst1, hst2, hst3⟩ := populateAlphabeticalStep_spec env acc q
    obtain ⟨ih1, ih2⟩ := ih (populateAlphabeticalStep env acc q)
    refine ⟨fun x hx => ih1 x (hst2 x hx), ?_⟩
    intro p hp hproto
    rcases List.mem_cons.1 hp with hpq | hpq
    · subst hpq
      obtain ⟨a, ha1, ha2⟩ := getActionInfo_some env acc.1 p hproto
      refine ⟨a, ?_, ih1 a (hst3 a ha1)⟩
      have hg := foldl_alphabetical_grows (fun _ _ => True) env qs
        (populateAlphabeticalStep env acc p) (fun _ _ _ => trivial)
      apply hg.kept
      rw [hst1]
      exact ha2
    · exact ih2 p hpq hproto

theorem populateAlphabeticalMenu_complete (env : Env) (x : pqProxyGroupMenuManager)
    (p : pqProxyInfo) (hmenu : x.AlphabeticalMenu = some [])
    (hp : p ∈ x.ApplicationCategory.getProxiesRecursive)
    (hproto : hasPrototype env.pxm p.group p.name = true) :
    ∃ a menu, (populateAlphabeticalMenu env x).CachedActions p.name = some a ∧
      (populateAlphabeticalMenu env x).AlphabeticalMenu = some menu ∧
      (QMenu.actions menu).count a = 1 := by
  unfold populateAlphabeticalMenu
  rw [hmenu]
  simp only []
  obtain ⟨_, hc⟩ := foldl_alphabetical_complete env x.ApplicationCategory.getProxiesRecursive
    ({ x with AlphabeticalMenu := some [] }, [])
  obtain ⟨a, ha1, ha2⟩ := hc p hp hproto
  have hfr := eraseActions_AlphabeticalMenu (eraseActions_foldl_alphabetical env
    x.ApplicationCategory.getProxiesRecursive ({ x with AlphabeticalMenu := some [] }, []))
  have hfr2 : (List.foldl (populateAlphabeticalStep env)
      ({ x with AlphabeticalMenu := some [] }, [])
      x.ApplicationCategory.getProxiesRecursive).1.AlphabeticalMenu = some [] := hfr
  generalize List.foldl (populateAlphabeticalStep env)
      ({ x with AlphabeticalMenu := some [] }, [])
      x.ApplicationCategory.getProxiesRecursive = r at ha1 ha2 hfr2 ⊢
  refine ⟨a, (sortActions r.1 r.2).foldl QMenu.addAction [], ha1, ?_, ?_⟩
  · show Option.map _ r.1.AlphabeticalMenu = _
    rw [hfr2]
    rfl
  · exact count_foldl_addAction_mem _ _ a ((mem_sortActions _ _ a).2 ha2)

theorem populateMenu_shape (env : Env) (m : pqProxyGroupMenuManager) :
    ∃ x : pqProxyGroupMenuManager, x.ApplicationCategory = m.ApplicationCategory ∧
      populateMenu env m
        = { (populateAlphabeticalMenu env { x with AlphabeticalMenu := some [] }) with
            MiscMenu := some [],
            log := (populateAlphabeticalMenu env { x with AlphabeticalMenu := some [] }).log
              ++ [Event.menuPopulated] } := by
  unfold populateMenu
  simp only []
  refine ⟨_, ?_, rfl⟩
  split <;> split <;> split <;> rfl

/-- C10 (amended): After `populateMenu`, every proxy that is reachable from the
Application tree and has a registered prototype (flagged `hideFromMenu` or not)
has an action, cached under its name, and that action occurs exactly once in
the Alphabetical menu. -/
theorem alphabetical_menu_complete (env : Env) (m : pqProxyGroupMenuManager)
    (p : pqProxyInfo) (hp : p ∈ m.ApplicationCategory.getProxiesRecursive)
    (hproto : hasPrototype env.pxm p.group p.name = true) :
    ∃ a menu, (populateMenu env m).CachedActions p.name = some a ∧
      (populateMenu env m).AlphabeticalMenu = some menu ∧
      (QMenu.actions menu).count a = 1 := by
  obtain ⟨x, hx, heq⟩ := populateMenu_shape env m
  rw [heq]
  have hp1 : p ∈ ({ x with AlphabeticalMenu := some [] } :
      pqProxyGroupMenuManager).ApplicationCategory.getProxiesRecursive := by
    show p ∈ x.ApplicationCategory.getProxiesRecursive
    rw [hx]
    exact hp
  exact populateAlphabeticalMenu_complete env { x with AlphabeticalMenu := some [] } p rfl
    hp1 hproto

theorem alphabetical_menu_complete_witness :
    statProxy ∈ treeManager.ApplicationCategory.getProxiesRecursive ∧
    hasPrototype fullEnv.pxm statProxy.group statProxy.name = true ∧
    ∃ a menu, (populateMenu fullEnv treeManager).CachedActions statProxy.name = some a ∧
      (populateMenu fullEnv treeManager).AlphabeticalMenu = some menu ∧
      (QMenu.actions menu).count a = 1 :=
  ⟨by decide, rfl,
    alphabetical_menu_complete fullEnv treeManager statProxy (by decide) rfl⟩

/-- C10 (as stated) fails: with an empty Application tree and a Settings tree
that holds the filter "Stat1", the effective tree is the Settings tree and
"Stat1" is reachable from it, is not hidden and has a prototype, yet after
`populateMenu` the Alphabetical menu holds no action and none is cached for
"Stat1": the menu is built from the Application tree. -/
theorem alphabetical_menu_ignores_settings_tree :
    statProxy ∈ (getMenuCategory settingsTreeManager).getProxiesRecursive ∧
    statProxy.hideFromMenu = false ∧
    hasPrototype fullEnv.pxm statProxy.group statProxy.name = true ∧
    (populateMenu fullEnv settingsTreeManager).AlphabeticalMenu.map QMenu.actions = some [] ∧
    (populateMenu fullEnv settingsTreeManager).CachedActions statProxy.name = none := by
  refine ⟨by decide, rfl, rfl, ?_, ?_⟩
  · rfl
  · rfl

/-! ## Order of the Alphabetical menu -/

theorem unitsLt_irrefl (x : List Nat) : unitsLt x x = false := by
  induction x with
  | nil => rfl
  | cons a as ih => simp [unitsLt, ih]

theorem unitsLt_total (x y : List Nat) : unitsLt x y = false ∨ unitsLt y x = false := by
  induction x generalizing y with
  | nil => right; cases y <;> rfl
  | cons a as ih =>
    cases y with
    | nil => left; rfl
    | cons b bs =>
      simp only [unitsLt, Bool.or_eq_false_iff, Bool.and_eq_false_imp, decide_eq_false_iff_not,
        beq_iff_eq]
      rcases Nat.lt_trichotomy a b with h | h | h
      · right
        exact ⟨by omega, fun e => by omega⟩
      · subst h
        rcases ih bs with h1 | h1
        · left; exact ⟨by omega, fun _ => h1⟩
        · right; exact ⟨by omega, fun _ => h1⟩
      · left
        exact ⟨by omega, fun e => by omega⟩

theorem unitsLt_le_trans (x y z : List Nat) (h1 : unitsLt y x = false)
    (h2 : unitsLt z y = false) : unitsLt z x = false := by
  induction x generalizing y z with
  | nil => cases z <;> rfl
  | cons a as ih =>
    cases y with
    | nil => cases h1
    | cons b bs =>
      cases z with
      | nil => cases h2
      | cons c cs =>
        simp only [unitsLt, Bool.or_eq_false_iff, Bool.and_eq_false_imp, decide_eq_false_iff_not,
          beq_iff_eq] at h1 h2 ⊢
        refine ⟨by omega, fun e => ?_⟩
        subst e
        have hb : b = c := by omega
        subst hb
        exact ih bs cs (h1.2 rfl) (h2.2 rfl)

theorem sortActions_sorted (m : pqProxyGroupMenuManager) (l : List Nat) :
    (sortActions m l).Pairwise (fun a b => actionTextSort m b a = false) := by
  haveI : IsTotal Nat (fun a b => actionTextSort m b a = false) :=
    ⟨fun a b => (unitsLt_total _ _).symm⟩
  haveI : IsTrans Nat (fun a b => actionTextSort m b a = false) :=
    ⟨fun a b c h1 h2 => unitsLt_le_trans _ _ _ h1 h2⟩
  exact List.sorted_insertionSort (fun a b => actionTextSort m b a = false) l

theorem sortActions_nodup (m : pqProxyGroupMenuManager) (l : List Nat) (h : l.Nodup) :
    (sortActions m l).Nodup :=
  (List.perm_insertionSort _ l).nodup_iff.2 h

theorem foldl_alphabetical_nodup (env : Env) (ps : List pqProxyInfo)
    (acc : pqProxyGroupMenuManager × List Nat) (h : acc.2.Nodup) :
    (ps.foldl (populateAlphabeticalStep env) acc).2.Nodup := by
  induction ps generalizing acc with
  | nil => exact h
  | cons q qs ih =>
    rw [List.foldl_cons]
    apply ih
    unfold populateAlphabeticalStep
    split
    · next m1 a heq =>
      by_cases hmem : a ∈ acc.2
      · rw [if_pos hmem]; exact h
      · rw [if_neg hmem]
        exact List.Nodup.append h (List.nodup_singleton a) (by simpa using hmem)
    · exact h

theorem filter_isAction_map (pre : List Nat) (b : Nat) (hb : b ∉ pre) :
    (pre.map MenuItem.action).filter (fun i => !(i.isAction b)) = pre.map MenuItem.action := by
  apply List.filter_eq_self.2
  intro i hi
  obtain ⟨c, hc, rfl⟩ := List.mem_map.1 hi
  have hne : b ≠ c := fun e => hb (e ▸ hc)
  simp [MenuItem.isAction, hne]

theorem foldl_addAction_nodup (l pre : List Nat) (h : (pre ++ l).Nodup) :
    l.foldl QMenu.addAction (pre.map MenuItem.action) = (pre ++ l).map MenuItem.action := by
  induction l generalizing pre with
  | nil => simp
  | cons b t ih =>
    rw [List.foldl_cons]
    have hb : b ∉ pre := by
      intro hmem
      have := (List.nodup_append.1 h).2.2
      exact this hmem (List.mem_cons_self b t)
    have h1 : QMenu.addAction (pre.map MenuItem.action) b = (pre ++ [b]).map MenuItem.action := by
      unfold QMenu.addAction
      rw [filter_isAction_map pre b hb]
      simp
    rw [h1, ih (pre ++ [b]) (by simpa using h)]
    simp

theorem actions_map_action (l : List Nat) : QMenu.actions (l.map MenuItem.action) = l := by
  induction l with
  | nil => rfl
  | cons a t ih => simp [QMenu.actions, ih]

theorem populateAlphabeticalMenu_menu (env : Env) (m : pqProxyGroupMenuManager) (old : QMenu)
    (hm : m.AlphabeticalMenu = some old) :
    ∃ l : List Nat, l.Nodup ∧
      l.Pairwise (fun a b => actionTextSort (populateAlphabeticalMenu env m) b a = false) ∧
      (populateAlphabeticalMenu env m).AlphabeticalMenu = some (l.map MenuItem.action) := by
  unfold populateAlphabeticalMenu
  rw [hm]
  simp only []
  have hfr := eraseActions_AlphabeticalMenu (eraseActions_foldl_alphabetical env
    m.ApplicationCategory.getProxiesRecursive ({ m with AlphabeticalMenu := some [] }, []))
  have hfr2 : (List.foldl (populateAlphabeticalStep env)
      ({ m with AlphabeticalMenu := some [] }, [])
      m.ApplicationCategory.getProxiesRecursive).1.AlphabeticalMenu = some [] := hfr
  have hnd := foldl_alphabetical_nodup env m.ApplicationCategory.getProxiesRecursive
    ({ m with AlphabeticalMenu := some [] }, []) List.nodup_nil
  generalize List.foldl (populateAlphabeticalStep env)
      ({ m with AlphabeticalMenu := some [] }, [])
      m.ApplicationCategory.getProxiesRecursive = r at hfr2 hnd ⊢
  refine ⟨sortActions r.1 r.2, sortActions_nodup _ _ hnd, sortActions_sorted r.1 r.2, ?_⟩
  show Option.map _ r.1.AlphabeticalMenu = _
  rw [hfr2]
  show some _ = _
  have h := foldl_addAction_nodup (sortActions r.1 r.2) [] (by simpa using sortActions_nodup _ _ hnd)
  simp only [List.map_nil, List.nil_append] at h
  exact congrArg some h

/-- C11: When the Alphabetical menu exists, `populateAlphabeticalMenu` leaves
in it exactly a sequence of actions (no other entry) in which no action occurs
twice and in which no action has a text below the text of an action before it,
whatever the tree, the registry and the prior state. -/
theorem alphabetical_menu_sorted (env : Env) (m : pqProxyGroupMenuManager) (old : QMenu)
    (hm : m.AlphabeticalMenu = some old) :
    ∃ menu, (populateAlphabeticalMenu env m).AlphabeticalMenu = some menu ∧
      menu = (QMenu.actions menu).map MenuItem.action ∧
      (QMenu.actions menu).Nodup ∧
      (QMenu.actions menu).Pairwise (fun a b =>
        qstringLt (actionText (populateAlphabeticalMenu env m) b)
          (actionText (populateAlphabeticalMenu env m) a) = false) := by
  obtain ⟨l, h1, h2, h3⟩ := populateAlphabeticalMenu_menu env m old hm
  refine ⟨l.map MenuItem.action, h3, ?_, ?_, ?_⟩
  · rw [actions_map_action]
  · rw [actions_map_action]; exact h1
  · rw [actions_map_action]; exact h2

theorem alphabetical_menu_sorted_witness :
    menuManager.AlphabeticalMenu = some [] ∧
    ∃ menu, (populateAlphabeticalMenu fullEnv menuManager).AlphabeticalMenu = some menu ∧
      menu = (QMenu.actions menu).map MenuItem.action ∧
      (QMenu.actions menu).Nodup ∧
      (QMenu.actions menu).Pairwise (fun a b =>
        qstringLt (actionText (populateAlphabeticalMenu fullEnv menuManager) b)
          (actionText (populateAlphabeticalMenu fullEnv menuManager) a) = false) :=
  ⟨rfl, alphabetical_menu_sorted fullEnv menuManager [] rfl⟩

/-! ## Proxies added by hand -/

/-- C20: `addProxy` changes nothing when the group or the name is empty;
otherwise the Application tree root gains exactly one ProxyInfo, at the end of
its direct proxies, with that name and group and the name as label, and its
sub-categories stay as they were.  In every case everything but the
Application tree, the Settings tree included, is left as it was. -/
theorem addProxy_adds_one (m : pqProxyGroupMenuManager) (xmlgroup xmlname : QString)
    (c d : Char) :
    addProxy m [] xmlname = m ∧ addProxy m xmlgroup [] = m ∧
    (addProxy m (c :: xmlgroup) (d :: xmlname)).ApplicationCategory.getRootProxies
      = m.ApplicationCategory.getRootProxies
        ++ [{ name := d :: xmlname, group := c :: xmlgroup, label := d :: xmlname }] ∧
    (addProxy m (c :: xmlgroup) (d :: xmlname)).ApplicationCategory.getSubCategories
      = m.ApplicationCategory.getSubCategories ∧
    (addProxy m xmlgroup xmlname).SettingsCategory = m.SettingsCategory ∧
    { addProxy m xmlgroup xmlname with ApplicationCategory := m.ApplicationCategory } = m := by
  refine ⟨?_, ?_, rfl, rfl, ?_, ?_⟩
  · cases xmlname <;> rfl
  · cases xmlgroup <;> rfl
  · unfold addProxy
    split <;> rfl
  · unfold addProxy
    split <;> rfl

/-! ## Pieces of stored strings -/

theorem not_mem_of_mem_split (sep : Char) (s p : QString) (hp : p ∈ split sep s) :
    sep ∉ p := by
  induction s generalizing p with
  | nil =>
    simp only [split, List.mem_singleton] at hp
    subst hp
    exact List.not_mem_nil sep
  | cons c cs ih =>
    unfold split at hp
    split at hp
    · rcases List.mem_cons.1 hp with h | h
      · subst h
        exact List.not_mem_nil sep
      · exact ih p h
    · next hc =>
      split at hp
      · next heq => exact absurd heq (split_ne_nil sep cs)
      · next q qs heq =>
        rcases List.mem_cons.1 hp with h | h
        · subst h
          have hq := ih q (by rw [heq]; exact List.mem_cons_self q qs)
          intro hmem
          rcases List.mem_cons.1 hmem with h1 | h1
          · exact hc h1.symm
          · exact hq h1
        · exact ih p (by rw [heq]; exact List.mem_cons_of_mem q h)

theorem of_mem_splitSkipEmptyParts (sep : Char) (s p : QString)
    (hp : p ∈ splitSkipEmptyParts sep s) : p ≠ [] ∧ sep ∉ p := by
  unfold splitSkipEmptyParts at hp
  obtain ⟨h1, h2⟩ := List.mem_filter.1 hp
  refine ⟨?_, not_mem_of_mem_split sep s p h1⟩
  intro e
  subst e
  simp at h2

theorem split_join (sep : Char) (pieces : List QString) (hne : pieces ≠ [])
    (h : ∀ p ∈ pieces, sep ∉ p) : split sep (join sep pieces) = pieces := by
  induction pieces with
  | nil => exact absurd rfl hne
  | cons p ps ih =>
    cases ps with
    | nil => exact split_of_not_mem sep p (h p (List.mem_cons_self p []))
    | cons q qs =>
      show split sep (p ++ sep :: join sep (q :: qs)) = _
      rw [split_append_sep sep p _ (h p (List.mem_cons_self p _)),
        ih (List.cons_ne_nil q qs) (fun x hx => h x (List.mem_cons_of_mem p hx))]

theorem splitSkipEmptyParts_join (sep : Char) (pieces : List QString)
    (h : ∀ p ∈ pieces, p ≠ [] ∧ sep ∉ p) :
    splitSkipEmptyParts sep (join sep pieces) = pieces := by
  cases pieces with
  | nil => rfl
  | cons p ps =>
    unfold splitSkipEmptyParts
    rw [split_join sep (p :: ps) (List.cons_ne_nil p ps) (fun x hx => (h x hx).2)]
    apply List.filter_eq_self.2
    intro x hx
    have := (h x hx).1
    cases x with
    | nil => exact absurd rfl this
    | cons c cs => rfl

theorem parseRecentlyUsed_eq (list : QString) :
    parseRecentlyUsed list = (storedParts list).filterMap recentOfPieces := by
  unfold parseRecentlyUsed storedParts
  rw [List.filterMap_map]
  apply List.filterMap_congr
  intro part _
  show _ = recentOfPieces (splitSkipEmptyParts ';' part)
  generalize splitSkipEmptyParts ';' part = pieces
  unfold recentOfPieces
  match pieces with
  | [] => rfl
  | [_] => rfl
  | [_, _] => rfl
  | _ :: _ :: _ :: _ => simp

theorem parseFavorites_foldl (parts : List QString) (acc : List (QString × QString)) :
    parts.foldl (fun favorites part =>
      if (splitSkipEmptyParts ';' part).length ≥ 2 then
        match splitSkipEmptyParts ';' part with
        | group :: rest => favorites ++ [(group, join ';' rest)]
        | [] => favorites
      else favorites) acc
      = acc ++ (parts.map (splitSkipEmptyParts ';')).filterMap favoriteOfPieces := by
  induction parts generalizing acc with
  | nil => simp
  | cons part rest ih =>
    rw [List.foldl_cons, ih, List.map_cons, List.filterMap_cons]
    generalize splitSkipEmptyParts ';' part = pieces
    unfold favoriteOfPieces
    match pieces with
    | [] => simp
    | [_] => simp
    | g :: p :: ps => simp

theorem parseFavorites_eq (list : QString) :
    parseFavorites list = (storedParts list).filterMap favoriteOfPieces := by
  unfold parseFavorites storedParts
  have h := parseFavorites_foldl (splitSkipEmptyParts '|' list) []
  simp only [List.nil_append] at h
  exact h

theorem parseFavorites_path (list : QString) (bm : QString × QString)
    (h : bm ∈ parseFavorites list) :
    bm.1 ≠ [] ∧ splitSkipEmptyParts ';' bm.2 ≠ [] := by
  rw [parseFavorites_eq] at h
  obtain ⟨pieces, hp, hf⟩ := List.mem_filterMap.1 h
  unfold storedParts at hp
  obtain ⟨part, _, rfl⟩ := List.mem_map.1 hp
  have hall := of_mem_splitSkipEmptyParts ';' part
  generalize splitSkipEmptyParts ';' part = pieces at hall hf
  unfold favoriteOfPieces at hf
  match pieces, hall, hf with
  | [], _, hf => simp at hf
  | [_], _, hf => simp at hf
  | g :: p :: ps, hall, hf =>
    simp only [List.length_cons, ge_iff_le, Nat.le_add_left, if_true, Option.some.injEq,
      List.headD_cons, List.tail_cons] at hf
    subst hf
    refine ⟨(hall g (by simp)).1, ?_⟩
    show splitSkipEmptyParts ';' (join ';' (p :: ps)) ≠ []
    rw [splitSkipEmptyParts_join ';' (p :: ps) (fun x hx => hall x (List.mem_cons_of_mem g hx))]
    exact List.cons_ne_nil p ps

/-! ## Loading the stored lists -/

theorem eraseActions_updateMenuStyleStep (env : Env) (m : pqProxyGroupMenuManager)
    (group filter : QString) :
    eraseActions (updateMenuStyleStep env m group filter) = eraseActions m := by
  have hfr := eraseActions_getAction env m group filter
  unfold updateMenuStyleStep
  split
  · next m1 action heq =>
    rw [heq] at hfr
    exact hfr
  · next m1 heq =>
    rw [heq] at hfr
    exact hfr

theorem updateMenuStyleLoop_total (env : Env) (favs : List (QString × QString))
    (m : pqProxyGroupMenuManager) (h : ∀ bm ∈ favs, splitSkipEmptyParts ';' bm.2 ≠ []) :
    ∃ m1, updateMenuStyleLoop env m favs = some m1 ∧ eraseActions m1 = eraseActions m := by
  induction favs generalizing m with
  | nil => exact ⟨m, rfl, rfl⟩
  | cons bm rest ih =>
    rw [updateMenuStyleLoop]
    have hrest : ∀ x ∈ rest, splitSkipEmptyParts ';' x.2 ≠ [] :=
      fun x hx => h x (List.mem_cons_of_mem bm hx)
    cases hl : (splitSkipEmptyParts ';' bm.2).getLast? with
    | none => exact absurd (List.getLast?_eq_none_iff.1 hl) (h bm (List.mem_cons_self bm rest))
    | some filter =>
      simp only []
      obtain ⟨m2, h1, h2⟩ := ih (updateMenuStyleStep env m bm.1 filter) hrest
      exact ⟨m2, h1, h2.trans (eraseActions_updateMenuStyleStep env m bm.1 filter)⟩

theorem updateMenuStyle_total (env : Env) (m : pqProxyGroupMenuManager)
    (h : ∀ bm ∈ m.Favorites, splitSkipEmptyParts ';' bm.2 ≠ []) :
    ∃ m1, updateMenuStyle env m = some m1 ∧ eraseActions m1 = eraseActions m := by
  unfold updateMenuStyle
  simp only []
  exact updateMenuStyleLoop_total env m.Favorites _ h

theorem loadFavoritesItems_total (env : Env) (m : pqProxyGroupMenuManager)
    (settings : pqSettings) :
    ∃ m1, loadFavoritesItems env m settings = some m1 ∧
      eraseActions m1
        = eraseActions { m with Favorites := parseFavorites (storedString settings (favoritesKey m)) } := by
  unfold loadFavoritesItems storedString pqSettings.contains pqSettings.value
  simp only []
  cases hk : settings (favoritesKey m) with
  | none =>
    simp only [Option.isSome_none, Bool.false_eq_true, if_false]
    exact updateMenuStyle_total env { m with Favorites := [] }
      (fun bm hbm => absurd hbm (List.not_mem_nil bm))
  | some v =>
    simp only [Option.isSome_some, if_true, Option.getD_some]
    exact updateMenuStyle_total env { m with Favorites := parseFavorites v.toQString }
      (fun bm hbm => (parseFavorites_path v.toQString bm hbm).2)

theorem loadRecentlyUsedItems_stored (m : pqProxyGroupMenuManager) (settings : pqSettings) :
    loadRecentlyUsedItems m settings
      = { m with RecentlyUsed := parseRecentlyUsed (storedString settings (recentKey m)) } := by
  unfold loadRecentlyUsedItems storedString pqSettings.contains pqSettings.value
  simp only []
  cases hk : settings (recentKey m) with
  | none => rfl
  | some v => rfl

theorem loadFavoritesItems_Favorites (env : Env) (m : pqProxyGroupMenuManager)
    (settings : pqSettings) :
    ∃ m1, loadFavoritesItems env m settings = some m1 ∧
      m1.Favorites = parseFavorites (storedString settings (favoritesKey m)) := by
  obtain ⟨m1, h1, h2⟩ := loadFavoritesItems_total env m settings
  exact ⟨m1, h1, eraseActions_Favorites h2⟩

theorem storedString_absent (settings : pqSettings) (key : QString) :
    storedString (fun k => if k = key then none else settings k) key = [] := by
  simp [storedString]

theorem storedString_empty (settings : pqSettings) (key : QString) :
    storedString (settings.setValue key (QVariant.string [])) key = [] := by
  simp [storedString, pqSettings.setValue, QVariant.toQString]

/-- C18: For every settings store the two loaders return.  The Recent list
becomes the list of the pairs (piece 1, piece 2) of the parts of the stored
string that have exactly two non-empty pieces, the Favorites list the list of
the pairs (piece 1, other pieces joined by semicolons) of the parts that have
at least two, both in stored order and with every other part dropped.  With
the key taken out of the store, or holding the empty string, both lists come
out empty. -/
theorem loaders_keep_parts_of_right_arity (env : Env) (m : pqProxyGroupMenuManager)
    (settings : pqSettings) :
    (loadRecentlyUsedItems m settings).RecentlyUsed
      = (storedParts (storedString settings (recentKey m))).filterMap recentOfPieces ∧
    (∃ m1, loadFavoritesItems env m settings = some m1 ∧
      m1.Favorites
        = (storedParts (storedString settings (favoritesKey m))).filterMap favoriteOfPieces) ∧
    (loadRecentlyUsedItems m
      (fun k => if k = recentKey m then none else settings k)).RecentlyUsed = [] ∧
    (loadRecentlyUsedItems m
      (settings.setValue (recentKey m) (QVariant.string []))).RecentlyUsed = [] ∧
    (∃ m1, loadFavoritesItems env m
        (fun k => if k = favoritesKey m then none else settings k) = some m1 ∧
      m1.Favorites = []) ∧
    (∃ m1, loadFavoritesItems env m
        (settings.setValue (favoritesKey m) (QVariant.string [])) = some m1 ∧
      m1.Favorites = []) := by
  refine ⟨?_, ?_, ?_, ?_, ?_, ?_⟩
  · rw [loadRecentlyUsedItems_stored, ← parseRecentlyUsed_eq]
  · obtain ⟨m1, h1, h2⟩ := loadFavoritesItems_Favorites env m settings
    exact ⟨m1, h1, by rw [h2, parseFavorites_eq]⟩
  · rw [loadRecentlyUsedItems_stored, storedString_absent]
    rfl
  · rw [loadRecentlyUsedItems_stored, storedString_empty]
    rfl
  · obtain ⟨m1, h1, h2⟩ := loadFavoritesItems_Favorites env m
      (fun k => if k = favoritesKey m then none else settings k)
    rw [storedString_absent] at h2
    exact ⟨m1, h1, h2⟩
  · obtain ⟨m1, h1, h2⟩ := loadFavoritesItems_Favorites env m
      (settings.setValue (favoritesKey m) (QVariant.string []))
    rw [storedString_empty] at h2
    exact ⟨m1, h1, h2⟩

/-! ## The stored Favorites string -/

theorem join_split (sep : Char) (s : QString) : join sep (split sep s) = s := by
  induction s with
  | nil => rfl
  | cons c cs ih =>
    unfold split
    split
    · next hc =>
      cases hs : split sep cs with
      | nil => exact absurd hs (split_ne_nil sep cs)
      | cons q qs =>
        rw [hs] at ih
        show [] ++ sep :: join sep (q :: qs) = c :: cs
        rw [ih, hc]
        rfl
    · split
      · next heq => exact absurd heq (split_ne_nil sep cs)
      · next p ps heq =>
        rw [heq] at ih
        cases ps with
        | nil =>
          show c :: p = c :: cs
          rw [← ih]
          rfl
        | cons q qs =>
          show (c :: p) ++ sep :: join sep (q :: qs) = c :: cs
          rw [← ih]
          rfl

theorem favoriteOfPieces_entry (e : QString × QString) (he : FavoriteEntryOk e) :
    favoriteOfPieces (splitSkipEmptyParts ';' (e.1 ++ ';' :: e.2)) = some e := by
  obtain ⟨h1, h2, _, _, h5⟩ := he
  have hsplit : splitSkipEmptyParts ';' (e.1 ++ ';' :: e.2) = e.1 :: split ';' e.2 := by
    unfold splitSkipEmptyParts
    rw [split_append_sep ';' e.1 e.2 h2]
    apply List.filter_eq_self.2
    intro x hx
    cases x with
    | nil =>
      rcases List.mem_cons.1 hx with h | h
      · exact absurd h.symm h1
      · exact absurd h h5
    | cons c cs => rfl
  rw [hsplit]
  cases hs : split ';' e.2 with
  | nil => exact absurd hs (split_ne_nil ';' e.2)
  | cons p ps =>
    have hj := join_split ';' e.2
    rw [hs] at hj
    unfold favoriteOfPieces
    simp only [List.length_cons, Nat.le_add_left, if_true, List.headD_cons, List.tail_cons]
    rw [hj]

theorem parseFavorites_favoritesText (l : List (QString × QString))
    (h : ∀ e ∈ l, FavoriteEntryOk e) : parseFavorites (favoritesText l) = l := by
  rw [parseFavorites_eq]
  unfold storedParts favoritesText
  rw [splitSkipEmptyParts_join '|' _ (by
    intro p hp
    obtain ⟨e, he, rfl⟩ := List.mem_map.1 hp
    obtain ⟨_, _, h3, h4, _⟩ := h e he
    refine ⟨by simp, ?_⟩
    simp only [List.mem_append, List.mem_cons, not_or]
    exact ⟨h3, by decide, h4⟩)]
  rw [List.map_map, List.filterMap_map]
  induction l with
  | nil => rfl
  | cons e es ih =>
    have hcomp : (favoriteOfPieces ∘ splitSkipEmptyParts ';' ∘
        fun e : QString × QString => e.1 ++ ';' :: e.2) e = some e :=
      favoriteOfPieces_entry e (h e (List.mem_cons_self e es))
    rw [List.filterMap_cons_some hcomp, ih (fun x hx => h x (List.mem_cons_of_mem e hx))]

theorem storedString_setValue (settings : pqSettings) (key s : QString) :
    storedString (settings.setValue key (QVariant.string s)) key = s := by
  simp [storedString, pqSettings.setValue, QVariant.toQString]

/-- C17 (amended): For every Favorites list whose groups are non-empty and free
of `;` and `|` and whose paths are free of `|` and consist of one or more
non-empty segments joined by `;`, writing the list to the favorites key as
`group;path` entries separated by `|` and then calling `loadFavoritesItems`
returns and yields that same list, entry for entry and in the same order. -/
theorem favorites_text_roundtrip (env : Env) (m : pqProxyGroupMenuManager)
    (settings : pqSettings) (l : List (QString × QString))
    (h : ∀ e ∈ l, FavoriteEntryOk e) :
    ∃ m1, loadFavoritesItems env m
        (settings.setValue (favoritesKey m) (QVariant.string (favoritesText l))) = some m1 ∧
      m1.Favorites = l := by
  obtain ⟨m1, h1, h2⟩ := loadFavoritesItems_Favorites env m
    (settings.setValue (favoritesKey m) (QVariant.string (favoritesText l)))
  rw [storedString_setValue, parseFavorites_favoritesText l h] at h2
  exact ⟨m1, h1, h2⟩

theorem favorites_text_roundtrip_witness :
    (∀ e ∈ [entry "filters" "Cat1;Sub;Stat1", entry "categories" "Cat1;Sub"],
      FavoriteEntryOk e) ∧
    ∃ m1, loadFavoritesItems fullEnv menuManager
        (emptySettings.setValue (favoritesKey menuManager) (QVariant.string
          (favoritesText [entry "filters" "Cat1;Sub;Stat1", entry "categories" "Cat1;Sub"])))
          = some m1 ∧
      m1.Favorites = [entry "filters" "Cat1;Sub;Stat1", entry "categories" "Cat1;Sub"] :=
  ⟨by decide, favorites_text_roundtrip fullEnv menuManager emptySettings
    [entry "filters" "Cat1;Sub;Stat1", entry "categories" "Cat1;Sub"] (by decide)⟩

/-- C17 (as stated) fails: an empty segment inside the path is skipped by the
reload, so the path comes back shorter; a favorite with an empty path makes a
single piece and is dropped; a path that holds a `|` comes back cut. -/
theorem favorites_text_roundtrip_fails :
    (∃ m1, loadFavoritesItems fullEnv menuManager
        (emptySettings.setValue (favoritesKey menuManager) (QVariant.string
          (favoritesText [entry "filters" "Cat1;;Stat1"]))) = some m1 ∧
      m1.Favorites = [entry "filters" "Cat1;Stat1"] ∧
      m1.Favorites ≠ [entry "filters" "Cat1;;Stat1"]) ∧
    (∃ m1, loadFavoritesItems fullEnv menuManager
        (emptySettings.setValue (favoritesKey menuManager) (QVariant.string
          (favoritesText [entry "filters" ""]))) = some m1 ∧
      m1.Favorites = [] ∧ m1.Favorites ≠ [entry "filters" ""]) ∧
    (∃ m1, loadFavoritesItems fullEnv menuManager
        (emptySettings.setValue (favoritesKey menuManager) (QVariant.string
          (favoritesText [entry "filters" "Cat1;a|b"]))) = some m1 ∧
      m1.Favorites = [entry "filters" "Cat1;a"] ∧
      m1.Favorites ≠ [entry "filters" "Cat1;a|b"]) := by
  refine ⟨?_, ?_, ?_⟩
  · obtain ⟨m1, h1, h2⟩ := loadFavoritesItems_Favorites fullEnv menuManager
      (emptySettings.setValue (favoritesKey menuManager) (QVariant.string
        (favoritesText [entry "filters" "Cat1;;Stat1"])))
    rw [storedString_setValue] at h2
    refine ⟨m1, h1, ?_, ?_⟩
    · rw [h2]; decide
    · rw [h2]; decide
  · obtain ⟨m1, h1, h2⟩ := loadFavoritesItems_Favorites fullEnv menuManager
      (emptySettings.setValue (favoritesKey menuManager) (QVariant.string
        (favoritesText [entry "filters" ""])))
    rw [storedString_setValue] at h2
    refine ⟨m1, h1, ?_, ?_⟩
    · rw [h2]; decide
    · rw [h2]; decide
  · obtain ⟨m1, h1, h2⟩ := loadFavoritesItems_Favorites fullEnv menuManager
      (emptySettings.setValue (favoritesKey menuManager) (QVariant.string
        (favoritesText [entry "filters" "Cat1;a|b"])))
    rw [storedString_setValue] at h2
    refine ⟨m1, h1, ?_, ?_⟩
    · rw [h2]; decide
    · rw [h2]; decide

/-! ## Toolbars -/

theorem foldl_push_filter (keep : Nat → Bool) (l acc : List Nat) :
    l.foldl (fun out action => if keep action then out ++ [action] else out) acc
      = acc ++ l.filter keep := by
  induction l generalizing acc with
  | nil => simp
  | cons a t ih =>
    rw [List.foldl_cons, ih, List.filter_cons]
    cases keep a <;> simp

theorem actionsInToolbarsStep_eq (env : Env) (acc : pqProxyGroupMenuManager × List Nat)
    (categoryName : QString) :
    actionsInToolbarsStep env acc categoryName
      = ((categoryActionsByName env acc.1 categoryName).1,
          acc.2 ++ (categoryActionsByName env acc.1 categoryName).2.filter
            (fun a => !(omitsToolbar (categoryActionsByName env acc.1 categoryName).1
              categoryName a))) := by
  unfold actionsInToolbarsStep
  simp only []
  have h := foldl_push_filter
    (fun a => !(omitsToolbar (categoryActionsByName env acc.1 categoryName).1 categoryName a))
    (categoryActionsByName env acc.1 categoryName).2 acc.2
  simp only [Bool.not_eq_true'] at h ⊢
  rw [← h]

theorem foldl_actionsInToolbars (env : Env) (names : List QString)
    (acc : pqProxyGroupMenuManager × List Nat) :
    (names.foldl (actionsInToolbarsStep env) acc).2 = acc.2 ++ toolbarActionsOf env acc.1 names := by
  induction names generalizing acc with
  | nil => simp [toolbarActionsOf]
  | cons n rest ih =>
    rw [List.foldl_cons, ih, actionsInToolbarsStep_eq, toolbarActionsOf, List.append_assoc]

theorem omitsToolbar_eq (m : pqProxyGroupMenuManager) (categoryName : QString) (a : Nat) :
    (!(omitsToolbar m categoryName a))
      = decide (categoryName ∉
          ((heapGet m.heap a).bind (fun act => act.OmitFromToolbar)).getD []) := by
  unfold omitsToolbar
  cases heapGet m.heap a with
  | none => simp
  | some act =>
    cases ho : act.OmitFromToolbar with
    | none => simp [ho]
    | some l => simp [ho]

theorem toolbarActionsOf_eq (env : Env) (names : List QString) (m : pqProxyGroupMenuManager) :
    toolbarActionsOf env m names = toolbarConcatenation env m names := by
  induction names generalizing m with
  | nil => rfl
  | cons n rest ih =>
    rw [toolbarActionsOf, toolbarConcatenation, ih]
    congr 1
    unfold toolbarContribution
    apply List.filter_congr
    intro a _
    exact omitsToolbar_eq _ n a

/-- C14: The list returned by `actionsInToolbars()` is the concatenation, over
the categories of the flattened effective tree that have `showInToolbar`, taken
in the order of the flattened tree and by their names, of the contributions of
these categories; and the contribution of a category named C holds an action
exactly when the action is among those of `categoryActions(C)` and its
`OmitFromToolbar` property is not a list that contains C.  Categories without
`showInToolbar` are not in the concatenation. -/
theorem actionsInToolbars_concatenation (env : Env) (m : pqProxyGroupMenuManager) :
    (actionsInToolbars env m).2
      = toolbarConcatenation env m
          (((menuCategory m).getSubCategoriesRecursive.filter (fun c => c.showInToolbar)).map
            (fun c => c.name)) ∧
    ∀ (m0 : pqProxyGroupMenuManager) (C : QString) (a : Nat),
      (a ∈ toolbarContribution env m0 C ↔
        a ∈ (categoryActionsByName env m0 C).2 ∧
          ¬ ∃ act l, heapGet (categoryActionsByName env m0 C).1.heap a = some act ∧
            act.OmitFromToolbar = some l ∧ C ∈ l) := by
  constructor
  · unfold actionsInToolbars getToolbarCategories
    rw [foldl_actionsInToolbars, toolbarActionsOf_eq]
    exact List.nil_append _
  · intro m0 C a
    unfold toolbarContribution
    rw [List.mem_filter]
    apply and_congr_right
    intro _
    cases hg : heapGet (categoryActionsByName env m0 C).1.heap a with
    | none => simp
    | some act =>
      cases ho : act.OmitFromToolbar with
      | none => simp [ho]
      | some l => simp [ho]

/-- Instance of the toolbar list: in the tree of `toolbarManager` the category
"Tool" contributes the action of "Sphere" and not the action of "Stat1", whose
property holds "Tool"; the category "Plain" contributes nothing. -/
theorem actionsInToolbars_concatenation_witness :
    ((menuCategory toolbarManager).getSubCategoriesRecursive.map (fun c => c.showInToolbar))
      = [true, false] ∧
    (categoryActionsByName fullEnv toolbarManager "Tool".toList).2 = [0, 1] ∧
    (heapGet (categoryActionsByName fullEnv toolbarManager "Tool".toList).1.heap 0).map
        (fun act => act.OmitFromToolbar) = some (some ["Tool".toList]) ∧
    (heapGet (categoryActionsByName fullEnv toolbarManager "Tool".toList).1.heap 1).map
        (fun act => act.OmitFromToolbar) = some none ∧
    (actionsInToolbars fullEnv toolbarManager).2 = [1] :=
  ⟨by decide, by decide, by decide, by decide,
    (actionsInToolbars_concatenation fullEnv toolbarManager).1.trans (by decide)⟩

/-! ## Actions of a category -/

theorem createAction_of_prototype (env : Env) (m : pqProxyGroupMenuManager) (p : pqProxyInfo)
    (hproto : hasPrototype env.pxm p.group p.name = true) :
    (createAction env m p).2 = some m.heap.length ∧
    (createAction env m p).1.CachedActions
      = (fun k => if k = p.name then some m.heap.length else m.CachedActions k) := by
  unfold hasPrototype at hproto
  unfold createAction getPrototype
  simp only [QVariant.toStringList]
  cases hp : env.pxm.GetPrototypeProxy (toUtf8Data p.group) (toUtf8Data p.name) with
  | none =>
    rw [hp] at hproto
    cases hproto
  | some v => simp

theorem getActionInfo_result (env : Env) (m : pqProxyGroupMenuManager) (p : pqProxyInfo) :
    (∀ k, (getActionInfo env m p).1.CachedActions k
      = if k = p.name then (getActionInfo env m p).2 else m.CachedActions k) ∧
    (getActionInfo env m p).2.isSome
      = ((m.CachedActions p.name).isSome || hasPrototype env.pxm p.group p.name) := by
  unfold getActionInfo
  cases hc : m.CachedActions p.name with
  | some a =>
    simp only []
    refine ⟨?_, rfl⟩
    intro k
    by_cases hk : k = p.name
    · rw [if_pos hk, hk]
      exact hc
    · rw [if_neg hk]
  | none =>
    simp only []
    cases hproto : hasPrototype env.pxm p.group p.name with
    | false =>
      rw [createAction_none env m p hproto]
      refine ⟨?_, rfl⟩
      intro k
      by_cases hk : k = p.name
      · rw [if_pos hk, hk]
        exact hc
      · rw [if_neg hk]
    | true =>
      obtain ⟨h1, h2⟩ := createAction_of_prototype env m p hproto
      rw [h1, h2]
      refine ⟨?_, rfl⟩
      intro k
      rfl

theorem categoryActionsProxyStep_eq (env : Env) (acc : pqProxyGroupMenuManager × List Nat)
    (p : pqProxyInfo) :
    categoryActionsProxyStep env acc p
      = ((getActionInfo env acc.1 p).1,
          acc.2 ++ (if p.hideFromMenu then none else (getActionInfo env acc.1 p).2).toList) := by
  unfold categoryActionsProxyStep
  split
  · next m1 a heq =>
    rw [heq]
    cases p.hideFromMenu <;> simp
  · next m1 heq =>
    rw [heq]
    cases p.hideFromMenu <;> simp

theorem foldl_categoryActionsProxyStep (env : Env) (ps : List pqProxyInfo)
    (acc : pqProxyGroupMenuManager × List Nat) (hnd : (ps.map (fun p => p.name)).Nodup) :
    (ps.foldl (categoryActionsProxyStep env) acc).2
      = acc.2 ++ ps.filterMap (fun p =>
          if p.hideFromMenu then none
          else (ps.foldl (categoryActionsProxyStep env) acc).1.CachedActions p.name) ∧
    (∀ k, k ∉ ps.map (fun p => p.name) →
      (ps.foldl (categoryActionsProxyStep env) acc).1.CachedActions k
        = acc.1.CachedActions k) ∧
    (∀ p ∈ ps, ((ps.foldl (categoryActionsProxyStep env) acc).1.CachedActions p.name).isSome
      = ((acc.1.CachedActions p.name).isSome || hasPrototype env.pxm p.group p.name)) := by
  induction ps generalizing acc with
  | nil => exact ⟨by simp, fun _ _ => rfl, fun p hp => absurd hp (List.not_mem_nil p)⟩
  | cons p t ih =>
    rw [List.foldl_cons]
    rw [List.map_cons, List.nodup_cons] at hnd
    obtain ⟨hpt, hnt⟩ := hnd
    obtain ⟨ih1, ih2, ih3⟩ := ih (categoryActionsProxyStep env acc p) hnt
    obtain ⟨hc, hs⟩ := getActionInfo_result env acc.1 p
    have hstep := categoryActionsProxyStep_eq env acc p
    generalize List.foldl (categoryActionsProxyStep env) (categoryActionsProxyStep env acc p) t
      = r at ih1 ih2 ih3 ⊢
    have hst1 : (categoryActionsProxyStep env acc p).1 = (getActionInfo env acc.1 p).1 := by
      rw [hstep]
    have hst2 : (categoryActionsProxyStep env acc p).2
        = acc.2 ++ (if p.hideFromMenu then none else (getActionInfo env acc.1 p).2).toList := by
      rw [hstep]
    have hp : r.1.CachedActions p.name = (getActionInfo env acc.1 p).2 := by
      rw [ih2 p.name hpt, hst1, hc p.name, if_pos rfl]
    refine ⟨?_, ?_, ?_⟩
    · rw [ih1, hst2, List.append_assoc]
      congr 1
      rw [List.filterMap_cons, hp]
      cases p.hideFromMenu with
      | true => rfl
      | false =>
        cases (getActionInfo env acc.1 p).2 with
        | none => rfl
        | some a => rfl
    · intro k hk
      rw [List.map_cons, List.mem_cons, not_or] at hk
      rw [ih2 k hk.2, hst1, hc k, if_neg hk.1]
    · intro q hq
      rcases List.mem_cons.1 hq with h | h
      · subst h
        rw [hp, hs]
      · have hne : q.name ≠ p.name := by
          intro e
          apply hpt
          rw [← e]
          exact List.mem_map.2 ⟨q, h, rfl⟩
        rw [ih3 q h, hst1, hc q.name, if_neg hne]

theorem findProxyByName_of_nodup (ps : List pqProxyInfo) (p : pqProxyInfo)
    (hnd : (ps.map (fun q => q.name)).Nodup) (hp : p ∈ ps) :
    findProxyByName p.name ps = some p := by
  induction ps with
  | nil => cases hp
  | cons q t ih =>
    rw [List.map_cons, List.nodup_cons] at hnd
    unfold findProxyByName
    rcases List.mem_cons.1 hp with h | h
    · subst h
      rw [if_pos rfl]
    · have hne : q.name ≠ p.name := by
        intro e
        apply hnd.1
        rw [e]
        exact List.mem_map.2 ⟨p, h, rfl⟩
      rw [if_neg hne]
      exact ih hnd.2 h

theorem categoryActionsStep_found (env : Env) (category : pqProxyCategory)
    (acc : pqProxyGroupMenuManager × List Nat) (p : pqProxyInfo)
    (h : category.findProxy p.name = some p) :
    categoryActionsStep env category acc p.name = categoryActionsProxyStep env acc p := by
  unfold categoryActionsStep categoryActionsProxyStep
  rw [h]

theorem foldl_categoryActionsStep (env : Env) (category : pqProxyCategory)
    (l : List pqProxyInfo) (acc : pqProxyGroupMenuManager × List Nat)
    (h : ∀ p ∈ l, category.findProxy p.name = some p) :
    (l.map (fun p => p.name)).foldl (categoryActionsStep env category) acc
      = l.foldl (categoryActionsProxyStep env) acc := by
  induction l generalizing acc with
  | nil => rfl
  | cons p t ih =>
    rw [List.map_cons, List.foldl_cons, List.foldl_cons,
      categoryActionsStep_found env category acc p (h p (List.mem_cons_self p t)),
      ih _ (fun q hq => h q (List.mem_cons_of_mem p hq))]

theorem map_orderedInsert_name (p : pqProxyInfo) (l : List pqProxyInfo) :
    (List.orderedInsert (fun p q : pqProxyInfo => qstringLt q.name p.name = false) p l).map
        (fun q => q.name)
      = List.orderedInsert (fun a b : QString => qstringLt b a = false) p.name
          (l.map (fun q => q.name)) := by
  induction l with
  | nil => rfl
  | cons q t ih =>
    simp only [List.orderedInsert, List.map_cons]
    by_cases hpq : qstringLt q.name p.name = false
    · rw [if_pos hpq, if_pos hpq]
      rfl
    · rw [if_neg hpq, if_neg hpq, List.map_cons, ih]

theorem map_insertionSort_name (l : List pqProxyInfo) :
    (List.insertionSort (fun p q : pqProxyInfo => qstringLt q.name p.name = false) l).map
        (fun q => q.name)
      = sortNames (l.map (fun q => q.name)) := by
  unfold sortNames
  induction l with
  | nil => rfl
  | cons p t ih =>
    simp only [List.insertionSort, List.map_cons]
    rw [map_orderedInsert_name, ih]

theorem orderedRootProxies_names (category : pqProxyCategory) :
    (if !category.preserveOrder then sortNames category.getOrderedRootProxiesNames
      else category.getOrderedRootProxiesNames)
      = (orderedRootProxies category).map (fun p => p.name) := by
  unfold orderedRootProxies pqProxyCategory.getOrderedRootProxiesNames
  cases category.preserveOrder with
  | true => rfl
  | false =>
    simp only [Bool.not_false, if_true, Bool.false_eq_true, if_false]
    rw [map_insertionSort_name]

theorem orderedRootProxies_perm (category : pqProxyCategory) :
    (orderedRootProxies category).Perm category.proxies := by
  unfold orderedRootProxies
  split
  · exact List.Perm.refl _
  · exact List.perm_insertionSort _ _

theorem categoryActions_eq (env : Env) (m : pqProxyGroupMenuManager)
    (category : pqProxyCategory)
    (hnd : (category.proxies.map (fun p => p.name)).Nodup) :
    categoryActions env m category
      = (orderedRootProxies category).foldl (categoryActionsProxyStep env) (m, []) := by
  unfold categoryActions
  cases he : category.isEmpty with
  | true =>
    have hps : category.proxies = [] := by
      unfold pqProxyCategory.isEmpty at he
      simp only [Bool.and_eq_true, List.isEmpty_iff] at he
      exact he.1
    have ho : orderedRootProxies category = [] := by
      have := (orderedRootProxies_perm category).length_eq
      rw [hps] at this
      exact List.length_eq_zero.1 this
    rw [ho]
    rfl
  | false =>
    simp only [Bool.false_eq_true, if_false]
    rw [orderedRootProxies_names, foldl_categoryActionsStep]
    intro p hp
    unfold pqProxyCategory.findProxy
    exact findProxyByName_of_nodup _ p hnd ((orderedRootProxies_perm category).mem_iff.1 hp)

theorem orderedRootProxies_order (category : pqProxyCategory) :
    (category.preserveOrder = true ∧ orderedRootProxies category = category.getRootProxies) ∨
    (category.preserveOrder = false ∧
      (orderedRootProxies category).Pairwise
        (fun p q => qstringLt q.name p.name = false)) := by
  unfold orderedRootProxies
  cases hp : category.preserveOrder with
  | true => exact Or.inl ⟨rfl, rfl⟩
  | false =>
    right
    refine ⟨rfl, ?_⟩
    haveI : IsTotal pqProxyInfo (fun p q => qstringLt q.name p.name = false) :=
      ⟨fun a b => (unitsLt_total _ _).symm⟩
    haveI : IsTrans pqProxyInfo (fun p q => qstringLt q.name p.name = false) :=
      ⟨fun a b c h1 h2 => unitsLt_le_trans _ _ _ h1 h2⟩
    exact List.sorted_insertionSort (fun p q : pqProxyInfo => qstringLt q.name p.name = false)
      category.proxies

/-- C13 (amended): For every category node whose direct proxies have pairwise
different names, `categoryActions(node)` returns, for the direct proxies that
are not flagged `hideFromMenu`, taken in authoring order when `preserveOrder`
is true and in ascending order of name otherwise, the action cached under the
name of the proxy after the call, and nothing else; for a direct proxy such an
action exists exactly when one was cached under its name before the call or
the proxy has a registered prototype. -/
theorem categoryActions_ordered (env : Env) (m : pqProxyGroupMenuManager)
    (category : pqProxyCategory)
    (hnd : (category.getRootProxies.map (fun p => p.name)).Nodup) :
    (categoryActions env m category).2
      = (orderedRootProxies category).filterMap (fun p =>
          if p.hideFromMenu then none
          else (categoryActions env m category).1.CachedActions p.name) ∧
    (∀ p ∈ category.getRootProxies,
      ((categoryActions env m category).1.CachedActions p.name).isSome
        = ((m.CachedActions p.name).isSome || hasPrototype env.pxm p.group p.name)) ∧
    (orderedRootProxies category).Perm category.getRootProxies ∧
    ((category.preserveOrder = true ∧ orderedRootProxies category = category.getRootProxies) ∨
      (category.preserveOrder = false ∧
        (orderedRootProxies category).Pairwise
          (fun p q => qstringLt q.name p.name = false))) := by
  have hperm := orderedRootProxies_perm category
  have hnd1 : ((orderedRootProxies category).map (fun p => p.name)).Nodup :=
    (hperm.map _).nodup_iff.2 hnd
  obtain ⟨h1, _, h3⟩ := foldl_categoryActionsProxyStep env (orderedRootProxies category)
    (m, []) hnd1
  rw [← categoryActions_eq env m category hnd] at h1 h3
  refine ⟨?_, ?_, hperm, orderedRootProxies_order category⟩
  · rw [h1]
    exact List.nil_append _
  · intro p hp
    exact h3 p (hperm.mem_iff.2 hp)

theorem categoryActions_ordered_witness :
    (sourceCategory.getRootProxies.map (fun p => p.name)).Nodup ∧
    ((categoryActions fullEnv twoGroupsManager sourceCategory).2
      = (orderedRootProxies sourceCategory).filterMap (fun p =>
          if p.hideFromMenu then none
          else (categoryActions fullEnv twoGroupsManager sourceCategory).1.CachedActions p.name) ∧
    (∀ p ∈ sourceCategory.getRootProxies,
      ((categoryActions fullEnv twoGroupsManager sourceCategory).1.CachedActions p.name).isSome
        = ((twoGroupsManager.CachedActions p.name).isSome
            || hasPrototype fullEnv.pxm p.group p.name)) ∧
    (orderedRootProxies sourceCategory).Perm sourceCategory.getRootProxies ∧
    ((sourceCategory.preserveOrder = true ∧
        orderedRootProxies sourceCategory = sourceCategory.getRootProxies) ∨
      (sourceCategory.preserveOrder = false ∧
        (orderedRootProxies sourceCategory).Pairwise
          (fun p q => qstringLt q.name p.name = false)))) :=
  ⟨by decide, categoryActions_ordered fullEnv twoGroupsManager sourceCategory (by decide)⟩

/-- C13 (as stated) fails: in a registry that has prototypes for the group
"filters" only, once the action of the filter "Stat1" of the Application tree
root is cached, `categoryActions` of the category "Cat", whose only direct
proxy is the "Stat1" of group "sources" (not hidden, no registered prototype),
returns that action of payload ("filters", "Stat1"): the cache is keyed by
name alone. -/
theorem categoryActions_returns_cached_name :
    sourceCategory.isEmpty = false ∧
    sourceCategory.getRootProxies = [sourceStatProxy] ∧
    sourceStatProxy.hideFromMenu = false ∧
    hasPrototype filtersEnv.pxm sourceStatProxy.group sourceStatProxy.name = false ∧
    (categoryActions filtersEnv
      (getActionInfo filtersEnv twoGroupsManager statProxy).1 sourceCategory).2 = [0] ∧
    (heapGet (categoryActions filtersEnv
      (getActionInfo filtersEnv twoGroupsManager statProxy).1 sourceCategory).1.heap 0).map
        (fun act => act.data)
      = some (QVariant.stringList ["filters".toList, "Stat1".toList]) := by
  refine ⟨rfl, rfl, rfl, by decide, by decide, by decide⟩

/-! ## The Miscellaneous menu -/

theorem mem_actions_addAction (menu : QMenu) (a b : Nat) :
    b ∈ QMenu.actions (QMenu.addAction menu a) ↔ b ∈ QMenu.actions menu ∨ b = a := by
  rw [actions_addAction]
  simp only [List.mem_append, List.mem_filter, List.mem_singleton, decide_eq_true_eq]
  constructor
  · rintro (⟨h, _⟩ | h)
    · exact Or.inl h
    · exact Or.inr h
  · rintro (h | h)
    · by_cases hba : b = a
      · exact Or.inr hba
      · exact Or.inl ⟨h, hba⟩
    · exact Or.inr h

theorem actions_foldl_addAction (l : List Nat) (menu : QMenu) :
    QMenu.actions (l.foldl QMenu.addAction menu)
      = (QMenu.actions menu).filter (fun b => decide (b ∉ l)) ++ l.dedup := by
  induction l generalizing menu with
  | nil => simp
  | cons b t ih =>
    rw [List.foldl_cons, ih, actions_addAction, List.filter_append, List.filter_filter]
    have hpred : (QMenu.actions menu).filter
        (fun a => decide (a ∉ t) && decide (a ≠ b))
        = (QMenu.actions menu).filter (fun a => decide (a ∉ b :: t)) := by
      apply List.filter_congr
      intro x _
      by_cases hxb : x = b <;> by_cases hxt : x ∈ t <;> simp [hxb, hxt]
    rw [hpred]
    by_cases hbt : b ∈ t
    · rw [List.dedup_cons_of_mem hbt]
      simp [hbt]
    · rw [List.dedup_cons_of_not_mem hbt]
      simp [hbt]

theorem populateRecentlyUsedStep_menu (env : Env) (cur : pqProxyGroupMenuManager)
    (key : QString × QString) (menu0 : QMenu) (hmenu : cur.RecentMenu = some menu0) :
    (populateRecentlyUsedStep env cur key).RecentMenu
      = some ((match (getAction env cur key.1 key.2).2 with
          | some action => [action]
          | none => []).foldl QMenu.addAction menu0) := by
  have hfr := eraseActions_RecentMenu (eraseActions_getAction env cur key.1 key.2)
  rw [hmenu] at hfr
  unfold populateRecentlyUsedStep
  split
  · next m1 a heq =>
    rw [heq] at hfr ⊢
    show Option.map _ m1.RecentMenu = _
    rw [hfr]
    rfl
  · next m1 heq =>
    rw [heq] at hfr ⊢
    exact hfr

theorem foldl_recent_menu (env : Env) (entries : List (QString × QString))
    (cur : pqProxyGroupMenuManager) (menu0 : QMenu) (hmenu : cur.RecentMenu = some menu0) :
    (entries.foldl (populateRecentlyUsedStep env) cur).RecentMenu
      = some ((recentActions env cur entries).foldl QMenu.addAction menu0) := by
  induction entries generalizing cur menu0 with
  | nil => exact hmenu
  | cons key rest ih =>
    rw [List.foldl_cons, recentActions, List.foldl_append,
      ih _ _ (populateRecentlyUsedStep_menu env cur key menu0 hmenu)]

theorem populateRecentlyUsedMenu_eq (env : Env) (m : pqProxyGroupMenuManager)
    (settings : pqSettings) (old : QMenu) (hmenu : m.RecentMenu = some old) :
    populateRecentlyUsedMenu env m settings
      = (parseRecentlyUsed (storedString settings (recentKey m))).foldl
          (populateRecentlyUsedStep env)
          { m with
            RecentlyUsed := parseRecentlyUsed (storedString settings (recentKey m)),
            RecentMenu := some [] } := by
  unfold populateRecentlyUsedMenu
  rw [loadRecentlyUsedItems_stored]
  cases m
  simp only at hmenu
  subst hmenu
  rfl

/-- C19 (amended): After `populateRecentlyUsedMenu` the in-memory Recent list
is the list parsed from the settings key of the resource tag, whatever the
prior in-memory list was.  When the Recent menu exists, it then holds the
actions that `getAction` returned for the entries of that list, each action
once, at the place of the last entry it was returned for. -/
theorem recent_menu_rebuilt (env : Env) (m : pqProxyGroupMenuManager) (settings : pqSettings)
    (prior : List (QString × QString)) (old : QMenu) (hmenu : m.RecentMenu = some old) :
    (populateRecentlyUsedMenu env { m with RecentlyUsed := prior } settings).RecentlyUsed
      = parseRecentlyUsed (storedString settings (recentKey m)) ∧
    (populateRecentlyUsedMenu env { m with RecentlyUsed := prior } settings).RecentMenu.map
        QMenu.actions
      = some (recentActions env
          { m with
            RecentlyUsed := parseRecentlyUsed (storedString settings (recentKey m)),
            RecentMenu := some [] }
          (parseRecentlyUsed (storedString settings (recentKey m)))).dedup := by
  constructor
  · have h := eraseMenus_RecentlyUsed
      (eraseMenus_populateRecentlyUsedMenu env { m with RecentlyUsed := prior } settings)
    rw [h, loadRecentlyUsedItems_stored]
    rfl
  · rw [populateRecentlyUsedMenu_eq env { m with RecentlyUsed := prior } settings old hmenu]
    have h := foldl_recent_menu env (parseRecentlyUsed (storedString settings (recentKey m)))
      { m with
        RecentlyUsed := parseRecentlyUsed (storedString settings (recentKey m)),
        RecentMenu := some [] } [] rfl
    have h2 := congrArg (Option.map QMenu.actions) h
    rw [Option.map_some', actions_foldl_addAction] at h2
    simp only [QMenu.actions, List.filter_nil, List.nil_append] at h2
    exact h2

theorem recent_menu_rebuilt_witness :
    recentMenuManager.RecentMenu = some [] ∧
    (populateRecentlyUsedMenu fullEnv
        { recentMenuManager with RecentlyUsed := [entry "filters" "Other"] }
        repeatedRecentSettings).RecentlyUsed
      = parseRecentlyUsed (storedString repeatedRecentSettings (recentKey recentMenuManager)) ∧
    (populateRecentlyUsedMenu fullEnv
        { recentMenuManager with RecentlyUsed := [entry "filters" "Other"] }
        repeatedRecentSettings).RecentMenu.map QMenu.actions
      = some (recentActions fullEnv
          { recentMenuManager with
            RecentlyUsed :=
              parseRecentlyUsed (storedString repeatedRecentSettings (recentKey recentMenuManager)),
            RecentMenu := some [] }
          (parseRecentlyUsed
            (storedString repeatedRecentSettings (recentKey recentMenuManager)))).dedup :=
  ⟨rfl, recent_menu_rebuilt fullEnv recentMenuManager repeatedRecentSettings
    [entry "filters" "Other"] [] rfl⟩

/-- C19 (as stated) fails: with the stored entries "Stat1", "Sphere", "Stat1",
`getAction` returns an action for each of the three entries (the actions 0, 1
and 0), but the Recent menu holds the action of "Sphere" first and the action
of "Stat1" after it: adding an action that is already in the menu moves it to
the end. -/
theorem recent_menu_moves_repeated_action :
    (populateRecentlyUsedMenu fullEnv recentMenuManager repeatedRecentSettings).RecentlyUsed
      = [entry "filters" "Stat1", entry "sources" "Sphere", entry "filters" "Stat1"] ∧
    recentActions fullEnv
        { recentMenuManager with
          RecentlyUsed :=
            [entry "filters" "Stat1", entry "sources" "Sphere", entry "filters" "Stat1"] }
        [entry "filters" "Stat1", entry "sources" "Sphere", entry "filters" "Stat1"]
      = [0, 1, 0] ∧
    (populateRecentlyUsedMenu fullEnv recentMenuManager repeatedRecentSettings).RecentMenu.map
        QMenu.actions
      = some [1, 0] := by
  refine ⟨by decide, by decide, by decide⟩

/-! ## The Favorites menu -/

/-- C16 (as stated) fails: for the proxy favorite ("filters", "Cat1;Stat1"),
whose action can be resolved, `populateFavoritesMenu` creates no sub-menu
"Cat1" and puts the action of "Stat1" directly in the Favorites menu: after
`takeLast()` has taken the proxy name, `removeLast()` discards the segment
before it.  For the favorite ("filters", "Stat1"), with no category segment,
`removeLast()` is reached on an empty list. -/
theorem favorites_menu_drops_last_category :
    (populateFavoritesMenu fullEnv menuManager (favoritesSettings "filters;Cat1;Stat1|")).map
        (fun m1 => m1.Favorites) = some [entry "filters" "Cat1;Stat1"] ∧
    (getAction fullEnv menuManager "filters".toList "Stat1".toList).2 = some 0 ∧
    (populateFavoritesMenu fullEnv menuManager (favoritesSettings "filters;Cat1;Stat1|")).map
        (fun m1 => m1.FavoritesMenu.map QMenu.actions) = some (some [0]) ∧
    (populateFavoritesMenu fullEnv menuManager (favoritesSettings "filters;Cat1;Stat1|")).map
        (fun m1 => m1.FavoritesMenu.map
          (fun menu => (findSubmenu "Cat1".toList menu).isSome)) = some (some false) ∧
    (populateFavoritesMenu fullEnv menuManager (favoritesSettings "filters;Stat1|")).isNone
      = true := by
  refine ⟨by decide, by decide, by decide, by decide, by decide⟩

/-! ## Bold fonts -/

theorem heapGet_of_length_le (h : List (Option QAction)) (a : Nat) (ha : h.length ≤ a) :
    heapGet h a = none := by
  unfold heapGet
  rw [List.get?_eq_none.2 ha]

theorem heapGet_lt_of_isSome (h : List (Option QAction)) (a : Nat)
    (ha : (heapGet h a).isSome = true) : a < h.length := by
  by_contra hge
  rw [heapGet_of_length_le h a (by omega)] at ha
  cases ha

theorem heapBold_setBold_true (h : List (Option QAction)) (a b : Nat) :
    heapBold (setBold true a h) b
      = if b = a then (heapGet h a).isSome else heapBold h b := by
  unfold heapBold setBold
  rw [heapGet_heapModify]
  by_cases hba : b = a
  · rw [if_pos hba, if_pos hba, hba]
    cases heapGet h a <;> rfl
  · rw [if_neg hba, if_neg hba]

theorem heapBold_setBold_false (h : List (Option QAction)) (a b : Nat) :
    heapBold (setBold false a h) b = if b = a then false else heapBold h b := by
  unfold heapBold setBold
  rw [heapGet_heapModify]
  by_cases hba : b = a
  · rw [if_pos hba, if_pos hba, hba]
    cases heapGet h a <;> rfl
  · rw [if_neg hba, if_neg hba]

theorem isSome_heapGet_setBold (v : Bool) (h : List (Option QAction)) (a b : Nat) :
    (heapGet (setBold v a h) b).isSome = (heapGet h b).isSome := by
  unfold setBold
  rw [heapGet_heapModify]
  by_cases hba : b = a
  · rw [if_pos hba]
    cases heapGet h b <;> rfl
  · rw [if_neg hba]

theorem heapGet_append_lt (h : List (Option QAction)) (x : Option QAction) (a : Nat)
    (ha : a < h.length) : heapGet (h ++ [x]) a = heapGet h a := by
  unfold heapGet
  rw [List.get?_eq_getElem?, List.get?_eq_getElem?, List.getElem?_append_left ha]

theorem heapBold_append_lt (h : List (Option QAction)) (x : Option QAction) (a : Nat)
    (ha : a < h.length) : heapBold (h ++ [x]) a = heapBold h a := by
  unfold heapBold
  rw [heapGet_append_lt h x a ha]

theorem heapBold_lt (h : List (Option QAction)) (a : Nat) (ha : heapBold h a = true) :
    a < h.length := by
  by_contra hge
  unfold heapBold at ha
  rw [heapGet_of_length_le h a (by omega)] at ha
  cases ha

theorem unbold_all (l : List Nat) (h : List (Option QAction)) :
    (l.foldl (fun h a => setBold false a h) h).length = h.length ∧
    (∀ b, (heapGet (l.foldl (fun h a => setBold false a h) h) b).isSome
      = (heapGet h b).isSome) ∧
    (∀ b, heapBold (l.foldl (fun h a => setBold false a h) h) b
      = if b ∈ l then false else heapBold h b) := by
  induction l generalizing h with
  | nil => exact ⟨rfl, fun _ => rfl, fun b => by simp⟩
  | cons a t ih =>
    rw [List.foldl_cons]
    obtain ⟨h1, h2, h3⟩ := ih (setBold false a h)
    refine ⟨?_, ?_, ?_⟩
    · rw [h1]
      exact length_heapModify _ a h
    · intro b
      rw [h2 b, isSome_heapGet_setBold]
    · intro b
      rw [h3 b, heapBold_setBold_false]
      by_cases hbt : b ∈ t
      · simp [hbt]
      · by_cases hba : b = a
        · simp [hba]
        · simp [hbt, hba]

theorem getAction_cases (env : Env) (m : pqProxyGroupMenuManager) (g f : QString) :
    getAction env m g f = (m, none) ∨
    (∃ a, m.CachedActions f = some a ∧ g ≠ [] ∧ getAction env m g f = (m, some a)) ∨
    (m.CachedActions f = none ∧
      getAction env m g f = ({ m with heap := m.heap ++ [none] }, none)) ∨
    (m.CachedActions f = none ∧ g ≠ [] ∧ ∃ act,
      getAction env m g f
        = ({ m with
              Widget := widgetAddAction m.Widget m.heap.length
              CachedActions := fun k => if k = f then some m.heap.length else m.CachedActions k
              heap := m.heap ++ [some act] },
            some m.heap.length)) := by
  unfold getAction
  split
  · exact Or.inl rfl
  · next hne =>
    have hg : g ≠ [] := by
      intro e
      subst e
      simp at hne
    cases hc : m.CachedActions f with
    | some a => exact Or.inr (Or.inl ⟨a, rfl, hg, rfl⟩)
    | none =>
      simp only []
      cases hq : findProxyInfo g f m.ApplicationCategory.getProxiesRecursive with
      | none => exact Or.inl rfl
      | some q =>
        simp only []
        obtain ⟨_, hqn, hqg⟩ := findProxyInfo_some _ _ _ _ hq
        cases hproto : hasPrototype env.pxm q.group q.name with
        | false =>
          rw [createAction_none env m q hproto]
          exact Or.inr (Or.inr (Or.inl ⟨trivial, rfl⟩))
        | true =>
          right; right; right
          refine ⟨trivial, hg, ?_⟩
          unfold hasPrototype at hproto
          unfold createAction getPrototype
          simp only [QVariant.toStringList]
          cases hp : env.pxm.GetPrototypeProxy (toUtf8Data q.group) (toUtf8Data q.name) with
          | none =>
            rw [hp] at hproto
            cases hproto
          | some v =>
            simp only [Option.isNone_some, Bool.false_eq_true, if_false]
            rw [hqn]
            exact ⟨_, rfl⟩

theorem updateMenuStyleStep_spec (env : Env) (cur : pqProxyGroupMenuManager) (g f : QString) :
    (∀ k a, cur.CachedActions k = some a →
      (updateMenuStyleStep env cur g f).CachedActions k = some a) ∧
    (∀ k a, (updateMenuStyleStep env cur g f).CachedActions k = some a →
      cur.CachedActions k = some a ∨ isBold (updateMenuStyleStep env cur g f) a = true) ∧
    (g ≠ [] → f ≠ [] → ∀ a, cur.CachedActions f = some a →
      (heapGet cur.heap a).isSome = true →
      isBold (updateMenuStyleStep env cur g f) a = true) ∧
    (∀ a, isBold cur a = true → isBold (updateMenuStyleStep env cur g f) a = true) ∧
    (∀ a, (heapGet cur.heap a).isSome = true →
      (heapGet (updateMenuStyleStep env cur g f).heap a).isSome = true) ∧
    (∀ a, isBold (updateMenuStyleStep env cur g f) a = true →
      isBold cur a = true ∨
        (g ≠ [] ∧ (updateMenuStyleStep env cur g f).CachedActions f = some a)) ∧
    (∀ a ∈ (updateMenuStyleStep env cur g f).Widget, a ∈ cur.Widget ∨ cur.heap.length ≤ a) ∧
    cur.heap.length ≤ (updateMenuStyleStep env cur g f).heap.length := by
  have hhit : g ≠ [] → f ≠ [] → ∀ a, cur.CachedActions f = some a →
      getAction env cur g f = (cur, some a) := by
    intro hg hf a hc
    apply getAction_cached env cur g f a _ hc
    cases g with
    | nil => exact absurd rfl hg
    | cons c cs =>
      cases f with
      | nil => exact absurd rfl hf
      | cons d ds => rfl
  rcases getAction_cases env cur g f with h | ⟨a0, hc, hg, h⟩ | ⟨hc, h⟩ | ⟨hc, hg, act, h⟩
  · have hn : updateMenuStyleStep env cur g f = cur := by
      unfold updateMenuStyleStep
      rw [h]
    rw [hn]
    refine ⟨fun _ _ x => x, fun _ _ x => Or.inl x, ?_, fun _ x => x, fun _ x => x,
      fun _ x => Or.inl x, fun _ x => Or.inl x, Nat.le_refl _⟩
    intro hg hf a hca _
    have h2 := hhit hg hf a hca
    rw [h] at h2
    cases h2
  · have hn : updateMenuStyleStep env cur g f
        = { cur with heap := setBold true a0 cur.heap } := by
      unfold updateMenuStyleStep
      rw [h]
    rw [hn]
    refine ⟨fun _ _ x => x, fun _ _ x => Or.inl x, ?_, ?_, ?_, ?_, fun _ x => Or.inl x, ?_⟩
    · intro _ _ a hca hlive
      rw [hc] at hca
      cases hca
      show heapBold (setBold true a0 cur.heap) a0 = true
      rw [heapBold_setBold_true, if_pos rfl]
      exact hlive
    · intro a hb
      show heapBold (setBold true a0 cur.heap) a = true
      rw [heapBold_setBold_true]
      by_cases haa : a = a0
      · rw [if_pos haa]
        subst haa
        unfold isBold heapBold at hb
        cases hx : heapGet cur.heap a with
        | none =>
          rw [hx] at hb
          cases hb
        | some act => rfl
      · rw [if_neg haa]
        exact hb
    · intro a hl
      show (heapGet (setBold true a0 cur.heap) a).isSome = true
      rw [isSome_heapGet_setBold]
      exact hl
    · intro a hb
      have hb1 : heapBold (setBold true a0 cur.heap) a = true := hb
      rw [heapBold_setBold_true] at hb1
      by_cases haa : a = a0
      · right
        refine ⟨hg, ?_⟩
        rw [haa]
        exact hc
      · rw [if_neg haa] at hb1
        exact Or.inl hb1
    · show cur.heap.length ≤ (setBold true a0 cur.heap).length
      unfold setBold
      rw [length_heapModify]
  · have hn : updateMenuStyleStep env cur g f
        = { cur with heap := cur.heap ++ [none] } := by
      unfold updateMenuStyleStep
      rw [h]
    rw [hn]
    refine ⟨fun _ _ x => x, fun _ _ x => Or.inl x, ?_, ?_, ?_, ?_, fun _ x => Or.inl x, ?_⟩
    · intro _ _ a hca _
      rw [hc] at hca
      cases hca
    · intro a hb
      show heapBold (cur.heap ++ [none]) a = true
      rw [heapBold_append_lt _ _ _ (heapBold_lt _ _ hb)]
      exact hb
    · intro a hl
      show (heapGet (cur.heap ++ [none]) a).isSome = true
      rw [heapGet_append_lt _ _ _ (heapGet_lt_of_isSome _ _ hl)]
      exact hl
    · intro a hb
      have hb1 : heapBold (cur.heap ++ [none]) a = true := hb
      left
      by_cases hlt : a < cur.heap.length
      · rw [heapBold_append_lt _ _ _ hlt] at hb1
        exact hb1
      · exfalso
        have hlt2 := heapBold_lt _ _ hb1
        simp only [List.length_append, List.length_singleton] at hlt2
        have hal : a = cur.heap.length := by omega
        subst hal
        unfold heapBold heapGet at hb1
        simp at hb1
    · show cur.heap.length ≤ (cur.heap ++ [none]).length
      simp
  · have hn : updateMenuStyleStep env cur g f
        = { cur with
            Widget := widgetAddAction cur.Widget cur.heap.length
            CachedActions := fun k => if k = f then some cur.heap.length else cur.CachedActions k
            heap := setBold true cur.heap.length (cur.heap ++ [some act]) } := by
      unfold updateMenuStyleStep
      rw [h]
    rw [hn]
    have hnew : heapBold (setBold true cur.heap.length (cur.heap ++ [some act]))
        cur.heap.length = true := by
      rw [heapBold_setBold_true, if_pos rfl, heapGet_append_length]
      rfl
    refine ⟨?_, ?_, ?_, ?_, ?_, ?_, ?_, ?_⟩
    · intro k a hk
      show (if k = f then some cur.heap.length else cur.CachedActions k) = some a
      by_cases hkf : k = f
      · rw [hkf, hc] at hk
        cases hk
      · rw [if_neg hkf]
        exact hk
    · intro k a hk
      have hk1 : (if k = f then some cur.heap.length else cur.CachedActions k) = some a := hk
      by_cases hkf : k = f
      · rw [if_pos hkf] at hk1
        cases hk1
        exact Or.inr hnew
      · rw [if_neg hkf] at hk1
        exact Or.inl hk1
    · intro _ _ a hca _
      rw [hc] at hca
      cases hca
    · intro a hb
      show heapBold (setBold true cur.heap.length (cur.heap ++ [some act])) a = true
      have hlt := heapBold_lt _ _ hb
      rw [heapBold_setBold_true, if_neg (by omega), heapBold_append_lt _ _ _ hlt]
      exact hb
    · intro a hl
      show (heapGet (setBold true cur.heap.length (cur.heap ++ [some act])) a).isSome = true
      rw [isSome_heapGet_setBold, heapGet_append_lt _ _ _ (heapGet_lt_of_isSome _ _ hl)]
      exact hl
    · intro a hb
      have hb1 : heapBold (setBold true cur.heap.length (cur.heap ++ [some act])) a
          = true := hb
      by_cases hal : a = cur.heap.length
      · right
        refine ⟨hg, ?_⟩
        show (if f = f then some cur.heap.length else cur.CachedActions f) = some a
        rw [if_pos rfl, hal]
      · left
        rw [heapBold_setBold_true, if_neg hal] at hb1
        have hlt2 := heapBold_lt _ _ hb1
        simp only [List.length_append, List.length_singleton] at hlt2
        rw [heapBold_append_lt _ _ _ (by omega)] at hb1
        exact hb1
    · intro a ha
      have ha1 : a ∈ widgetAddAction cur.Widget cur.heap.length := ha
      unfold widgetAddAction at ha1
      rcases List.mem_append.1 ha1 with h1 | h1
      · exact Or.inl (List.mem_filter.1 h1).1
      · right
        rw [List.mem_singleton.1 h1]
    · show cur.heap.length ≤ (setBold true cur.heap.length (cur.heap ++ [some act])).length
      unfold setBold
      rw [length_heapModify]
      simp

theorem updateMenuStyleLoop_spec (env : Env) (favs : List (QString × QString))
    (cur : pqProxyGroupMenuManager)
    (hpath : ∀ bm ∈ favs, splitSkipEmptyParts ';' bm.2 ≠ []) :
    ∃ fin, updateMenuStyleLoop env cur favs = some fin ∧
      (∀ k a, cur.CachedActions k = some a → fin.CachedActions k = some a) ∧
      (∀ k a, fin.CachedActions k = some a →
        cur.CachedActions k = some a ∨ isBold fin a = true) ∧
      (∀ bm ∈ favs, ∀ filter a, (splitSkipEmptyParts ';' bm.2).getLast? = some filter →
        bm.1 ≠ [] → cur.CachedActions filter = some a →
        (heapGet cur.heap a).isSome = true → isBold fin a = true) ∧
      (∀ a, isBold cur a = true → isBold fin a = true) ∧
      (∀ a, (heapGet cur.heap a).isSome = true → (heapGet fin.heap a).isSome = true) ∧
      (∀ a, isBold fin a = true → isBold cur a = true ∨
        ∃ bm ∈ favs, ∃ filter, (splitSkipEmptyParts ';' bm.2).getLast? = some filter ∧
          bm.1 ≠ [] ∧ fin.CachedActions filter = some a) ∧
      (∀ a ∈ fin.Widget, a ∈ cur.Widget ∨ cur.heap.length ≤ a) ∧
      cur.heap.length ≤ fin.heap.length := by
  induction favs generalizing cur with
  | nil =>
    refine ⟨cur, rfl, fun _ _ x => x, fun _ _ x => Or.inl x, ?_, fun _ x => x, fun _ x => x,
      fun _ x => Or.inl x, fun _ x => Or.inl x, Nat.le_refl _⟩
    intro bm hbm
    cases hbm
  | cons bm rest ih =>
    rw [updateMenuStyleLoop]
    have hrest : ∀ x ∈ rest, splitSkipEmptyParts ';' x.2 ≠ [] :=
      fun x hx => hpath x (List.mem_cons_of_mem bm hx)
    cases hl : (splitSkipEmptyParts ';' bm.2).getLast? with
    | none =>
      exact absurd (List.getLast?_eq_none_iff.1 hl) (hpath bm (List.mem_cons_self bm rest))
    | some filter =>
      simp only []
      have hf : filter ≠ [] :=
        (of_mem_splitSkipEmptyParts ';' bm.2 filter (List.mem_of_getLast?_eq_some hl)).1
      obtain ⟨sK, sF, sH, sM, sL, sN, sW, sLen⟩ := updateMenuStyleStep_spec env cur bm.1 filter
      obtain ⟨fin, hfin, iK, iF, iH, iM, iL, iN, iW, iLen⟩ :=
        ih (updateMenuStyleStep env cur bm.1 filter) hrest
      refine ⟨fin, hfin, ?_, ?_, ?_, ?_, ?_, ?_, ?_, ?_⟩
      · exact fun k a hk => iK k a (sK k a hk)
      · intro k a hk
        rcases iF k a hk with h | h
        · rcases sF k a h with h1 | h1
          · exact Or.inl h1
          · exact Or.inr (iM a h1)
        · exact Or.inr h
      · intro bm1 hbm1 filter1 a hl1 hg hc hlive
        rcases List.mem_cons.1 hbm1 with e | e
        · subst e
          rw [hl] at hl1
          cases hl1
          exact iM a (sH hg hf a hc hlive)
        · exact iH bm1 e filter1 a hl1 hg (sK _ a hc) (sL a hlive)
      · exact fun a hb => iM a (sM a hb)
      · exact fun a hb => iL a (sL a hb)
      · intro a hb
        rcases iN a hb with h | ⟨bm1, hbm1, filter1, h1, h2, h3⟩
        · rcases sN a h with h1 | ⟨h1, h2⟩
          · exact Or.inl h1
          · exact Or.inr ⟨bm, List.mem_cons_self bm rest, filter, hl, h1, iK _ a h2⟩
        · exact Or.inr ⟨bm1, List.mem_cons_of_mem bm hbm1, filter1, h1, h2, h3⟩
      · intro a ha
        rcases iW a ha with h | h
        · exact sW a h
        · exact Or.inr (Nat.le_trans sLen h)
      · exact Nat.le_trans sLen iLen

/-- C15 (amended): When every cached action is live and no favorite has an
empty path, `updateMenuStyle` returns, and afterwards an action of the manager
is shown bold exactly when it is the action cached under the last path segment
of some favorite whose group is not empty; for an action that is not cached
under the last segment of a category favorite this is: exactly when it is
cached under the last segment of a proxy favorite.  The favorite is matched by
that name alone, whatever the group of the payload of the action. -/
theorem bold_iff_favorite_name (env : Env) (m : pqProxyGroupMenuManager)
    (hlive : ∀ k a, m.CachedActions k = some a → (heapGet m.heap a).isSome = true)
    (hpath : ∀ bm ∈ m.Favorites, splitSkipEmptyParts ';' bm.2 ≠ []) :
    ∃ m1, updateMenuStyle env m = some m1 ∧
      ∀ a ∈ actions m1,
        (isBold m1 a = true ↔
          ∃ bm ∈ m.Favorites, bm.1 ≠ [] ∧
            ∃ filter, (splitSkipEmptyParts ';' bm.2).getLast? = some filter ∧
              m1.CachedActions filter = some a) ∧
        ((∀ bm ∈ m.Favorites, bm.1 = "categories".toList →
            ∀ filter, (splitSkipEmptyParts ';' bm.2).getLast? = some filter →
              m1.CachedActions filter ≠ some a) →
          (isBold m1 a = true ↔
            ∃ bm ∈ m.Favorites, bm.1 ≠ "categories".toList ∧ bm.1 ≠ [] ∧
              ∃ filter, (splitSkipEmptyParts ';' bm.2).getLast? = some filter ∧
                m1.CachedActions filter = some a)) := by
  unfold updateMenuStyle
  simp only []
  obtain ⟨u1, u2, u3⟩ := unbold_all (actions m) m.heap
  obtain ⟨fin, hfin, _, iF, iH, _, _, iN, iW, _⟩ := updateMenuStyleLoop_spec env m.Favorites
    { m with heap := (actions m).foldl (fun h a => setBold false a h) m.heap } hpath
  refine ⟨fin, hfin, ?_⟩
  intro a ha
  have key : isBold fin a = true ↔
      ∃ bm ∈ m.Favorites, bm.1 ≠ [] ∧
        ∃ filter, (splitSkipEmptyParts ';' bm.2).getLast? = some filter ∧
          fin.CachedActions filter = some a := by
    constructor
    · intro hb
      rcases iN a hb with h | ⟨bm, hbm, filter, h1, h2, h3⟩
      · exfalso
        have h0 : heapBold ((actions m).foldl (fun h a => setBold false a h) m.heap) a
            = true := h
        rcases iW a ha with hw | hw
        · have hw0 : a ∈ actions m := hw
          rw [u3 a, if_pos hw0] at h0
          cases h0
        · have hlt := heapBold_lt _ _ h0
          have hw1 : ((actions m).foldl (fun h a => setBold false a h) m.heap).length ≤ a := hw
          omega
      · exact ⟨bm, hbm, h2, filter, h1, h3⟩
    · rintro ⟨bm, hbm, hg, filter, h1, h3⟩
      rcases iF filter a h3 with h | h
      · apply iH bm hbm filter a h1 hg h
        show (heapGet ((actions m).foldl (fun h a => setBold false a h) m.heap) a).isSome = true
        rw [u2 a]
        exact hlive filter a h
      · exact h
  refine ⟨key, ?_⟩
  intro hcat
  rw [key]
  constructor
  · rintro ⟨bm, hbm, hg, filter, h1, h3⟩
    refine ⟨bm, hbm, ?_, hg, filter, h1, h3⟩
    intro hc
    exact hcat bm hbm hc filter h1 h3
  · rintro ⟨bm, hbm, _, hg, filter, h1, h3⟩
    exact ⟨bm, hbm, hg, filter, h1, h3⟩

/-- Instance of the bold style: a Favorites list with a category favorite and
a proxy favorite. -/
theorem bold_iff_favorite_name_witness :
    mixedFavoriteManager.Favorites = [entry "categories" "Cat1", entry "filters" "Cat1;Stat1"] ∧
    (updateMenuStyle fullEnv mixedFavoriteManager).map
        (fun m1 => (actions m1, isBold m1 0, m1.CachedActions "Stat1".toList,
          m1.CachedActions "Cat1".toList))
      = some ([0], true, some 0, none) ∧
    (∀ k a, mixedFavoriteManager.CachedActions k = some a →
      (heapGet mixedFavoriteManager.heap a).isSome = true) ∧
    (∀ bm ∈ mixedFavoriteManager.Favorites, splitSkipEmptyParts ';' bm.2 ≠ []) ∧
    ∃ m1, updateMenuStyle fullEnv mixedFavoriteManager = some m1 ∧
      ∀ a ∈ actions m1,
        (isBold m1 a = true ↔
          ∃ bm ∈ mixedFavoriteManager.Favorites, bm.1 ≠ [] ∧
            ∃ filter, (splitSkipEmptyParts ';' bm.2).getLast? = some filter ∧
              m1.CachedActions filter = some a) ∧
        ((∀ bm ∈ mixedFavoriteManager.Favorites, bm.1 = "categories".toList →
            ∀ filter, (splitSkipEmptyParts ';' bm.2).getLast? = some filter →
              m1.CachedActions filter ≠ some a) →
          (isBold m1 a = true ↔
            ∃ bm ∈ mixedFavoriteManager.Favorites, bm.1 ≠ "categories".toList ∧ bm.1 ≠ [] ∧
              ∃ filter, (splitSkipEmptyParts ';' bm.2).getLast? = some filter ∧
                m1.CachedActions filter = some a)) :=
  ⟨rfl, by decide, fun _ _ h => Option.noConfusion h, by decide,
    bold_iff_favorite_name fullEnv mixedFavoriteManager (fun _ _ h => Option.noConfusion h)
      (by decide)⟩

/-- C15 (as stated) fails: with the action of the filter "Stat1" cached, of
payload ("filters", "Stat1"), and the single proxy favorite
("sources", "Stat1"), `updateMenuStyle` shows that action bold although no
favorite has its payload: the cached action is found by the name alone. -/
theorem bold_without_favorite_of_payload :
    (cachedStatManager [entry "sources" "Stat1"]).Favorites = [entry "sources" "Stat1"] ∧
    (updateMenuStyle fullEnv (cachedStatManager [entry "sources" "Stat1"])).map
        (fun m1 => (actions m1, isBold m1 0, (heapGet m1.heap 0).map (fun act => act.data)))
      = some ([0], true, some (QVariant.stringList ["filters".toList, "Stat1".toList])) := by
  refine ⟨rfl, by decide⟩

theorem updateMenuStyle_bolds_for_category_favorite :
    (updateMenuStyle fullEnv (cachedStatManager [entry "categories" "Stat1"])).map
        (fun m1 => (actions m1, isBold m1 0))
      = some ([0], true) := by
  decide

/-! ## Sub-menus of the Favorites menu -/

theorem submenuNamed_menu (c n : QString) (its : List MenuItem) :
    (MenuItem.menu n its).submenuNamed c = if n = c then some its else none :=
  rfl

theorem findSubmenu_cons (c : QString) (i : MenuItem) (rest : List MenuItem) :
    findSubmenu c (i :: rest)
      = match i.submenuNamed c with
        | some items => some ([], items, rest)
        | none => (findSubmenu c rest).map (fun t => (i :: t.1, t.2.1, t.2.2)) := by
  cases i with
  | menu n its =>
    rw [findSubmenu, submenuNamed_menu]
    by_cases hn : n = c
    · rw [if_pos hn, if_pos hn]
    · rw [if_neg hn, if_neg hn]
      cases findSubmenu c rest with
      | none => rfl
      | some t => rfl
  | action a =>
    rw [findSubmenu]
    · cases findSubmenu c rest with
      | none => rfl
      | some t => rfl
    · intro n its h
      cases h
  | separator =>
    rw [findSubmenu]
    · cases findSubmenu c rest with
      | none => rfl
      | some t => rfl
    · intro n its h
      cases h
  | manageFavorites =>
    rw [findSubmenu]
    · cases findSubmenu c rest with
      | none => rfl
      | some t => rfl
    · intro n its h
      cases h
  | addToCategory path filters =>
    rw [findSubmenu]
    · cases findSubmenu c rest with
      | none => rfl
      | some t => rfl
    · intro n its h
      cases h

theorem findSubmenu_append_of_some (c : QString) (menu r : List MenuItem)
    (pre items post : List MenuItem) (h : findSubmenu c menu = some (pre, items, post)) :
    findSubmenu c (menu ++ r) = some (pre, items, post ++ r) := by
  induction menu generalizing pre with
  | nil => cases h
  | cons i rest ih =>
    rw [List.cons_append, findSubmenu_cons]
    rw [findSubmenu_cons] at h
    cases hs : i.submenuNamed c with
    | some its =>
      rw [hs] at h
      cases h
      rfl
    | none =>
      rw [hs] at h
      simp only [] at h ⊢
      cases hr : findSubmenu c rest with
      | none =>
        rw [hr] at h
        cases h
      | some t =>
        obtain ⟨p1, it1, po1⟩ := t
        rw [hr] at h
        cases h
        rw [ih p1 hr]
        rfl

theorem findSubmenu_append_of_none (c : QString) (menu r : List MenuItem)
    (h : findSubmenu c menu = none) :
    findSubmenu c (menu ++ r)
      = (findSubmenu c r).map (fun t => (menu ++ t.1, t.2.1, t.2.2)) := by
  induction menu with
  | nil =>
    rw [List.nil_append]
    cases findSubmenu c r with
    | none => rfl
    | some t => rfl
  | cons i rest ih =>
    rw [List.cons_append, findSubmenu_cons]
    rw [findSubmenu_cons] at h
    cases hs : i.submenuNamed c with
    | some its =>
      rw [hs] at h
      cases h
    | none =>
      rw [hs] at h
      simp only [] at h ⊢
      cases hr : findSubmenu c rest with
      | some t =>
        rw [hr] at h
        cases h
      | none =>
        rw [ih hr]
        cases findSubmenu c r with
        | none => rfl
        | some t => rfl

theorem findSubmenu_struct (c : QString) (menu pre items post : List MenuItem)
    (h : findSubmenu c menu = some (pre, items, post)) :
    menu = pre ++ MenuItem.menu c items :: post ∧ findSubmenu c pre = none := by
  induction menu generalizing pre with
  | nil => cases h
  | cons i rest ih =>
    rw [findSubmenu_cons] at h
    cases hs : i.submenuNamed c with
    | some its =>
      rw [hs] at h
      cases h
      refine ⟨?_, rfl⟩
      cases i with
      | menu n its1 =>
        rw [submenuNamed_menu] at hs
        by_cases hn : n = c
        · rw [if_pos hn] at hs
          cases hs
          rw [hn]
          rfl
        · rw [if_neg hn] at hs
          cases hs
      | action a => cases hs
      | separator => cases hs
      | manageFavorites => cases hs
      | addToCategory path filters => cases hs
    | none =>
      rw [hs] at h
      simp only [] at h
      cases hr : findSubmenu c rest with
      | none =>
        rw [hr] at h
        cases h
      | some t =>
        obtain ⟨p1, it1, po1⟩ := t
        rw [hr] at h
        cases h
        obtain ⟨h1, h2⟩ := ih p1 hr
        refine ⟨by rw [h1]; rfl, ?_⟩
        rw [findSubmenu_cons, hs]
        simp only []
        rw [h2]
        rfl

theorem submenuItems_replace_same (c : QString) (menu pre items post x : List MenuItem)
    (h : findSubmenu c menu = some (pre, items, post)) :
    findSubmenu c (pre ++ MenuItem.menu c x :: post) = some (pre, x, post) := by
  obtain ⟨_, hpre⟩ := findSubmenu_struct c menu pre items post h
  rw [findSubmenu_append_of_none c pre _ hpre, findSubmenu_cons, submenuNamed_menu, if_pos rfl]
  simp

theorem submenuItems_replace_other (c d : QString) (menu pre items post x : List MenuItem)
    (h : findSubmenu c menu = some (pre, items, post)) (hd : d ≠ c) :
    submenuItems d (pre ++ MenuItem.menu c x :: post) = submenuItems d menu := by
  obtain ⟨hmenu, _⟩ := findSubmenu_struct c menu pre items post h
  unfold submenuItems
  rw [hmenu]
  cases hp : findSubmenu d pre with
  | some t =>
    obtain ⟨p1, it1, po1⟩ := t
    rw [findSubmenu_append_of_some d pre _ p1 it1 po1 hp,
      findSubmenu_append_of_some d pre _ p1 it1 po1 hp]
    rfl
  | none =>
    have hcd : ¬c = d := fun e => hd e.symm
    rw [findSubmenu_append_of_none d pre _ hp, findSubmenu_append_of_none d pre _ hp,
      findSubmenu_cons, findSubmenu_cons, submenuNamed_menu, submenuNamed_menu, if_neg hcd,
      if_neg hcd]
    simp only []
    cases findSubmenu d post with
    | none => rfl
    | some t => rfl

theorem actions_replace (c : QString) (pre post x y : List MenuItem) :
    QMenu.actions (pre ++ MenuItem.menu c x :: post)
      = QMenu.actions (pre ++ MenuItem.menu c y :: post) := by
  rw [actions_append, actions_append]
  rfl

theorem findSubmenu_append_new (c : QString) (menu x : List MenuItem)
    (h : findSubmenu c menu = none) :
    findSubmenu c (menu ++ [MenuItem.menu c x]) = some (menu, x, []) := by
  rw [findSubmenu_append_of_none c menu _ h, findSubmenu_cons, submenuNamed_menu, if_pos rfl]
  simp

theorem submenuItems_append_new (c d : QString) (menu x : List MenuItem) (hd : d ≠ c) :
    submenuItems d (menu ++ [MenuItem.menu c x]) = submenuItems d menu := by
  unfold submenuItems
  cases hp : findSubmenu d menu with
  | some t =>
    obtain ⟨p1, it1, po1⟩ := t
    rw [findSubmenu_append_of_some d menu _ p1 it1 po1 hp]
    rfl
  | none =>
    have hcd : ¬c = d := fun e => hd e.symm
    rw [findSubmenu_append_of_none d menu _ hp, findSubmenu_cons, submenuNamed_menu, if_neg hcd]
    rfl

theorem actions_append_new (c : QString) (menu x : List MenuItem) :
    QMenu.actions (menu ++ [MenuItem.menu c x]) = QMenu.actions menu := by
  rw [actions_append]
  simp [QMenu.actions]

theorem submenuItems_filter (d : QString) (menu : List MenuItem) (p : MenuItem → Bool)
    (hp : ∀ n its, p (MenuItem.menu n its) = true) :
    submenuItems d (menu.filter p) = submenuItems d menu := by
  unfold submenuItems
  induction menu with
  | nil => rfl
  | cons i rest ih =>
    rw [List.filter_cons]
    by_cases hpi : p i = true
    · rw [if_pos hpi, findSubmenu_cons, findSubmenu_cons]
      cases hs : i.submenuNamed d with
      | some its => rfl
      | none =>
        simp only [Option.map_map]
        simp only [Option.map_map] at ih
        exact ih
    · rw [if_neg hpi, findSubmenu_cons]
      cases hs : i.submenuNamed d with
      | some its =>
        exfalso
        cases i with
        | menu n its1 => exact hpi (hp n its1)
        | action a => cases hs
        | separator => cases hs
        | manageFavorites => cases hs
        | addToCategory path filters => cases hs
      | none =>
        simp only [Option.map_map]
        exact ih

theorem submenuItems_addAction (d : QString) (menu : List MenuItem) (a : Nat) :
    submenuItems d (QMenu.addAction menu a) = submenuItems d menu := by
  have hf := submenuItems_filter d menu (fun i => !(i.isAction a)) (fun _ _ => rfl)
  unfold QMenu.addAction
  unfold submenuItems at hf ⊢
  cases hp : findSubmenu d (menu.filter (fun i => !(i.isAction a))) with
  | some t =>
    obtain ⟨p1, it1, po1⟩ := t
    rw [findSubmenu_append_of_some d _ _ p1 it1 po1 hp, ← hf, hp]
    rfl
  | none =>
    rw [findSubmenu_append_of_none d _ _ hp, ← hf, hp]
    rfl

theorem menuActionsAt_cons (c : QString) (rest : List QString) (menu : QMenu) :
    menuActionsAt (c :: rest) menu
      = match submenuItems c menu with
        | some items => menuActionsAt rest items
        | none => [] :=
  rfl

theorem walkCategories_cons (addItem : Option MenuItem) (c : QString) (rest : List QString)
    (menu : QMenu) :
    walkCategories addItem (c :: rest) menu
      = match findSubmenu c menu with
        | some (pre, items, post) =>
          (walkCategories addItem rest items).map
            (fun items1 => pre ++ MenuItem.menu c items1 :: post)
        | none =>
          match addItem with
          | none => none
          | some entry =>
            (walkCategories addItem rest [entry, MenuItem.separator]).map
              (fun items1 => menu ++ [MenuItem.menu c items1]) :=
  rfl

theorem walkCategories_total (entry : MenuItem) (q : List QString) (menu : QMenu) :
    ∃ menu1, walkCategories (some entry) q menu = some menu1 := by
  induction q generalizing menu with
  | nil => exact ⟨menu, rfl⟩
  | cons c rest ih =>
    rw [walkCategories]
    cases hf : findSubmenu c menu with
    | some t =>
      obtain ⟨pre, items, post⟩ := t
      obtain ⟨items1, h1⟩ := ih items
      exact ⟨_, by simp only []; rw [h1]; rfl⟩
    | none =>
      obtain ⟨items1, h1⟩ := ih [entry, MenuItem.separator]
      exact ⟨_, by simp only []; rw [h1]; rfl⟩

theorem walkCategories_mono (addItem : Option MenuItem) (q : List QString)
    (menu menu1 : QMenu) (h : walkCategories addItem q menu = some menu1)
    (p : List QString) (b : Nat) (hb : b ∈ menuActionsAt p menu) :
    b ∈ menuActionsAt p menu1 := by
  induction q generalizing menu menu1 p with
  | nil =>
    rw [walkCategories] at h
    cases h
    exact hb
  | cons c rest ih =>
    rw [walkCategories_cons] at h
    cases hf : findSubmenu c menu with
    | some t =>
      obtain ⟨pre, items, post⟩ := t
      rw [hf] at h
      simp only [] at h
      cases hw : walkCategories addItem rest items with
      | none =>
        rw [hw] at h
        cases h
      | some items1 =>
        rw [hw] at h
        cases h
        obtain ⟨hmenu, _⟩ := findSubmenu_struct c menu pre items post hf
        cases p with
        | nil =>
          rw [menuActionsAt, actions_replace c pre post items1 items, ← hmenu]
          exact hb
        | cons d p1 =>
          rw [menuActionsAt_cons] at hb ⊢
          by_cases hd : d = c
          · subst hd
            have h1 : submenuItems d menu = some items := by
              unfold submenuItems
              rw [hf]
              rfl
            have h2 : submenuItems d (pre ++ MenuItem.menu d items1 :: post) = some items1 := by
              unfold submenuItems
              rw [submenuItems_replace_same d menu pre items post items1 hf]
              rfl
            rw [h1] at hb
            rw [h2]
            exact ih items items1 hw p1 hb
          · rw [submenuItems_replace_other c d menu pre items post items1 hf hd]
            exact hb
    | none =>
      rw [hf] at h
      simp only [] at h
      cases addItem with
      | none => cases h
      | some entry =>
        simp only [] at h
        cases hw : walkCategories (some entry) rest [entry, MenuItem.separator] with
        | none =>
          rw [hw] at h
          cases h
        | some items1 =>
          rw [hw] at h
          cases h
          cases p with
          | nil =>
            rw [menuActionsAt, actions_append_new]
            exact hb
          | cons d p1 =>
            rw [menuActionsAt_cons] at hb ⊢
            by_cases hd : d = c
            · subst hd
              have h1 : submenuItems d menu = none := by
                unfold submenuItems
                rw [hf]
                rfl
              rw [h1] at hb
              cases hb
            · rw [submenuItems_append_new c d menu items1 hd]
              exact hb

theorem addActionAt_mono (a : Nat) (q : List QString) (menu : QMenu)
    (p : List QString) (b : Nat) (hb : b ∈ menuActionsAt p menu) :
    b ∈ menuActionsAt p (addActionAt a q menu) := by
  induction q generalizing menu p with
  | nil =>
    rw [addActionAt]
    cases p with
    | nil =>
      rw [menuActionsAt] at hb ⊢
      exact (mem_actions_addAction menu a b).2 (Or.inl hb)
    | cons d p1 =>
      rw [menuActionsAt_cons] at hb ⊢
      rw [submenuItems_addAction]
      exact hb
  | cons c rest ih =>
    rw [addActionAt]
    cases hf : findSubmenu c menu with
    | none => exact hb
    | some t =>
      obtain ⟨pre, items, post⟩ := t
      simp only []
      obtain ⟨hmenu, _⟩ := findSubmenu_struct c menu pre items post hf
      cases p with
      | nil =>
        rw [menuActionsAt, actions_replace c pre post _ items, ← hmenu]
        exact hb
      | cons d p1 =>
        rw [menuActionsAt_cons] at hb ⊢
        by_cases hd : d = c
        · subst hd
          have h1 : submenuItems d menu = some items := by
            unfold submenuItems
            rw [hf]
            rfl
          have h2 : submenuItems d (pre ++ MenuItem.menu d (addActionAt a rest items) :: post)
              = some (addActionAt a rest items) := by
            unfold submenuItems
            rw [submenuItems_replace_same d menu pre items post _ hf]
            rfl
          rw [h1] at hb
          rw [h2]
          exact ih items p1 hb
        · rw [submenuItems_replace_other c d menu pre items post _ hf hd]
          exact hb

theorem walkCategories_addActionAt (addItem : Option MenuItem) (a : Nat)
    (cats : List QString) (menu menu1 : QMenu)
    (h : walkCategories addItem cats menu = some menu1) :
    a ∈ menuActionsAt cats (addActionAt a cats menu1) := by
  induction cats generalizing menu menu1 with
  | nil =>
    rw [addActionAt, menuActionsAt]
    exact (mem_actions_addAction menu1 a a).2 (Or.inr rfl)
  | cons c rest ih =>
    rw [walkCategories_cons] at h
    have key : ∀ pre items1 post, findSubmenu c menu1 = some (pre, items1, post) →
        (∃ items0, walkCategories addItem rest items0 = some items1) →
        a ∈ menuActionsAt (c :: rest) (addActionAt a (c :: rest) menu1) := by
      intro pre items1 post hf1 hex
      obtain ⟨items0, hw⟩ := hex
      rw [addActionAt, hf1]
      simp only []
      rw [menuActionsAt_cons]
      have h2 : submenuItems c (pre ++ MenuItem.menu c (addActionAt a rest items1) :: post)
          = some (addActionAt a rest items1) := by
        unfold submenuItems
        rw [submenuItems_replace_same c menu1 pre items1 post _ hf1]
        rfl
      rw [h2]
      exact ih items0 items1 hw
    cases hf : findSubmenu c menu with
    | some t =>
      obtain ⟨pre, items, post⟩ := t
      rw [hf] at h
      simp only [] at h
      cases hw : walkCategories addItem rest items with
      | none =>
        rw [hw] at h
        cases h
      | some items1 =>
        rw [hw] at h
        cases h
        exact key pre items1 post
          (submenuItems_replace_same c menu pre items post items1 hf) ⟨items, hw⟩
    | none =>
      rw [hf] at h
      simp only [] at h
      cases addItem with
      | none => cases h
      | some entry =>
        simp only [] at h
        cases hw : walkCategories (some entry) rest [entry, MenuItem.separator] with
        | none =>
          rw [hw] at h
          cases h
        | some items1 =>
          rw [hw] at h
          cases h
          exact key menu items1 [] (findSubmenu_append_new c menu items1 hf)
            ⟨[entry, MenuItem.separator], hw⟩

theorem eq_append_pair_of_length {α : Type} (l : List α) (h : 2 ≤ l.length) :
    ∃ cats x y, l = cats ++ [x, y] := by
  rcases List.eq_nil_or_concat l with h1 | ⟨l1, y, h1⟩
  · subst h1
    simp at h
  · subst h1
    rcases List.eq_nil_or_concat l1 with h2 | ⟨l2, x, h2⟩
    · subst h2
      simp at h
    · subst h2
      exact ⟨l2, x, y, by simp⟩

theorem getLast?_append_pair {α : Type} (cats : List α) (x y : α) :
    (cats ++ [x, y]).getLast? = some y := by
  simp

theorem dropLast_append_pair {α : Type} (cats : List α) (x y : α) :
    (cats ++ [x, y]).dropLast = cats ++ [x] := by
  have h : cats ++ [x, y] = (cats ++ [x]) ++ [y] := by simp
  rw [h, List.dropLast_concat]

theorem addToCategoryFilters_total (favs : List (QString × QString))
    (hwf : ∀ key ∈ favs, key.1 ≠ "categories".toList →
      2 ≤ (splitSkipEmptyParts ';' key.2).length) (path : QString) :
    ∃ filters, addToCategoryFilters path favs = some filters := by
  induction favs with
  | nil => exact ⟨[], rfl⟩
  | cons key rest ih =>
    obtain ⟨fs, hfs⟩ := ih (fun k hk => hwf k (List.mem_cons_of_mem key hk))
    rw [addToCategoryFilters]
    by_cases hk : key.1 = "filters".toList
    · rw [if_pos hk]
      have hcat : key.1 ≠ "categories".toList := by
        rw [hk]
        decide
      obtain ⟨cats, x, name, hs⟩ := eq_append_pair_of_length _
        (hwf key (List.mem_cons_self key rest) hcat)
      rw [hs, getLast?_append_pair]
      simp only []
      rw [dropLast_append_pair, hfs]
      have hne : (cats ++ [x]).isEmpty = false := by
        cases cats <;> rfl
      rw [hne]
      simp only [Bool.false_eq_true, if_false]
      split
      · exact ⟨_, rfl⟩
      · exact ⟨_, rfl⟩
    · rw [if_neg hk]
      exact ⟨fs, hfs⟩

theorem getAddToCategoryAction_total (m : pqProxyGroupMenuManager)
    (hwf : ∀ key ∈ m.Favorites, key.1 ≠ "categories".toList →
      2 ≤ (splitSkipEmptyParts ';' key.2).length) (path : QString) :
    ∃ entry, getAddToCategoryAction m path = some entry := by
  obtain ⟨fs, hfs⟩ := addToCategoryFilters_total m.Favorites hwf path
  unfold getAddToCategoryAction
  rw [hfs]
  exact ⟨_, rfl⟩

theorem getAction_resolves (env : Env) (m : pqProxyGroupMenuManager) (g n : QString)
    (h : resolves env m g n) :
    ∃ a, (getAction env m g n).2 = some a ∧
      (getAction env m g n).1.CachedActions n = some a := by
  obtain ⟨hg, hn, hr⟩ := h
  have hne : (n.isEmpty || g.isEmpty) = false := by
    cases g with
    | nil => exact absurd rfl hg
    | cons c cs =>
      cases n with
      | nil => exact absurd rfl hn
      | cons d ds => rfl
  cases hc : m.CachedActions n with
  | some a =>
    rw [getAction_cached env m g n a hne hc]
    exact ⟨a, rfl, hc⟩
  | none =>
    rcases hr with hr | ⟨p, hp, hproto⟩
    · rw [hc] at hr
      cases hr
    · obtain ⟨_, hpn, _⟩ := findProxyInfo_some _ _ _ _ hp
      obtain ⟨h1, h2⟩ := createAction_of_prototype env m p hproto
      have hget : getAction env m g n = createAction env m p := by
        unfold getAction
        rw [hne, hc, hp]
        rfl
      rw [hget, h1, h2]
      refine ⟨m.heap.length, rfl, ?_⟩
      show (if n = p.name then some m.heap.length else m.CachedActions n) = _
      rw [if_pos hpn.symm]

theorem resolves_of_frame (env : Env) (m m1 : pqProxyGroupMenuManager) (g n : QString)
    (happ : m1.ApplicationCategory = m.ApplicationCategory)
    (hkept : ∀ k a, m.CachedActions k = some a → m1.CachedActions k = some a)
    (h : resolves env m g n) : resolves env m1 g n := by
  obtain ⟨hg, hn, hr⟩ := h
  refine ⟨hg, hn, ?_⟩
  rcases hr with hr | hr
  · left
    cases hc : m.CachedActions n with
    | none =>
      rw [hc] at hr
      cases hr
    | some a =>
      rw [hkept n a hc]
      rfl
  · right
    rw [happ]
    exact hr

theorem populateFavoritesStep_category (env : Env) (m : pqProxyGroupMenuManager)
    (menu : QMenu) (key : QString × QString) (hk : key.1 = "categories".toList)
    (hadd : ∀ path, ∃ entry, getAddToCategoryAction m path = some entry) :
    ∃ menu1, populateFavoritesStep env m menu key = some (m, menu1) ∧
      ∀ p b, b ∈ menuActionsAt p menu → b ∈ menuActionsAt p menu1 := by
  obtain ⟨entry, he⟩ := hadd (join ';' (splitSkipEmptyParts ';' key.2))
  obtain ⟨menu1, hw⟩ := walkCategories_total entry (splitSkipEmptyParts ';' key.2) menu
  refine ⟨menu1, ?_, fun p b hb => walkCategories_mono _ _ menu menu1 hw p b hb⟩
  unfold populateFavoritesStep
  simp only [hk, decide_True, if_true]
  rw [he, hw]

theorem populateFavoritesStep_proxy (env : Env) (m : pqProxyGroupMenuManager)
    (menu : QMenu) (key : QString × QString) (hk : key.1 ≠ "categories".toList)
    (cats : List QString) (x name : QString)
    (hs : splitSkipEmptyParts ';' key.2 = cats ++ [x, name])
    (hadd : ∀ path, ∃ entry, getAddToCategoryAction m path = some entry) :
    ∃ menu1, (∀ p b, b ∈ menuActionsAt p menu → b ∈ menuActionsAt p menu1) ∧
      (∀ a, a ∈ menuActionsAt cats (addActionAt a cats menu1)) ∧
      populateFavoritesStep env m menu key
        = match getAction env m key.1 name with
          | (m1, some action) =>
            some ({ m1 with heap := setObjectName name action m1.heap },
              addActionAt action cats menu1)
          | (m1, none) => some (m1, menu1) := by
  obtain ⟨entry, he⟩ := hadd (join ';' cats)
  obtain ⟨menu1, hw⟩ := walkCategories_total entry cats menu
  refine ⟨menu1, fun p b hb => walkCategories_mono _ _ menu menu1 hw p b hb,
    fun a => walkCategories_addActionAt _ a cats menu menu1 hw, ?_⟩
  have hne : (cats ++ [x]).isEmpty = false := by
    cases cats <;> rfl
  have hd2 : (cats ++ [x]).dropLast = cats := List.dropLast_concat
  unfold populateFavoritesStep
  simp only [hk, decide_False, Bool.false_eq_true, if_false]
  rw [hs, getLast?_append_pair]
  simp only []
  rw [dropLast_append_pair, hne]
  simp only [Bool.false_eq_true, if_false]
  rw [hd2, he, hw]

theorem append_pair_inj {α : Type} (l1 l2 : List α) (x1 y1 x2 y2 : α)
    (h : l1 ++ [x1, y1] = l2 ++ [x2, y2]) : l1 = l2 ∧ x1 = x2 ∧ y1 = y2 := by
  have h1 := List.append_inj' h rfl
  obtain ⟨ha, hb⟩ := h1
  simp only [List.cons.injEq, and_true] at hb
  exact ⟨ha, hb.1, hb.2⟩

theorem populateFavoritesLoop_spec (env : Env) (favs : List (QString × QString))
    (cur : pqProxyGroupMenuManager) (menu0 : QMenu)
    (hall : ∀ key ∈ cur.Favorites, key.1 ≠ "categories".toList →
      2 ≤ (splitSkipEmptyParts ';' key.2).length)
    (hwf : ∀ key ∈ favs, key.1 ≠ "categories".toList →
      2 ≤ (splitSkipEmptyParts ';' key.2).length) :
    ∃ fin menu, populateFavoritesLoop env cur menu0 favs = some (fin, menu) ∧
      eraseActions fin = eraseActions cur ∧
      (∀ k a, cur.CachedActions k = some a → fin.CachedActions k = some a) ∧
      (∀ p b, b ∈ menuActionsAt p menu0 → b ∈ menuActionsAt p menu) ∧
      (∀ key ∈ favs, key.1 ≠ "categories".toList → ∀ cats x name,
        splitSkipEmptyParts ';' key.2 = cats ++ [x, name] →
        resolves env cur key.1 name →
        ∃ a, fin.CachedActions name = some a ∧ a ∈ menuActionsAt cats menu) := by
  induction favs generalizing cur menu0 with
  | nil =>
    refine ⟨cur, menu0, rfl, rfl, fun _ _ h => h, fun _ _ h => h, ?_⟩
    intro key hkey
    cases hkey
  | cons key rest ih =>
    have hadd := getAddToCategoryAction_total cur hall
    have hrest : ∀ k ∈ rest, k.1 ≠ "categories".toList →
        2 ≤ (splitSkipEmptyParts ';' k.2).length :=
      fun k hk => hwf k (List.mem_cons_of_mem key hk)
    rw [populateFavoritesLoop]
    by_cases hk : key.1 = "categories".toList
    · obtain ⟨menu1, hstep, hmono⟩ := populateFavoritesStep_category env cur menu0 key hk hadd
      rw [hstep]
      simp only []
      obtain ⟨fin, menu, h1, h2, h3, h4, h5⟩ := ih cur menu1 hall hrest
      refine ⟨fin, menu, h1, h2, h3, fun p b hb => h4 p b (hmono p b hb), ?_⟩
      intro k hkm hkc cats x name hs hres
      rcases List.mem_cons.1 hkm with e | e
      · subst e
        exact absurd hk hkc
      · exact h5 k e hkc cats x name hs hres
    · obtain ⟨cats, x, name, hs⟩ := eq_append_pair_of_length _
        (hwf key (List.mem_cons_self key rest) hk)
      obtain ⟨menu1, hmono, hplace, hstep⟩ :=
        populateFavoritesStep_proxy env cur menu0 key hk cats x name hs hadd
      rw [hstep]
      have hfr := eraseActions_getAction env cur key.1 name
      have hkept := (getAction_grows (fun _ _ => True) env cur key.1 name
        (fun _ _ _ => trivial)).kept
      cases hga : getAction env cur key.1 name with
      | mk m1 res =>
        rw [hga] at hfr hkept
        cases res with
        | none =>
          simp only []
          have hall1 : ∀ k ∈ m1.Favorites, k.1 ≠ "categories".toList →
              2 ≤ (splitSkipEmptyParts ';' k.2).length := by
            rw [eraseActions_Favorites hfr]
            exact hall
          obtain ⟨fin, menu, h1, h2, h3, h4, h5⟩ := ih m1 menu1 hall1 hrest
          refine ⟨fin, menu, h1, h2.trans hfr, fun k a hka => h3 k a (hkept k a hka),
            fun p b hb => h4 p b (hmono p b hb), ?_⟩
          intro k hkm hkc cats1 x1 name1 hs1 hres
          rcases List.mem_cons.1 hkm with e | e
          · subst e
            rw [hs] at hs1
            obtain ⟨_, _, hn⟩ := append_pair_inj _ _ _ _ _ _ hs1
            subst hn
            obtain ⟨a, ha1, _⟩ := getAction_resolves env cur k.1 name hres
            rw [hga] at ha1
            cases ha1
          · exact h5 k e hkc cats1 x1 name1 hs1
              (resolves_of_frame env cur m1 k.1 name1 (eraseActions_ApplicationCategory hfr) hkept hres)
        | some action =>
          simp only []
          have hfr1 : eraseActions
              ({ m1 with heap := setObjectName name action m1.heap } : pqProxyGroupMenuManager)
              = eraseActions cur := hfr
          have hall1 : ∀ k ∈ ({ m1 with heap := setObjectName name action m1.heap } :
              pqProxyGroupMenuManager).Favorites, k.1 ≠ "categories".toList →
              2 ≤ (splitSkipEmptyParts ';' k.2).length := by
            rw [eraseActions_Favorites hfr1]
            exact hall
          obtain ⟨fin, menu, h1, h2, h3, h4, h5⟩ :=
            ih { m1 with heap := setObjectName name action m1.heap }
              (addActionAt action cats menu1) hall1 hrest
          refine ⟨fin, menu, h1, h2.trans hfr1, fun k a hka => h3 k a (hkept k a hka),
            fun p b hb => h4 p b (addActionAt_mono action cats menu1 p b (hmono p b hb)), ?_⟩
          intro k hkm hkc cats1 x1 name1 hs1 hres
          rcases List.mem_cons.1 hkm with e | e
          · subst e
            rw [hs] at hs1
            obtain ⟨hc, _, hn⟩ := append_pair_inj _ _ _ _ _ _ hs1
            subst hn
            subst hc
            obtain ⟨a, ha1, ha2⟩ := getAction_resolves env cur k.1 name hres
            rw [hga] at ha1 ha2
            cases ha1
            exact ⟨action, h3 name action ha2, h4 cats action (hplace action)⟩
          · exact h5 k e hkc cats1 x1 name1 hs1
              (resolves_of_frame env cur _ k.1 name1 (eraseActions_ApplicationCategory hfr1) hkept hres)

theorem loadFavoritesItems_kept (env : Env) (m : pqProxyGroupMenuManager)
    (settings : pqSettings) :
    ∃ m1, loadFavoritesItems env m settings = some m1 ∧
      eraseActions m1
        = eraseActions
            { m with Favorites := parseFavorites (storedString settings (favoritesKey m)) } ∧
      ∀ k a, m.CachedActions k = some a → m1.CachedActions k = some a := by
  obtain ⟨m1, h1, h2⟩ := loadFavoritesItems_total env m settings
  refine ⟨m1, h1, h2, ?_⟩
  have hfav : ∀ bm ∈ m1.Favorites, splitSkipEmptyParts ';' bm.2 ≠ [] := by
    rw [eraseActions_Favorites h2]
    exact fun bm hbm => (parseFavorites_path _ bm hbm).2
  unfold loadFavoritesItems updateMenuStyle at h1
  simp only [] at h1
  split at h1
  · next hc =>
    obtain ⟨fin, hfin, hK, _⟩ := updateMenuStyleLoop_spec env
      (parseFavorites (settings.value (favoritesKey m) QVariant.invalid).toQString)
      { m with
        Favorites := parseFavorites (settings.value (favoritesKey m) QVariant.invalid).toQString,
        heap := (actions m).foldl (fun h a => setBold false a h) m.heap }
      (fun bm hbm => (parseFavorites_path _ bm hbm).2)
    have h3 := h1.symm.trans hfin
    cases h3
    exact hK
  · next hc =>
    obtain ⟨fin, hfin, hK, _⟩ := updateMenuStyleLoop_spec env []
      { m with Favorites := [], heap := (actions m).foldl (fun h a => setBold false a h) m.heap }
      (fun bm hbm => absurd hbm (List.not_mem_nil bm))
    have h3 := h1.symm.trans hfin
    cases h3
    exact hK

/-- C16 (amended): When the Favorites menu exists and every stored proxy
favorite has a path of at least two segments, `populateFavoritesMenu` returns,
and for every proxy favorite (group, "cat1;...;catN;x;proxyName") with N >= 0
for which `getAction(group, proxyName)` resolves an action, the action cached
under proxyName is an entry of the nested sub-menu reached from the Favorites
menu by descending through cat1, then cat2, ..., then catN: the segment x
before the proxy name makes no menu level. -/
theorem favorites_menu_places_action (env : Env) (m : pqProxyGroupMenuManager)
    (settings : pqSettings) (old : QMenu) (hm : m.FavoritesMenu = some old)
    (hwf : ∀ key ∈ parseFavorites (storedString settings (favoritesKey m)),
      key.1 ≠ "categories".toList → 2 ≤ (splitSkipEmptyParts ';' key.2).length) :
    ∃ m1 menu, populateFavoritesMenu env m settings = some m1 ∧
      m1.FavoritesMenu = some menu ∧
      m1.Favorites = parseFavorites (storedString settings (favoritesKey m)) ∧
      ∀ key ∈ m1.Favorites, key.1 ≠ "categories".toList → ∀ cats x name,
        splitSkipEmptyParts ';' key.2 = cats ++ [x, name] →
        resolves env m key.1 name →
        ∃ a, m1.CachedActions name = some a ∧ a ∈ menuActionsAt cats menu := by
  obtain ⟨m0, hload, hfr0, hkept0⟩ := loadFavoritesItems_kept env m settings
  have hfav0 : m0.Favorites = parseFavorites (storedString settings (favoritesKey m)) :=
    eraseActions_Favorites hfr0
  have hmenu0 : m0.FavoritesMenu = some old := by
    rw [eraseActions_FavoritesMenu hfr0]
    exact hm
  have hall : ∀ key ∈ m0.Favorites, key.1 ≠ "categories".toList →
      2 ≤ (splitSkipEmptyParts ';' key.2).length := by
    rw [hfav0]
    exact hwf
  obtain ⟨rootEntry, hroot⟩ := getAddToCategoryAction_total m0 hall []
  obtain ⟨fin, menu, hloop, hfr, hkept, _, hplaced⟩ := populateFavoritesLoop_spec env
    m0.Favorites m0 [MenuItem.manageFavorites, rootEntry, MenuItem.separator] hall hall
  refine ⟨{ fin with FavoritesMenu := some menu }, menu, ?_, rfl, ?_, ?_⟩
  · unfold populateFavoritesMenu
    rw [hload]
    simp only []
    rw [hmenu0]
    simp only []
    rw [hroot]
    simp only []
    rw [hloop]
  · show fin.Favorites = _
    rw [eraseActions_Favorites hfr, hfav0]
  · intro key hkey hkc cats x name hs hres
    have hkey0 : key ∈ m0.Favorites := by
      have hkey1 : key ∈ fin.Favorites := hkey
      rw [eraseActions_Favorites hfr] at hkey1
      exact hkey1
    have happ : m0.ApplicationCategory = m.ApplicationCategory := by
      have h1 := eraseActions_ApplicationCategory hfr0
      exact h1
    exact hplaced key hkey0 hkc cats x name hs
      (resolves_of_frame env m m0 key.1 name happ hkept0 hres)

theorem favorites_menu_places_action_witness :
    menuManager.FavoritesMenu = some [] ∧
    (∀ key ∈ parseFavorites (storedString (favoritesSettings "filters;Cat1;Sub;Stat1;Stat1|")
        (favoritesKey menuManager)),
      key.1 ≠ "categories".toList → 2 ≤ (splitSkipEmptyParts ';' key.2).length) ∧
    ∃ m1 menu, populateFavoritesMenu fullEnv menuManager
        (favoritesSettings "filters;Cat1;Sub;Stat1;Stat1|") = some m1 ∧
      m1.FavoritesMenu = some menu ∧
      m1.Favorites = parseFavorites
        (storedString (favoritesSettings "filters;Cat1;Sub;Stat1;Stat1|")
          (favoritesKey menuManager)) ∧
      ∀ key ∈ m1.Favorites, key.1 ≠ "categories".toList → ∀ cats x name,
        splitSkipEmptyParts ';' key.2 = cats ++ [x, name] →
        resolves fullEnv menuManager key.1 name →
        ∃ a, m1.CachedActions name = some a ∧ a ∈ menuActionsAt cats menu :=
  ⟨rfl, by decide,
    favorites_menu_places_action fullEnv menuManager
      (favoritesSettings "filters;Cat1;Sub;Stat1;Stat1|") [] rfl (by decide)⟩

/-! ## The derived attributes -/

theorem arg2_shortcut_template (menuName label : QString) :
    arg2 "pqCustomShortcuts/%1/Alphabetical/%2".toList menuName label
      = shortcutKey menuName label := by
  unfold arg2 shortcutKey
  simp [findArgEscapes, parseEscape, digitValue, minEscape]

theorem updateActionShortcut_filters (shortcuts : pqSettings) (action : QAction)
    (proxyInfo : pqProxyInfo) (hg : proxyInfo.group = "filters".toList) :
    updateActionShortcut shortcuts action proxyInfo
      = if (shortcuts.value (shortcutKey "Filters".toList proxyInfo.label)
            QVariant.invalid).canConvertKeySequence
        then { action with shortcut :=
          (shortcuts.value (shortcutKey "Filters".toList proxyInfo.label)
            QVariant.invalid).toKeySequence }
        else action := by
  unfold updateActionShortcut
  simp only [hg, true_or, if_true]
  rw [arg2_shortcut_template]

theorem updateActionShortcut_sources (shortcuts : pqSettings) (action : QAction)
    (proxyInfo : pqProxyInfo) (hg : proxyInfo.group = "sources".toList) :
    updateActionShortcut shortcuts action proxyInfo
      = if (shortcuts.value (shortcutKey "Sources".toList proxyInfo.label)
            QVariant.invalid).canConvertKeySequence
        then { action with shortcut :=
          (shortcuts.value (shortcutKey "Sources".toList proxyInfo.label)
            QVariant.invalid).toKeySequence }
        else action := by
  have hne : ¬ ("sources".toList = "filters".toList) := by decide
  unfold updateActionShortcut
  simp only [hg, or_true, if_true, hne, if_false]
  rw [arg2_shortcut_template]

/-- C22 (amended): After `updateActionShortcut`, for a ProxyInfo of group
"filters" (resp. "sources") the only settings key consulted is
"pqCustomShortcuts/Filters/Alphabetical/" (resp.
"pqCustomShortcuts/Sources/Alphabetical/") followed by the proxy label; the
shortcut of the action is the stored key sequence when the value decodes as
one, and the action is left as it was otherwise.  For every other group no key
is read and the action is left as it was. -/
theorem shortcut_from_settings_key (shortcuts : pqSettings) (action : QAction)
    (proxyInfo : pqProxyInfo) :
    updateActionShortcut shortcuts action { proxyInfo with group := "filters".toList }
      = (if (shortcuts.value (shortcutKey "Filters".toList proxyInfo.label)
            QVariant.invalid).canConvertKeySequence
        then { action with shortcut :=
          (shortcuts.value (shortcutKey "Filters".toList proxyInfo.label)
            QVariant.invalid).toKeySequence }
        else action) ∧
    updateActionShortcut shortcuts action { proxyInfo with group := "sources".toList }
      = (if (shortcuts.value (shortcutKey "Sources".toList proxyInfo.label)
            QVariant.invalid).canConvertKeySequence
        then { action with shortcut :=
          (shortcuts.value (shortcutKey "Sources".toList proxyInfo.label)
            QVariant.invalid).toKeySequence }
        else action) ∧
    (proxyInfo.group = "filters".toList ∨ proxyInfo.group = "sources".toList ∨
      updateActionShortcut shortcuts action proxyInfo = action) := by
  refine ⟨updateActionShortcut_filters shortcuts action _ rfl,
    updateActionShortcut_sources shortcuts action _ rfl, ?_⟩
  by_cases h1 : proxyInfo.group = "filters".toList
  · exact Or.inl h1
  · by_cases h2 : proxyInfo.group = "sources".toList
    · exact Or.inr (Or.inl h2)
    · right; right
      unfold updateActionShortcut
      simp only [h1, h2, or_self, if_false]

/-- C22 (as stated) fails: an action that carries the shortcut "Ctrl+X" keeps
it when the store holds nothing under the key of the filter "Stat1", and also
when the stored value does not decode as a key sequence; the shortcut is not
made empty. -/
theorem shortcut_kept_when_not_decodable :
    statProxy.group = "filters".toList ∧
    (updateActionShortcut emptySettings shortcutAction statProxy).shortcut
      = QKeySequence.fromString "Ctrl+X".toList ∧
    (QVariant.bool true).canConvertKeySequence = false ∧
    (updateActionShortcut
      (emptySettings.setValue "pqCustomShortcuts/Filters/Alphabetical/Stat1".toList
        (QVariant.bool true)) shortcutAction statProxy).shortcut
      = QKeySequence.fromString "Ctrl+X".toList ∧
    (updateActionShortcut emptySettings shortcutAction statProxy).shortcut
      ≠ QKeySequence.empty := by
  refine ⟨rfl, by decide, rfl, by decide, by decide⟩

/-- C23: After `updateActionOmitFromToolbar` a category name is in the
`OmitFromToolbar` property of the action exactly when it is in the
`omitFromToolbar` list of the ProxyInfo or was in the property before the
call; no other attribute of the action changes; and when the list of the
ProxyInfo is empty and the property is unset or empty, the property is not
set. -/
theorem omitFromToolbar_union (action : QAction) (proxy : pqProxyInfo) (c : QString) :
    (c ∈ (updateActionOmitFromToolbar action proxy).OmitFromToolbar.getD [] ↔
      c ∈ proxy.omitFromToolbar ∨ c ∈ action.OmitFromToolbar.getD []) ∧
    { updateActionOmitFromToolbar action proxy with
        OmitFromToolbar := action.OmitFromToolbar } = action ∧
    updateActionOmitFromToolbar { action with OmitFromToolbar := none }
        { proxy with omitFromToolbar := [] }
      = { action with OmitFromToolbar := none } ∧
    updateActionOmitFromToolbar { action with OmitFromToolbar := some [] }
        { proxy with omitFromToolbar := [] }
      = { action with OmitFromToolbar := some [] } := by
  refine ⟨?_, ?_, rfl, rfl⟩
  · unfold updateActionOmitFromToolbar
    cases ho : action.OmitFromToolbar with
    | none =>
      cases hl : proxy.omitFromToolbar with
      | nil => simp [ho]
      | cons x xs => simp
    | some l =>
      cases l with
      | nil =>
        cases hl : proxy.omitFromToolbar with
        | nil => simp [ho]
        | cons x xs => simp
      | cons y ys =>
        cases hl : proxy.omitFromToolbar with
        | nil => simp
        | cons x xs => simp [or_assoc]
  · unfold updateActionOmitFromToolbar
    simp only []
    split <;> rfl

/-! ## The reentrancy flag -/

/-- C25: With `IsWritingSettings` set, `loadCategorySettings` changes nothing:
the Settings tree stays and no `categoriesUpdated` is emitted.  So
`writeCategoryToSettings`, whether or not the store notifies its change while
the write runs, leaves the manager as it was apart from the record of that one
write: no reload, no second write, the flag back at its former value. -/
theorem loadCategorySettings_guarded (lib : pqProxyCategoryOps)
    (m : pqProxyGroupMenuManager) (settings : pqSettings) :
    loadCategorySettings lib { m with IsWritingSettings := true } settings
      = { m with IsWritingSettings := true } ∧
    writeCategoryToSettings lib m settings
      = ({ m with log := m.log ++ [Event.writeCategoryToSettings] },
          lib.writeSettings m.SettingsCategory m.ResourceTagName settings) ∧
    writeCategoryToSettings { lib with modifiedOnWrite := true } m settings
      = ({ m with log := m.log ++ [Event.writeCategoryToSettings] },
          lib.writeSettings m.SettingsCategory m.ResourceTagName settings) := by
  have hw : ∀ l : pqProxyCategoryOps, writeCategoryToSettings l m settings
      = ({ m with log := m.log ++ [Event.writeCategoryToSettings] },
          l.writeSettings m.SettingsCategory m.ResourceTagName settings) := by
    intro l
    unfold writeCategoryToSettings loadCategorySettings
    cases l.modifiedOnWrite <;> rfl
  exact ⟨rfl, hw lib, hw _⟩

/-! ## Retrievals and the derived attributes -/

theorem updateActionShortcut_OmitFromToolbar (shortcuts : pqSettings) (a : QAction)
    (p : pqProxyInfo) :
    (updateActionShortcut shortcuts a p).OmitFromToolbar = a.OmitFromToolbar := by
  unfold updateActionShortcut
  simp only []
  repeat' split
  all_goals rfl

theorem updateActionIcon_OmitFromToolbar (pxm : vtkSMSessionProxyManager) (a : QAction)
    (p : pqProxyInfo) :
    (updateActionIcon pxm a p).OmitFromToolbar = a.OmitFromToolbar := by
  unfold updateActionIcon
  simp only []
  repeat' split
  all_goals rfl

theorem updateAction_OmitFromToolbar (env : Env) (a : QAction) (p : pqProxyInfo)
    (l : List QString) (hl : l ≠ []) (ha : a.OmitFromToolbar = some l) :
    (updateAction env a p).OmitFromToolbar = some (p.omitFromToolbar ++ l) := by
  have h1 : (updateActionIcon env.pxm (updateActionShortcut env.shortcuts a p) p).OmitFromToolbar
      = some l := by
    rw [updateActionIcon_OmitFromToolbar, updateActionShortcut_OmitFromToolbar, ha]
  unfold updateAction updateActionOmitFromToolbar
  simp only [h1]
  cases l with
  | nil => exact absurd rfl hl
  | cons x xs => simp

theorem updateAction_OmitFromToolbar_unset (env : Env) (a : QAction) (p : pqProxyInfo)
    (hp : p.omitFromToolbar ≠ []) (ha : a.OmitFromToolbar = none) :
    (updateAction env a p).OmitFromToolbar = some p.omitFromToolbar := by
  have h1 : (updateActionIcon env.pxm (updateActionShortcut env.shortcuts a p) p).OmitFromToolbar
      = none := by
    rw [updateActionIcon_OmitFromToolbar, updateActionShortcut_OmitFromToolbar, ha]
  unfold updateAction updateActionOmitFromToolbar
  simp only [h1]
  cases hl : p.omitFromToolbar with
  | nil => exact absurd hl hp
  | cons x xs => simp

theorem createAction_eq (env : Env) (m : pqProxyGroupMenuManager) (p : pqProxyInfo)
    (hproto : hasPrototype env.pxm p.group p.name = true) :
    createAction env m p
      = ({ m with
            Widget := widgetAddAction m.Widget m.heap.length
            CachedActions := fun k => if k = p.name then some m.heap.length
              else m.CachedActions k
            heap := m.heap ++ [some { updateAction env (freshAction p) p with
              triggeredConnected := true }] },
          some m.heap.length) := by
  unfold hasPrototype at hproto
  unfold createAction getPrototype freshAction
  simp only [QVariant.toStringList]
  cases hp : env.pxm.GetPrototypeProxy (toUtf8Data p.group) (toUtf8Data p.name) with
  | none =>
    rw [hp] at hproto
    cases hproto
  | some v => simp

theorem getActionInfo_hit (env : Env) (m : pqProxyGroupMenuManager) (p : pqProxyInfo)
    (a : Nat) (hc : m.CachedActions p.name = some a) :
    getActionInfo env m p
      = ({ m with heap := heapModify (fun x => updateAction env x p) a m.heap }, some a) := by
  unfold getActionInfo
  rw [hc]

theorem getActionInfo_miss (env : Env) (m : pqProxyGroupMenuManager) (p : pqProxyInfo)
    (hc : m.CachedActions p.name = none) :
    getActionInfo env m p = createAction env m p := by
  unfold getActionInfo
  rw [hc]

theorem length_flatten_replicate {α : Type} (k : Nat) (l : List α) :
    (List.replicate k l).flatten.length = k * l.length := by
  induction k with
  | zero => simp
  | succ n ih =>
    rw [List.replicate_succ, List.flatten_cons, List.length_append, ih]
    ring

theorem mem_flatten_replicate {α : Type} (k : Nat) (l : List α) (c : α) :
    c ∈ (List.replicate (k + 1) l).flatten ↔ c ∈ l := by
  induction k with
  | zero => simp
  | succ n ih =>
    rw [List.replicate_succ, List.flatten_cons, List.mem_append, ih]
    exact or_self_iff

theorem getActionInfoRepeat_omit (p : pqProxyInfo) (hL : p.omitFromToolbar ≠ [])
    (envs : List Env) (cur : pqProxyGroupMenuManager) (a j : Nat) (act : QAction)
    (hc : cur.CachedActions p.name = some a) (hget : heapGet cur.heap a = some act)
    (hact : act.OmitFromToolbar = some (List.replicate (j + 1) p.omitFromToolbar).flatten) :
    (getActionInfoRepeat p cur envs).CachedActions p.name = some a ∧
    (heapGet (getActionInfoRepeat p cur envs).heap a).map (fun x => x.OmitFromToolbar)
      = some (some (List.replicate (j + 1 + envs.length) p.omitFromToolbar).flatten) := by
  induction envs generalizing cur act j with
  | nil =>
    refine ⟨hc, ?_⟩
    show (heapGet cur.heap a).map _ = _
    rw [hget]
    exact congrArg some hact
  | cons env rest ih =>
    rw [getActionInfoRepeat, getActionInfo_hit env cur p a hc]
    have hne : (List.replicate (j + 1) p.omitFromToolbar).flatten ≠ [] := by
      intro e
      have h1 := congrArg List.length e
      rw [length_flatten_replicate] at h1
      have h2 : 0 < p.omitFromToolbar.length := List.length_pos.2 hL
      simp only [List.length_nil] at h1
      have h3 : 0 < (j + 1) * p.omitFromToolbar.length := Nat.mul_pos (Nat.succ_pos j) h2
      omega
    have hget1 : heapGet (heapModify (fun x => updateAction env x p) a cur.heap) a
        = some (updateAction env act p) := by
      rw [heapGet_heapModify, if_pos rfl, hget]
      rfl
    have hact1 : (updateAction env act p).OmitFromToolbar
        = some (List.replicate (j + 1 + 1) p.omitFromToolbar).flatten := by
      have hr : List.replicate (j + 1 + 1) p.omitFromToolbar
          = p.omitFromToolbar :: List.replicate (j + 1) p.omitFromToolbar :=
        List.replicate_succ _ _
      rw [updateAction_OmitFromToolbar env act p _ hne hact, hr, List.flatten_cons]
    have h := ih { cur with heap := heapModify (fun x => updateAction env x p) a cur.heap }
      (j + 1) (updateAction env act p) hc hget1 hact1
    have hlen : j + 1 + 1 + rest.length = j + 1 + (env :: rest).length := by
      simp only [List.length_cons]
      omega
    rw [hlen] at h
    exact h

/-- C30: For a ProxyInfo with a registered prototype whose `omitFromToolbar`
list L is not empty, the action that `createAction` makes carries L as its
`OmitFromToolbar` property, and after k further retrievals through
`getAction(pqProxyInfo*)`, each of which finds it in the cache, the property
is L repeated k + 1 times: it holds (k + 1) * |L| entries and its members are
those of L. -/
theorem omitFromToolbar_repeats (env : Env) (m : pqProxyGroupMenuManager) (p : pqProxyInfo)
    (envs : List Env) (hproto : hasPrototype env.pxm p.group p.name = true)
    (hL : p.omitFromToolbar ≠ []) :
    (createAction env m p).2 = some m.heap.length ∧
    (heapGet (createAction env m p).1.heap m.heap.length).map (fun x => x.OmitFromToolbar)
      = some (some p.omitFromToolbar) ∧
    (getActionInfoRepeat p (createAction env m p).1 envs).CachedActions p.name
      = some m.heap.length ∧
    (heapGet (getActionInfoRepeat p (createAction env m p).1 envs).heap m.heap.length).map
        (fun x => x.OmitFromToolbar)
      = some (some (List.replicate (envs.length + 1) p.omitFromToolbar).flatten) ∧
    (List.replicate (envs.length + 1) p.omitFromToolbar).flatten.length
      = (envs.length + 1) * p.omitFromToolbar.length ∧
    ∀ c, c ∈ (List.replicate (envs.length + 1) p.omitFromToolbar).flatten ↔
      c ∈ p.omitFromToolbar := by
  have hfresh : (updateAction env (freshAction p) p).OmitFromToolbar
      = some p.omitFromToolbar := updateAction_OmitFromToolbar_unset env _ p hL rfl
  rw [createAction_eq env m p hproto]
  have hget : heapGet (m.heap ++ [some { updateAction env (freshAction p) p with
      triggeredConnected := true }]) m.heap.length
      = some { updateAction env (freshAction p) p with triggeredConnected := true } :=
    heapGet_append_length _ _
  have hact : ({ updateAction env (freshAction p) p with triggeredConnected := true } :
      QAction).OmitFromToolbar = some (List.replicate (0 + 1) p.omitFromToolbar).flatten := by
    show (updateAction env (freshAction p) p).OmitFromToolbar = _
    rw [hfresh]
    simp
  have h := getActionInfoRepeat_omit p hL envs
    { m with
      Widget := widgetAddAction m.Widget m.heap.length
      CachedActions := fun k => if k = p.name then some m.heap.length else m.CachedActions k
      heap := m.heap ++ [some { updateAction env (freshAction p) p with
        triggeredConnected := true }] }
    m.heap.length 0 _ (if_pos rfl) hget hact
  have hlen : 0 + 1 + envs.length = envs.length + 1 := by omega
  rw [hlen] at h
  refine ⟨rfl, ?_, h.1, h.2, length_flatten_replicate _ _, fun c => mem_flatten_replicate _ _ c⟩
  show (heapGet (m.heap ++ [_]) m.heap.length).map _ = _
  rw [hget]
  exact congrArg (fun x => some x) hfresh

theorem omitFromToolbar_repeats_witness :
    hasPrototype fullEnv.pxm omittedStatProxy.group omittedStatProxy.name = true ∧
    omittedStatProxy.omitFromToolbar ≠ [] ∧
    ((createAction fullEnv treeManager omittedStatProxy).2 = some treeManager.heap.length ∧
    (heapGet (createAction fullEnv treeManager omittedStatProxy).1.heap
        treeManager.heap.length).map (fun x => x.OmitFromToolbar)
      = some (some omittedStatProxy.omitFromToolbar) ∧
    (getActionInfoRepeat omittedStatProxy (createAction fullEnv treeManager omittedStatProxy).1
        [fullEnv, shortcutEnv]).CachedActions omittedStatProxy.name
      = some treeManager.heap.length ∧
    (heapGet (getActionInfoRepeat omittedStatProxy
        (createAction fullEnv treeManager omittedStatProxy).1
        [fullEnv, shortcutEnv]).heap treeManager.heap.length).map
        (fun x => x.OmitFromToolbar)
      = some (some (List.replicate ([fullEnv, shortcutEnv].length + 1)
          omittedStatProxy.omitFromToolbar).flatten) ∧
    (List.replicate ([fullEnv, shortcutEnv].length + 1)
        omittedStatProxy.omitFromToolbar).flatten.length
      = ([fullEnv, shortcutEnv].length + 1) * omittedStatProxy.omitFromToolbar.length ∧
    ∀ c, c ∈ (List.replicate ([fullEnv, shortcutEnv].length + 1)
        omittedStatProxy.omitFromToolbar).flatten ↔
      c ∈ omittedStatProxy.omitFromToolbar) :=
  ⟨rfl, by decide,
    omitFromToolbar_repeats fullEnv treeManager omittedStatProxy [fullEnv, shortcutEnv] rfl
      (by decide)⟩

theorem createAction_result_some (env : Env) (m : pqProxyGroupMenuManager) (p : pqProxyInfo)
    (a : Nat) (h : (createAction env m p).2 = some a) :
    a = m.heap.length ∧
    (heapGet (createAction env m p).1.heap a).map derivedAttributes
      = some (derivedAttributes (updateAction env (freshAction p) p)) := by
  cases hproto : hasPrototype env.pxm p.group p.name with
  | false =>
    rw [createAction_none env m p hproto] at h
    cases h
  | true =>
    rw [createAction_eq env m p hproto] at h ⊢
    have ha : m.heap.length = a := Option.some.inj h
    subst ha
    refine ⟨rfl, ?_⟩
    show (heapGet (m.heap ++ [_]) m.heap.length).map _ = _
    rw [heapGet_append_length]
    rfl

/-- C21 (amended): A retrieval through `getAction(pqProxyInfo*)` that finds the
action in the cache replaces it by `updateAction` of itself for that ProxyInfo
and the current settings; a retrieval that creates the action, through either
overload, returns the fresh action with the shortcut, icon and
`OmitFromToolbar` property that `updateAction` derives for the ProxyInfo it
was created for.  A retrieval through `getAction(group, name)` that finds the
action in the cache returns it and changes nothing. -/
theorem retrieval_refreshes (env : Env) (m : pqProxyGroupMenuManager) (p : pqProxyInfo)
    (g n : QString) (a : Nat) :
    (m.CachedActions p.name = some a →
      (getActionInfo env m p).2 = some a ∧
      heapGet (getActionInfo env m p).1.heap a
        = (heapGet m.heap a).map (fun old => updateAction env old p)) ∧
    (m.CachedActions p.name = none → (getActionInfo env m p).2 = some a →
      (heapGet (getActionInfo env m p).1.heap a).map derivedAttributes
        = some (derivedAttributes (updateAction env (freshAction p) p))) ∧
    (m.CachedActions n = none → (getAction env m g n).2 = some a →
      ∃ q, findProxyInfo g n m.ApplicationCategory.getProxiesRecursive = some q ∧
        (heapGet (getAction env m g n).1.heap a).map derivedAttributes
          = some (derivedAttributes (updateAction env (freshAction q) q))) ∧
    (m.CachedActions n = some a →
      (getAction env m g n).1 = m ∧
      ((getAction env m g n).2 = some a ∨ (getAction env m g n).2 = none)) := by
  refine ⟨?_, ?_, ?_, ?_⟩
  · intro hc
    rw [getActionInfo_hit env m p a hc]
    refine ⟨rfl, ?_⟩
    show heapGet (heapModify _ a m.heap) a = _
    rw [heapGet_heapModify, if_pos rfl]
  · intro hc hres
    rw [getActionInfo_miss env m p hc] at hres ⊢
    exact (createAction_result_some env m p a hres).2
  · intro hc hres
    unfold getAction at hres ⊢
    split at hres
    · cases hres
    · next hne =>
      rw [if_neg hne]
      rw [hc] at hres ⊢
      simp only [] at hres ⊢
      cases hq : findProxyInfo g n m.ApplicationCategory.getProxiesRecursive with
      | none =>
        rw [hq] at hres
        cases hres
      | some q =>
        rw [hq] at hres
        simp only [] at hres ⊢
        exact ⟨q, rfl, (createAction_result_some env m q a hres).2⟩
  · intro hc
    unfold getAction
    split
    · exact ⟨rfl, Or.inr rfl⟩
    · rw [hc]
      exact ⟨rfl, Or.inl rfl⟩

/-- Instance of the refreshing retrievals: with the action of "Stat1" cached,
`getAction(pqProxyInfo*)` updates it in place; with an empty cache it creates
action 0 with the attributes derived for "Stat1". -/
theorem retrieval_refreshes_witness :
    (cachedStatManager []).CachedActions statProxy.name = some 0 ∧
    ((getActionInfo shortcutEnv (cachedStatManager []) statProxy).2 = some 0 ∧
      heapGet (getActionInfo shortcutEnv (cachedStatManager []) statProxy).1.heap 0
        = (heapGet (cachedStatManager []).heap 0).map
            (fun old => updateAction shortcutEnv old statProxy)) ∧
    treeManager.CachedActions statProxy.name = none ∧
    (getActionInfo shortcutEnv treeManager statProxy).2 = some 0 ∧
    (heapGet (getActionInfo shortcutEnv treeManager statProxy).1.heap 0).map derivedAttributes
      = some (derivedAttributes (updateAction shortcutEnv (freshAction statProxy) statProxy)) :=
  ⟨by decide,
    (retrieval_refreshes shortcutEnv (cachedStatManager []) statProxy "filters".toList
      "Stat1".toList 0).1 (by decide),
    by decide, by decide,
    (retrieval_refreshes shortcutEnv treeManager statProxy "filters".toList
      "Stat1".toList 0).2.1 (by decide) (by decide)⟩

/-- C21 (as stated) fails: with the action of the filter "Stat1" cached while
no shortcut was stored, and "Ctrl+1" stored for it afterwards,
`getAction("filters", "Stat1")` returns the cached action with its shortcut
still empty, whereas `getAction(pqProxyInfo*)` for the same proxy sets the
shortcut. -/
theorem getAction_by_name_keeps_stale_shortcut :
    (cachedStatManager []).CachedActions "Stat1".toList = some 0 ∧
    (getAction shortcutEnv (cachedStatManager []) "filters".toList "Stat1".toList).2
      = some 0 ∧
    (heapGet (getAction shortcutEnv (cachedStatManager []) "filters".toList
        "Stat1".toList).1.heap 0).map (fun act => act.shortcut)
      = some QKeySequence.empty ∧
    (heapGet (getActionInfo shortcutEnv (cachedStatManager []) statProxy).1.heap 0).map
        (fun act => act.shortcut)
      = some (QKeySequence.fromString "Ctrl+1".toList) := by
  refine ⟨by decide, by decide, by decide, by decide⟩

/-! ## The cache key -/

/-- C26: The cache is keyed by the proxy name alone.  Once `createAction` has
made and cached an action for a ProxyInfo (g1, n), `getAction(g2, n)` returns
that same action for every group g2, and `getAction` on any ProxyInfo named n
returns it too without allocating an action or adding one to the search pool;
the payload of the action stays [g1, n].  Groups and names are identifiers,
hence not empty. -/
theorem cache_keyed_by_name (env env2 : Env) (m : pqProxyGroupMenuManager)
    (p1 p2 : pqProxyInfo) (g2 : QString)
    (hproto : hasPrototype env.pxm p1.group p1.name = true)
    (hg2 : g2 ≠ []) (hn : p1.name ≠ []) (hp2 : p2.name = p1.name) :
    (createAction env m p1).2 = some m.heap.length ∧
    (createAction env m p1).1.CachedActions p1.name = some m.heap.length ∧
    (heapGet (createAction env m p1).1.heap m.heap.length).map (fun act => act.data)
      = some (QVariant.stringList [p1.group, p1.name]) ∧
    getAction env2 (createAction env m p1).1 g2 p1.name
      = ((createAction env m p1).1, some m.heap.length) ∧
    (getActionInfo env2 (createAction env m p1).1 p2).2 = some m.heap.length ∧
    (getActionInfo env2 (createAction env m p1).1 p2).1.heap.length
      = (createAction env m p1).1.heap.length ∧
    (getActionInfo env2 (createAction env m p1).1 p2).1.Widget
      = (createAction env m p1).1.Widget ∧
    (getActionInfo env2 (createAction env m p1).1 p2).1.CachedActions
      = (createAction env m p1).1.CachedActions ∧
    (heapGet (getActionInfo env2 (createAction env m p1).1 p2).1.heap m.heap.length).map
        (fun act => act.data)
      = some (QVariant.stringList [p1.group, p1.name]) := by
  have hne : (p1.name.isEmpty || g2.isEmpty) = false := by
    cases g2 with
    | nil => exact absurd rfl hg2
    | cons c cs =>
      cases hp : p1.name with
      | nil => exact absurd hp hn
      | cons d ds => rfl
  have hcache : (createAction env m p1).1.CachedActions p1.name = some m.heap.length := by
    rw [createAction_eq env m p1 hproto]
    exact if_pos rfl
  have hcache2 : (createAction env m p1).1.CachedActions p2.name = some m.heap.length := by
    rw [hp2]
    exact hcache
  have hdata : (heapGet (createAction env m p1).1.heap m.heap.length).map (fun act => act.data)
      = some (QVariant.stringList [p1.group, p1.name]) := by
    rw [createAction_eq env m p1 hproto]
    show (heapGet (m.heap ++ [_]) m.heap.length).map _ = _
    rw [heapGet_append_length]
    show some (updateAction env (freshAction p1) p1).data = _
    rw [updateAction_data]
    rfl
  refine ⟨?_, hcache, hdata, getAction_cached env2 _ g2 p1.name _ hne hcache, ?_, ?_, ?_, ?_, ?_⟩
  · rw [createAction_eq env m p1 hproto]
  · rw [getActionInfo_hit env2 _ p2 _ hcache2]
  · rw [getActionInfo_hit env2 _ p2 _ hcache2]
    exact length_heapModify _ _ _
  · rw [getActionInfo_hit env2 _ p2 _ hcache2]
  · rw [getActionInfo_hit env2 _ p2 _ hcache2]
  · rw [getActionInfo_hit env2 _ p2 _ hcache2]
    show (heapGet (heapModify _ m.heap.length (createAction env m p1).1.heap)
      m.heap.length).map _ = _
    rw [heapGet_heapModify, if_pos rfl, Option.map_map, ← hdata]
    congr 1
    funext act
    exact updateAction_data env2 act p2

theorem cache_keyed_by_name_witness :
    hasPrototype fullEnv.pxm statProxy.group statProxy.name = true ∧
    "sources".toList ≠ [] ∧ statProxy.name ≠ [] ∧ sourceStatProxy.name = statProxy.name ∧
    ((createAction fullEnv treeManager statProxy).2 = some treeManager.heap.length ∧
    (createAction fullEnv treeManager statProxy).1.CachedActions statProxy.name
      = some treeManager.heap.length ∧
    (heapGet (createAction fullEnv treeManager statProxy).1.heap
        treeManager.heap.length).map (fun act => act.data)
      = some (QVariant.stringList [statProxy.group, statProxy.name]) ∧
    getAction filtersEnv (createAction fullEnv treeManager statProxy).1 "sources".toList
        statProxy.name
      = ((createAction fullEnv treeManager statProxy).1, some treeManager.heap.length) ∧
    (getActionInfo filtersEnv (createAction fullEnv treeManager statProxy).1 sourceStatProxy).2
      = some treeManager.heap.length ∧
    (getActionInfo filtersEnv (createAction fullEnv treeManager statProxy).1
        sourceStatProxy).1.heap.length
      = (createAction fullEnv treeManager statProxy).1.heap.length ∧
    (getActionInfo filtersEnv (createAction fullEnv treeManager statProxy).1
        sourceStatProxy).1.Widget
      = (createAction fullEnv treeManager statProxy).1.Widget ∧
    (getActionInfo filtersEnv (createAction fullEnv treeManager statProxy).1
        sourceStatProxy).1.CachedActions
      = (createAction fullEnv treeManager statProxy).1.CachedActions ∧
    (heapGet (getActionInfo filtersEnv (createAction fullEnv treeManager statProxy).1
        sourceStatProxy).1.heap treeManager.heap.length).map (fun act => act.data)
      = some (QVariant.stringList [statProxy.group, statProxy.name])) :=
  ⟨rfl, by decide, by decide, rfl,
    cache_keyed_by_name fullEnv filtersEnv treeManager statProxy sourceStatProxy
      "sources".toList rfl (by decide) (by decide) rfl⟩

/-- The guard of `getAction(group, name)`: an empty group or name, which no
proxy has, is turned away before the cache is looked at, so the call returns
nothing even when an action is cached under the name. -/
theorem getAction_empty_group_returns_nothing :
    (createAction fullEnv treeManager statProxy).2 = some 0 ∧
    (createAction fullEnv treeManager statProxy).1.CachedActions "Stat1".toList = some 0 ∧
    statProxy.group ≠ [] ∧
    (getAction fullEnv (createAction fullEnv treeManager statProxy).1 []
      "Stat1".toList).2 = none := by
  refine ⟨by decide, by decide, by decide, by decide⟩

/-! ## Two managers on one settings store -/

theorem triggered_outcome (env : Env) (m : pqProxyGroupMenuManager) (settings : pqSettings)
    (act : QAction) (d0 d1 : QString) (hd : act.data.toStringList = [d0, d1])
    (hpos : 0 < m.RecentlyUsedMenuSize) (hlt : m.RecentlyUsedMenuSize < 2 ^ 31) :
    ∃ m1, triggered env m settings (some act)
        = some (m1, settings.setValue (recentKey m) (QVariant.string (recentValue
            (((d0, d1) :: m.RecentlyUsed.filter
              (fun e => decide (e ≠ (d0, d1)))).take m.RecentlyUsedMenuSize)))) ∧
      m1.RecentlyUsed = parseRecentlyUsed (recentValue
        (((d0, d1) :: m.RecentlyUsed.filter
          (fun e => decide (e ≠ (d0, d1)))).take m.RecentlyUsedMenuSize)) ∧
      m1.ResourceTagName = m.ResourceTagName := by
  obtain ⟨m2, hm2, htr⟩ := triggered_small env m settings act d0 d1 hd hpos hlt
  have hfr := eraseMenus_populateRecentlyUsedMenu env m2 (saveRecentlyUsedItems m2 settings)
  have hsave : saveRecentlyUsedItems m2 settings
      = settings.setValue (recentKey m) (QVariant.string (recentValue
          (((d0, d1) :: m.RecentlyUsed.filter
            (fun e => decide (e ≠ (d0, d1)))).take m.RecentlyUsedMenuSize))) := by
    rw [hm2]
    rfl
  refine ⟨populateRecentlyUsedMenu env m2 (saveRecentlyUsedItems m2 settings), ?_, ?_, ?_⟩
  · rw [htr, hsave]
  · rw [eraseMenus_RecentlyUsed hfr, load_save m2 m2 settings rfl, hm2]
  · rw [eraseMenus_ResourceTagName hfr, hm2]
    unfold loadRecentlyUsedItems
    simp only []
    split <;> rfl

theorem recentKey_of_tag (m m1 : pqProxyGroupMenuManager)
    (h : m1.ResourceTagName = m.ResourceTagName) : recentKey m1 = recentKey m := by
  unfold recentKey
  rw [h]

/-- C29 (amended): Two managers A and B share a resource tag and a settings
store, both have an empty in-memory Recent list and a bound of at least 2 and
below 2^31.  If A activates x and then B activates y, different from x, with a
non-empty group and name free of `;` and `|` and a group free of `%`, both
handlers return, the string persisted under the shared key is the text of the
one-entry list [y], B's reloaded list is [y], and a reload by A gives [y] too:
the entry x of A is lost from the store. -/
theorem second_manager_overwrites (envA envB : Env) (A B : pqProxyGroupMenuManager)
    (settings : pqSettings) (actX actY : QAction) (x y : QString × QString)
    (htag : B.ResourceTagName = A.ResourceTagName)
    (hA : A.RecentlyUsed = []) (hB : B.RecentlyUsed = [])
    (hA2 : 2 ≤ A.RecentlyUsedMenuSize) (hAlt : A.RecentlyUsedMenuSize < 2 ^ 31)
    (hB2 : 2 ≤ B.RecentlyUsedMenuSize) (hBlt : B.RecentlyUsedMenuSize < 2 ^ 31)
    (hx : actX.data.toStringList = [x.1, x.2]) (hy : actY.data.toStringList = [y.1, y.2])
    (hyok : RecentEntryOk y) (hxy : y ≠ x) :
    ∃ A1 s1 B1 s2,
      triggered envA A settings (some actX) = some (A1, s1) ∧
      s1 (recentKey A) = some (QVariant.string (recentValue [x])) ∧
      triggered envB B s1 (some actY) = some (B1, s2) ∧
      s2 (recentKey B) = some (QVariant.string (recentValue [y])) ∧
      parseRecentlyUsed (storedString s2 (recentKey B)) = [y] ∧
      B1.RecentlyUsed = [y] ∧ x ∉ B1.RecentlyUsed ∧
      (loadRecentlyUsedItems A1 s2).RecentlyUsed = [y] := by
  obtain ⟨A1, hA1, _, hA1tag⟩ := triggered_outcome envA A settings actX x.1 x.2 hx
    (by omega) hAlt
  obtain ⟨B1, hB1, hB1list, _⟩ := triggered_outcome envB B
    (settings.setValue (recentKey A) (QVariant.string (recentValue
      (((x.1, x.2) :: A.RecentlyUsed.filter
        (fun e => decide (e ≠ (x.1, x.2)))).take A.RecentlyUsedMenuSize))))
    actY y.1 y.2 hy (by omega) hBlt
  have hlist : ((y.1, y.2) :: B.RecentlyUsed.filter
      (fun e => decide (e ≠ (y.1, y.2)))).take B.RecentlyUsedMenuSize = [y] := by
    rw [hB]
    obtain ⟨k, hk⟩ : ∃ k, B.RecentlyUsedMenuSize = k + 1 :=
      ⟨B.RecentlyUsedMenuSize - 1, by omega⟩
    rw [hk]
    simp
  rw [hlist] at hB1 hB1list
  have hlistA : ((x.1, x.2) :: A.RecentlyUsed.filter
      (fun e => decide (e ≠ (x.1, x.2)))).take A.RecentlyUsedMenuSize = [x] := by
    rw [hA]
    obtain ⟨k, hk⟩ : ∃ k, A.RecentlyUsedMenuSize = k + 1 :=
      ⟨A.RecentlyUsedMenuSize - 1, by omega⟩
    rw [hk]
    simp
  rw [hlistA] at hA1 hB1
  have hparse : parseRecentlyUsed (recentValue [y]) = [y] :=
    parse_recentValue [y] (fun e he => by
      rw [List.mem_singleton.1 he]
      exact hyok)
  rw [hparse] at hB1list
  have hkeyA1 : recentKey A1 = recentKey B := by
    rw [recentKey_of_tag A A1 hA1tag, recentKey_of_tag A B htag]
  refine ⟨A1, _, B1, _, hA1, ?_, hB1, ?_, ?_, hB1list, ?_, ?_⟩
  · show (if recentKey A = recentKey A then some _ else _) = _
    rw [if_pos rfl]
  · show (if recentKey B = recentKey B then some _ else _) = _
    rw [if_pos rfl]
  · rw [storedString_setValue, hparse]
  · rw [hB1list]
    intro hmem
    exact hxy (List.mem_singleton.1 hmem).symm
  · rw [loadRecentlyUsedItems_stored, hkeyA1, storedString_setValue, hparse]

theorem second_manager_overwrites_witness :
    boundThreeManager.ResourceTagName = boundThreeManager.ResourceTagName ∧
    boundThreeManager.RecentlyUsed = [] ∧
    2 ≤ boundThreeManager.RecentlyUsedMenuSize ∧
    boundThreeManager.RecentlyUsedMenuSize < 2 ^ 31 ∧
    (payloadAction "filters" "Stat1").data.toStringList
      = [(entry "filters" "Stat1").1, (entry "filters" "Stat1").2] ∧
    (payloadAction "sources" "Sphere").data.toStringList
      = [(entry "sources" "Sphere").1, (entry "sources" "Sphere").2] ∧
    RecentEntryOk (entry "sources" "Sphere") ∧
    entry "sources" "Sphere" ≠ entry "filters" "Stat1" ∧
    ∃ A1 s1 B1 s2,
      triggered fullEnv boundThreeManager emptySettings
        (some (payloadAction "filters" "Stat1")) = some (A1, s1) ∧
      s1 (recentKey boundThreeManager)
        = some (QVariant.string (recentValue [entry "filters" "Stat1"])) ∧
      triggered fullEnv boundThreeManager s1
        (some (payloadAction "sources" "Sphere")) = some (B1, s2) ∧
      s2 (recentKey boundThreeManager)
        = some (QVariant.string (recentValue [entry "sources" "Sphere"])) ∧
      parseRecentlyUsed (storedString s2 (recentKey boundThreeManager))
        = [entry "sources" "Sphere"] ∧
      B1.RecentlyUsed = [entry "sources" "Sphere"] ∧
      entry "filters" "Stat1" ∉ B1.RecentlyUsed ∧
      (loadRecentlyUsedItems A1 s2).RecentlyUsed = [entry "sources" "Sphere"] :=
  ⟨rfl, rfl, by decide, by decide, rfl, rfl, by decide, by decide,
    second_manager_overwrites fullEnv fullEnv boundThreeManager boundThreeManager emptySettings
      (payloadAction "filters" "Stat1") (payloadAction "sources" "Sphere")
      (entry "filters" "Stat1") (entry "sources" "Sphere") rfl rfl rfl (by decide) (by decide)
      (by decide) (by decide) rfl rfl (by decide) (by decide)⟩

/-- C29 (as stated) fails: when the pair y that B activates has a name with a
`;`, the handlers return but B's reloaded list is empty, not [y]: the stored
text of y makes three pieces and is dropped by the reload. -/
theorem second_manager_reload_drops_entry :
    entry "a" "b;c" ≠ entry "filters" "Stat1" ∧
    ∃ A1 s1 B1 s2,
      triggered fullEnv boundThreeManager emptySettings
        (some (payloadAction "filters" "Stat1")) = some (A1, s1) ∧
      triggered fullEnv boundThreeManager s1 (some (payloadAction "a" "b;c"))
        = some (B1, s2) ∧
      B1.RecentlyUsed = [] ∧ B1.RecentlyUsed ≠ [entry "a" "b;c"] ∧
      parseRecentlyUsed (storedString s2 (recentKey boundThreeManager)) = [] := by
  refine ⟨by decide, ?_⟩
  obtain ⟨A1, hA1, _, _⟩ := triggered_outcome fullEnv boundThreeManager emptySettings
    (payloadAction "filters" "Stat1") "filters".toList "Stat1".toList rfl (by decide) (by decide)
  obtain ⟨B1, hB1, hB1list, _⟩ := triggered_outcome fullEnv boundThreeManager
    (emptySettings.setValue (recentKey boundThreeManager) (QVariant.string (recentValue
      ((("filters".toList, "Stat1".toList) :: boundThreeManager.RecentlyUsed.filter
        (fun e => decide (e ≠ ("filters".toList, "Stat1".toList)))).take
          boundThreeManager.RecentlyUsedMenuSize))))
    (payloadAction "a" "b;c") "a".toList "b;c".toList rfl (by decide) (by decide)
  have hl : B1.RecentlyUsed = [] := by
    rw [hB1list]
    decide
  refine ⟨A1, _, B1, _, hA1, hB1, hl, ?_, ?_⟩
  · rw [hl]
    decide
  · rw [storedString_setValue]
    decide

/-! ## The "Add current filter" entries -/

/-- C24 (failing input): For the category favorite ("categories", "Cat1;Cat2")
`populateFavoritesMenu` creates the sub-menu "Cat1" and in it the sub-menu
"Cat2"; the root entry is bound to the empty path and the entry of "Cat2" to
"Cat1;Cat2", but the entry of "Cat1" is bound to "Cat1;Cat2" too, not to
"Cat1": the path handed to `getAddToCategoryAction` is the join of all the
segments, whatever the level.  The same happens for the proxy favorite
("filters", "Cat1;Cat2;Stat1;Stat1"). -/
theorem submenu_entry_bound_to_whole_path :
    (populateFavoritesMenu fullEnv menuManager (favoritesSettings "categories;Cat1;Cat2|")).map
        (fun m1 => m1.FavoritesMenu.map (fun menu =>
          (menuAddPathsAt [] menu, menuAddPathsAt ["Cat1".toList] menu,
            menuAddPathsAt ["Cat1".toList, "Cat2".toList] menu)))
      = some (some ([[]], ["Cat1;Cat2".toList], ["Cat1;Cat2".toList])) ∧
    (populateFavoritesMenu fullEnv menuManager
        (favoritesSettings "filters;Cat1;Cat2;Stat1;Stat1|")).map
        (fun m1 => m1.FavoritesMenu.map (fun menu =>
          (menuAddPathsAt [] menu, menuAddPathsAt ["Cat1".toList] menu,
            menuAddPathsAt ["Cat1".toList, "Cat2".toList] menu)))
      = some (some ([[]], ["Cat1;Cat2".toList], ["Cat1;Cat2".toList])) ∧
    "Cat1;Cat2".toList ≠ "Cat1".toList := by
  refine ⟨by decide, by decide, by decide⟩

/-! ## Place markers in a stored group -/

/-- C28 (failing input): The one-entry Recent list [("%1", "x")] has a
non-empty group and name without `;` and `|`, yet `saveRecentlyUsedItems`
stores the text "x;%2|" for it and `loadRecentlyUsedItems` reads back
[("x", "%2")]: the second of the chained `arg` calls takes the `%1` that the
first one has just inserted for the place marker to fill.  The second half of
the claim holds: the list [("a", "b;c")], whose name holds a `;`, is not read
back either. -/
theorem recent_roundtrip_breaks_on_place_marker :
    (entry "%1" "x").1 ≠ [] ∧ (entry "%1" "x").2 ≠ [] ∧
    ';' ∉ (entry "%1" "x").1 ∧ '|' ∉ (entry "%1" "x").1 ∧
    ';' ∉ (entry "%1" "x").2 ∧ '|' ∉ (entry "%1" "x").2 ∧
    recentValue [entry "%1" "x"] = "x;%2|".toList ∧
    (loadRecentlyUsedItems { RecentlyUsed := [entry "%1" "x"] }
        (saveRecentlyUsedItems { RecentlyUsed := [entry "%1" "x"] } emptySettings)).RecentlyUsed
      = [entry "x" "%2"] ∧
    [entry "x" "%2"] ≠ [entry "%1" "x"] ∧
    (loadRecentlyUsedItems { RecentlyUsed := [entry "a" "b;c"] }
        (saveRecentlyUsedItems { RecentlyUsed := [entry "a" "b;c"] } emptySettings)).RecentlyUsed
      = [] := by
  refine ⟨by decide, by decide, by decide, by decide, by decide, by decide, by decide, ?_,
    by decide, ?_⟩
  · rw [load_save _ _ _ rfl]
    decide
  · rw [load_save _ _ _ rfl]
    decide


/-! ## The search pool and the cache stay consistent -/

theorem poolConsistent_of_pool {m m1 : pqProxyGroupMenuManager}
    (h : poolOf m1 = poolOf m) (hm : PoolConsistent m) : PoolConsistent m1 := by
  have hc : m1.CachedActions = m.CachedActions := congrArg Prod.fst h
  have hh : m1.heap = m.heap := congrArg (fun x => x.2.1) h
  have hw : m1.Widget = m.Widget := congrArg (fun x => x.2.2) h
  unfold PoolConsistent actions at *
  rw [hc, hh, hw]
  exact hm

theorem poolConsistent_of_empty (m : pqProxyGroupMenuManager)
    (hw : m.Widget = []) (hc : m.CachedActions = fun _ => none) : PoolConsistent m := by
  unfold PoolConsistent actions
  rw [hw, hc]
  refine ⟨?_, ?_, ?_⟩
  · intro a
    constructor
    · intro h
      cases h
    · rintro ⟨k, hk⟩
      cases hk
  · intro k1 k2 a h
    cases h
  · intro k a h
    cases h

theorem mem_widgetAddAction (l : List Nat) (a b : Nat) :
    b ∈ widgetAddAction l a ↔ b ∈ l ∨ b = a := by
  unfold widgetAddAction
  by_cases hba : b = a
  · simp [hba]
  · simp [hba]

theorem createAction_consistent (env : Env) (m : pqProxyGroupMenuManager) (p : pqProxyInfo)
    (hmiss : m.CachedActions p.name = none) (hm : PoolConsistent m) :
    PoolConsistent (createAction env m p).1 := by
  obtain ⟨h1, h2, h3⟩ := hm
  have hlive : ∀ k a, m.CachedActions k = some a → a < m.heap.length := by
    intro k a hk
    obtain ⟨act, g, hact, _⟩ := h3 k a hk
    exact heapGet_lt_of_isSome m.heap a (by rw [hact]; rfl)
  cases hproto : hasPrototype env.pxm p.group p.name with
  | false =>
    rw [createAction_none env m p hproto]
    refine ⟨h1, h2, ?_⟩
    intro k a hk
    obtain ⟨act, g, hact, hd⟩ := h3 k a hk
    exact ⟨act, g, heapGet_append_some _ _ _ _ hact, hd⟩
  | true =>
    rw [createAction_eq env m p hproto]
    refine ⟨?_, ?_, ?_⟩
    · intro a
      show a ∈ widgetAddAction m.Widget m.heap.length ↔
        ∃ k, (if k = p.name then some m.heap.length else m.CachedActions k) = some a
      rw [mem_widgetAddAction]
      constructor
      · rintro (ha | ha)
        · obtain ⟨k, hk⟩ := (h1 a).1 ha
          refine ⟨k, ?_⟩
          have hne : k ≠ p.name := by
            intro e
            rw [e, hmiss] at hk
            cases hk
          rw [if_neg hne]
          exact hk
        · exact ⟨p.name, by rw [if_pos rfl, ha]⟩
      · rintro ⟨k, hk⟩
        by_cases hkn : k = p.name
        · rw [if_pos hkn] at hk
          exact Or.inr (Option.some.inj hk).symm
        · rw [if_neg hkn] at hk
          exact Or.inl ((h1 a).2 ⟨k, hk⟩)
    · intro k1 k2 a hk1 hk2
      simp only [] at hk1 hk2
      by_cases e1 : k1 = p.name
      · by_cases e2 : k2 = p.name
        · rw [e1, e2]
        · rw [if_pos e1] at hk1
          rw [if_neg e2] at hk2
          have hlt := hlive k2 a hk2
          have := Option.some.inj hk1
          omega
      · by_cases e2 : k2 = p.name
        · rw [if_neg e1] at hk1
          rw [if_pos e2] at hk2
          have hlt := hlive k1 a hk1
          have := Option.some.inj hk2
          omega
        · rw [if_neg e1] at hk1
          rw [if_neg e2] at hk2
          exact h2 k1 k2 a hk1 hk2
    · intro k a hk
      simp only [] at hk ⊢
      by_cases e1 : k = p.name
      · rw [if_pos e1] at hk
        have ha := (Option.some.inj hk).symm
        rw [ha, heapGet_append_length]
        refine ⟨_, p.group, rfl, ?_⟩
        show (updateAction env (freshAction p) p).data = _
        rw [updateAction_data, e1]
        rfl
      · rw [if_neg e1] at hk
        obtain ⟨act, g, hact, hd⟩ := h3 k a hk
        exact ⟨act, g, heapGet_append_some _ _ _ _ hact, hd⟩

theorem getActionInfo_consistent (env : Env) (m : pqProxyGroupMenuManager) (p : pqProxyInfo)
    (hm : PoolConsistent m) : PoolConsistent (getActionInfo env m p).1 := by
  cases hc : m.CachedActions p.name with
  | none =>
    rw [getActionInfo_miss env m p hc]
    exact createAction_consistent env m p hc hm
  | some a =>
    rw [getActionInfo_hit env m p a hc]
    obtain ⟨h1, h2, h3⟩ := hm
    refine ⟨h1, h2, ?_⟩
    intro k b hk
    obtain ⟨act, g, hact, hd⟩ := h3 k b hk
    show ∃ act g, heapGet (heapModify (fun x => updateAction env x p) a m.heap) b = some act ∧
      act.data = QVariant.stringList [g, k]
    rw [heapGet_heapModify]
    by_cases hba : b = a
    · rw [if_pos hba, hact]
      exact ⟨_, g, rfl, by rw [updateAction_data]; exact hd⟩
    · rw [if_neg hba]
      exact ⟨act, g, hact, hd⟩

theorem getAction_consistent (env : Env) (m : pqProxyGroupMenuManager) (g f : QString)
    (hm : PoolConsistent m) : PoolConsistent (getAction env m g f).1 := by
  unfold getAction
  split
  · exact hm
  · cases hc : m.CachedActions f with
    | some a => exact hm
    | none =>
      simp only []
      cases hq : findProxyInfo g f m.ApplicationCategory.getProxiesRecursive with
      | none => exact hm
      | some proxy =>
        simp only []
        have hname : proxy.name = f := (findProxyInfo_some g f _ proxy hq).2.1
        exact createAction_consistent env m proxy (by rw [hname]; exact hc) hm

theorem populateAlphabeticalStep_consistent (env : Env)
    (acc : pqProxyGroupMenuManager × List Nat) (p : pqProxyInfo)
    (hm : PoolConsistent acc.1) : PoolConsistent (populateAlphabeticalStep env acc p).1 := by
  have h := getActionInfo_consistent env acc.1 p hm
  unfold populateAlphabeticalStep
  split
  · next m1 a heq =>
    rw [heq] at h
    split <;> exact h
  · next m1 heq =>
    rw [heq] at h
    exact h

theorem foldl_alphabetical_consistent (env : Env) (l : List pqProxyInfo)
    (acc : pqProxyGroupMenuManager × List Nat) (hm : PoolConsistent acc.1) :
    PoolConsistent (l.foldl (populateAlphabeticalStep env) acc).1 := by
  induction l generalizing acc with
  | nil => exact hm
  | cons p ps ih =>
    rw [List.foldl_cons]
    exact ih _ (populateAlphabeticalStep_consistent env acc p hm)

theorem populateAlphabeticalMenu_consistent (env : Env) (m : pqProxyGroupMenuManager)
    (hm : PoolConsistent m) : PoolConsistent (populateAlphabeticalMenu env m) := by
  unfold populateAlphabeticalMenu
  split
  · exact hm
  · simp only []
    have h0 : PoolConsistent { m with AlphabeticalMenu := some [] } :=
      poolConsistent_of_pool rfl hm
    have h := foldl_alphabetical_consistent env m.ApplicationCategory.getProxiesRecursive
      ({ m with AlphabeticalMenu := some [] }, []) h0
    exact poolConsistent_of_pool rfl h

theorem populateMenu_consistent (env : Env) (m : pqProxyGroupMenuManager)
    (hm : PoolConsistent m) : PoolConsistent (populateMenu env m) := by
  unfold populateMenu
  simp only []
  have key : ∀ x : pqProxyGroupMenuManager, poolOf x = poolOf m →
      PoolConsistent { (populateAlphabeticalMenu env { x with AlphabeticalMenu := some [] }) with
          MiscMenu := some [],
          log := (populateAlphabeticalMenu env { x with AlphabeticalMenu := some [] }).log
            ++ [Event.menuPopulated] } := by
    intro x hx
    have h0 : PoolConsistent { x with AlphabeticalMenu := some [] } :=
      poolConsistent_of_pool hx hm
    exact poolConsistent_of_pool rfl (populateAlphabeticalMenu_consistent env _ h0)
  apply key
  split <;> split <;> split <;> rfl

theorem lookForNewDefinitions_consistent (lib : pqProxyCategoryOps)
    (pxm : Option vtkSMSessionProxyManager) (shortcuts : pqSettings)
    (m : pqProxyGroupMenuManager) (settings : pqSettings) (hm : PoolConsistent m) :
    PoolConsistent (lookForNewDefinitions lib pxm shortcuts m settings).1 := by
  unfold lookForNewDefinitions
  cases pxm with
  | none => exact hm
  | some reg =>
    simp only []
    split
    · exact hm
    · exact populateMenu_consistent ⟨reg, shortcuts⟩ _
        (poolConsistent_of_pool (pool_foldl_sweep lib _ (m, settings)) hm)

theorem switchActiveServer_consistent (lib : pqProxyCategoryOps) (newActiveSession : Option Nat)
    (pxm : Option vtkSMSessionProxyManager) (shortcuts : pqSettings)
    (m : pqProxyGroupMenuManager) (settings : pqSettings) (hm : PoolConsistent m) :
    PoolConsistent (switchActiveServer lib newActiveSession pxm shortcuts m settings).1 := by
  unfold switchActiveServer
  split
  · simp only []
    exact lookForNewDefinitions_consistent lib pxm shortcuts _ settings
      (poolConsistent_of_empty _ rfl rfl)
  · exact hm

theorem poolStep_consistent (lib : pqProxyCategoryOps)
    (st : pqProxyGroupMenuManager × pqSettings) (op : PoolOp)
    (hm : PoolConsistent st.1) (hop : op.recreates st.1 = false) :
    PoolConsistent (poolStep lib st op).1 := by
  cases op with
  | getAction env g f => exact getAction_consistent env st.1 g f hm
  | getActionInfo env p => exact getActionInfo_consistent env st.1 p hm
  | createAction env p =>
    have hmiss : st.1.CachedActions p.name = none := by
      have h : (st.1.CachedActions p.name).isSome = false := hop
      cases hc : st.1.CachedActions p.name with
      | none => rfl
      | some a =>
        rw [hc] at h
        cases h
    exact createAction_consistent env st.1 p hmiss hm
  | populateMenu env => exact populateMenu_consistent env st.1 hm
  | switchActiveServer s pxm shortcuts =>
    exact switchActiveServer_consistent lib s pxm shortcuts st.1 st.2 hm

theorem poolRun_consistent (lib : pqProxyCategoryOps) (ops : List PoolOp)
    (st : pqProxyGroupMenuManager × pqSettings)
    (hm : PoolConsistent st.1) (hops : createsOnMissOnly lib st ops = true) :
    PoolConsistent (poolRun lib st ops).1 := by
  induction ops generalizing st with
  | nil => exact hm
  | cons op rest ih =>
    have h : (!(op.recreates st.1) && createsOnMissOnly lib (poolStep lib st op) rest) = true :=
      hops
    rw [Bool.and_eq_true] at h
    have hop : op.recreates st.1 = false := by
      cases hr : op.recreates st.1 with
      | false => rfl
      | true =>
        rw [hr] at h
        exact absurd h.1 (by decide)
    exact ih (poolStep lib st op) (poolStep_consistent lib st op hm hop) h.2

theorem constructManager_consistent (lib : pqProxyCategoryOps) (env : Env) (tag : QString)
    (quick : Bool) (size : Nat) (favorites : Bool) (settings : pqSettings) :
    PoolConsistent (constructManager lib env tag quick size favorites settings) := by
  unfold constructManager
  exact populateMenu_consistent env _
    (poolConsistent_of_pool (pool_loadCategorySettings lib _ settings)
      (poolConsistent_of_empty _ rfl rfl))

/-- C27: A freshly constructed manager has a consistent pool, and from a
manager with a consistent pool every sequence of `getAction` (either
overload), `createAction`, `populateMenu` and `switchActiveServer` calls ends
with a consistent pool: `actions()` holds exactly the values of the cache, no
action is cached under two names, and an action cached under a name carries a
payload whose name component is that name.  A `createAction` call listed in the
sequence is made as the two call sites of the method make it, after a miss in
the cache for the name. -/
theorem pool_consistent_after_calls (lib : pqProxyCategoryOps) (env : Env) (tag : QString)
    (quick : Bool) (size : Nat) (favorites : Bool)
    (settings0 : pqSettings) (m : pqProxyGroupMenuManager) (settings : pqSettings)
    (ops : List PoolOp) (hm : PoolConsistent m)
    (hops : createsOnMissOnly lib (m, settings) ops = true) :
    PoolConsistent (constructManager lib env tag quick size favorites settings0) ∧
    PoolConsistent (poolRun lib (m, settings) ops).1 :=
  ⟨constructManager_consistent lib env tag quick size favorites settings0,
    poolRun_consistent lib ops (m, settings) hm hops⟩

/-- Instance of the consistency of the pool: the calls of `poolCalls` on a
manager with an empty pool whose tree holds "Stat1" and "Sphere". -/
theorem pool_consistent_after_calls_witness :
    PoolConsistent recentMenuManager ∧
    createsOnMissOnly trivialOps (recentMenuManager, emptySettings) poolCalls = true ∧
    PoolConsistent (constructManager trivialOps fullEnv "filters".toList true 10 true
      emptySettings) ∧
    PoolConsistent (poolRun trivialOps (recentMenuManager, emptySettings) poolCalls).1 :=
  ⟨poolConsistent_of_empty _ rfl rfl, by decide,
    pool_consistent_after_calls trivialOps fullEnv "filters".toList true 10 true emptySettings
      recentMenuManager emptySettings poolCalls (poolConsistent_of_empty _ rfl rfl) (by decide)⟩

/-- Why a listed `createAction` call is taken after a cache miss: the method
itself does not look at the cache, so two calls for the filter "Stat1" in a
row, which neither call site makes, would leave the actions 0 and 1 in the pool
widget while the cache holds only action 1. -/
theorem createAction_twice_leaves_uncached_action :
    createTwice = [PoolOp.createAction fullEnv statProxy, PoolOp.createAction fullEnv statProxy] ∧
    actions (poolRun trivialOps (treeManager, emptySettings) createTwice).1 = [0, 1] ∧
    (poolRun trivialOps (treeManager, emptySettings) createTwice).1.CachedActions "Stat1".toList
      = some 1 ∧
    (∀ k, (poolRun trivialOps (treeManager, emptySettings) createTwice).1.CachedActions k
      ≠ some 0) := by
  refine ⟨rfl, by decide, by decide, ?_⟩
  intro k
  show (if k = "Stat1".toList then some 1
    else if k = "Stat1".toList then some 0 else none) ≠ some 0
  by_cases hk : k = "Stat1".toList
  · rw [if_pos hk]
    decide
  · rw [if_neg hk, if_neg hk]
    exact fun h => Option.noConfusion h

end PGMM
